import Mathlib

/-!
Verification development for an in-memory recommendation engine
(custom hash table, skip-list purchase history, bitmap index,
TTL cache, similarity and recommendation layer).

Conventions of the embedding:
* Python dicts are association lists in insertion order (`alookup` is dict
  lookup, `assocSet` is dict assignment, `bumpScore` is `d[k] += s` on a
  `defaultdict`).
* Python floats are modelled as exact rationals `ℚ`; the cosine similarity
  value, which involves a square root, lives in `ℝ`.
* Python string comparison is lexicographic on code points; `strLtB`
  implements exactly that, structurally (so that it evaluates by kernel
  reduction, which the builtin iterator-based `String.ltb` does not).
* Python `sorted`/`list.sort`/`heapq.nlargest` are stable; they are modelled
  by `List.insertionSort`, which is stable for the non-strict relations used
  here.
-/

namespace S2P

/-- Dict lookup: first binding of the key in an association list. -/
def alookup {α : Type} : List (String × α) → String → Option α
  | [], _ => none
  | (k, v) :: rest, key => if k = key then some v else alookup rest key

/-- Dict assignment `d[k] = v`: overwrite in place, else append (Python dicts
keep insertion order and keep the position of an overwritten key). -/
def assocSet {α : Type} (l : List (String × α)) (k : String) (v : α) :
    List (String × α) :=
  if (alookup l k).isSome then
    l.map (fun p => if p.1 = k then (p.1, v) else p)
  else l ++ [(k, v)]

/-- Accumulation `d[k] += s` on a `defaultdict(float)`. -/
def bumpScore (l : List (String × ℚ)) (k : String) (s : ℚ) :
    List (String × ℚ) :=
  if (alookup l k).isSome then
    l.map (fun p => if p.1 = k then (p.1, p.2 + s) else p)
  else l ++ [(k, s)]

/-- Lexicographic code-point comparison of character lists, the order Python
uses on strings.  Written with `Char` order so it reduces in the kernel. -/
def charsLtB : List Char → List Char → Bool
  | _, [] => false
  | [], _ :: _ => true
  | a :: as, b :: bs =>
    if a < b then true else if b < a then false else charsLtB as bs

/-- Python string `<`. -/
def strLtB (a b : String) : Bool := charsLtB a.data b.data

/- ----------------------------------------------------------------
KeyedTable: `OptimizedHashTable` (src/src/optimized_hash_table.py).

Stored values are `Option V`: Python can store `None`, and `get` returns
`None` both for a missing key and for a stored `None`.
---------------------------------------------------------------- -/

structure HashTable (V : Type) where
  capacity : Nat
  size : Nat
  buckets : List (List (String × Option V))

/-- Fresh table of a given capacity (`__init__` / the fresh table built by
`_resize`). -/
def emptyTable (V : Type) (cap : Nat) : HashTable V :=
  ⟨cap, 0, List.replicate cap []⟩

/-- FNV-1a, 32-bit masked, over the code points of the key (`_hash` before
the final modulus). -/
def fnv32 (key : String) : Nat :=
  key.data.foldl (fun h c => ((h ^^^ c.toNat) * 16777619) % 4294967296)
    2166136261

/-- Bucket index of a key (`_hash`): the empty key hashes to 0. -/
def hashIdx (key : String) (capacity : Nat) : Nat :=
  if key = "" then 0 else fnv32 key % capacity

/-- The bucket scan of `insert`: replace the pair in place if the key is
present, else append; the flag is `True` for a new key. -/
def bucketInsert {V : Type} (k : String) (v : Option V) :
    List (String × Option V) → List (String × Option V) × Bool
  | [] => ([(k, v)], true)
  | (k1, v1) :: rest =>
    if k1 = k then ((k, v) :: rest, false)
    else
      let r := bucketInsert k v rest
      ((k1, v1) :: r.1, r.2)

/-- The part of `insert` after the load-factor check: hash, update the
bucket, bump the size on a new key. -/
def insertBase {V : Type} (t : HashTable V) (k : String) (v : Option V) :
    HashTable V :=
  let i := hashIdx k t.capacity
  let r := bucketInsert k v (t.buckets.getD i [])
  { t with
    buckets := t.buckets.set i r.1
    size := if r.2 then t.size + 1 else t.size }

/-- Full `insert` (for nonempty keys), with `_resize` inlined.  The source
recursion `insert → _resize → insert → ...` is unbounded syntactically, so it
is indexed by a fuel that bounds the nesting depth of `_resize`; on every
well-formed table one unit of fuel is enough (the load condition can never
re-trigger while `_resize` re-inserts, see `rehash_foldl_spec`), so with
fuel at least 1 this is exactly the source behaviour. -/
def insertGo {V : Type} : Nat → HashTable V → String → Option V → HashTable V
  | 0, t, k, v => insertBase t k v
  | fuel + 1, t, k, v =>
    let t1 :=
      if 3 * t.capacity < 4 * t.size then
        (t.buckets.flatten).foldl (fun acc p => insertGo fuel acc p.1 p.2)
          (emptyTable V (2 * t.capacity))
      else t
    insertBase t1 k v

/-- The `insert` operation on a nonempty key (the source raises `ValueError`
on the empty key; `HashTable.insert` below wraps that check). -/
def HashTable.insertOp {V : Type} (t : HashTable V) (k : String)
    (v : Option V) : HashTable V :=
  insertGo (t.size + 1) t k v

/-- The public `insert`, with the empty-key `ValueError`. -/
def HashTable.insertE {V : Type} (t : HashTable V) (k : String)
    (v : Option V) : Except String (HashTable V) :=
  if k = "" then .error "Key cannot be empty" else .ok (t.insertOp k v)

/-- The `get` operation: scan the bucket of the key; `None` for the empty
key, a missing key, or a stored `None`. -/
def HashTable.get {V : Type} (t : HashTable V) (k : String) : Option V :=
  if k = "" then none
  else
    match (t.buckets.getD (hashIdx k t.capacity) []).find?
        (fun p => p.1 = k) with
    | some p => p.2
    | none => none

/-- The bucket scan of `delete`: remove the first pair with the key. -/
def bucketDelete {V : Type} (k : String) :
    List (String × Option V) → List (String × Option V) × Bool
  | [] => ([], false)
  | (k1, v1) :: rest =>
    if k1 = k then (rest, true)
    else
      let r := bucketDelete k rest
      ((k1, v1) :: r.1, r.2)

/-- The `delete` operation: `False` (and no change) for the empty key or a
missing key, else remove and decrement the size. -/
def HashTable.deleteOp {V : Type} (t : HashTable V) (k : String) :
    HashTable V × Bool :=
  if k = "" then (t, false)
  else
    let i := hashIdx k t.capacity
    let r := bucketDelete k (t.buckets.getD i [])
    if r.2 then
      ({ t with buckets := t.buckets.set i r.1, size := t.size - 1 }, true)
    else (t, false)

/-- The `contains` operation: `get(key) is not None`. -/
def HashTable.containsKey {V : Type} (t : HashTable V) (k : String) : Bool :=
  (t.get k).isSome

/-- The `__getitem__` operation: raises `KeyError` exactly when `get`
returns `None`. -/
def HashTable.getItem {V : Type} (t : HashTable V) (k : String) :
    Except String V :=
  match t.get k with
  | some v => .ok v
  | none => .error ("Key " ++ k ++ " not found")

/-- All stored pairs in bucket order (`items`). -/
def HashTable.entries {V : Type} (t : HashTable V) :
    List (String × Option V) :=
  t.buckets.flatten

/-- All stored keys in bucket order (`keys`). -/
def HashTable.keysList {V : Type} (t : HashTable V) : List String :=
  t.entries.map Prod.fst

/-- Abstract view of the table: the first stored pair with the given key. -/
def lookupEntry {V : Type} (t : HashTable V) (k : String) :
    Option (Option V) :=
  (t.entries.find? (fun p => p.1 = k)).map (·.2)

/-- An insert or delete step on the table. -/
inductive TOp (V : Type) where
  | ins (k : String) (v : Option V)
  | del (k : String)

/-- Key touched by a step. -/
def TOp.key {V : Type} : TOp V → String
  | .ins k _ => k
  | .del k => k

/-- Apply one step. -/
def applyTOp {V : Type} (t : HashTable V) : TOp V → HashTable V
  | .ins k v => t.insertOp k v
  | .del k => (t.deleteOp k).1

/-- Run a sequence of operations from a fresh table with the default
initial capacity 16. -/
def runOps (V : Type) (ops : List (TOp V)) : HashTable V :=
  ops.foldl applyTOp (emptyTable V 16)

/-- The reference map semantics of an operation sequence: the value of the
most recent insert of the key, unless a later delete removed it. -/
def specMap {V : Type} (ops : List (TOp V)) (k : String) : Option (Option V) :=
  ops.foldl
    (fun m op =>
      match op with
      | .ins k1 v => if k1 = k then some v else m
      | .del k1 => if k1 = k then none else m)
    none

/-- Well-formedness of a hash table state; every state reachable from a
fresh table satisfies it.  The load bound `4*size ≤ 3*capacity + 4` is the
strongest invariant the threshold check `size/capacity > 0.75` maintains. -/
structure HTWF0 {V : Type} (t : HashTable V) : Prop where
  cap_pos : 1 ≤ t.capacity
  bucket_count : t.buckets.length = t.capacity
  size_eq : t.size = t.entries.length
  nodupb : ∀ b ∈ t.buckets, (b.map Prod.fst).Nodup
  placed : ∀ i, (h : i < t.buckets.length) → ∀ p ∈ t.buckets[i],
    p.1 ≠ "" ∧ hashIdx p.1 t.capacity = i

/-- Full well-formedness adds the load bound, the strongest invariant the
threshold check `size/capacity > 0.75` maintains across inserts. -/
structure HTWF {V : Type} (t : HashTable V) extends HTWF0 t : Prop where
  load : 4 * t.size ≤ 3 * t.capacity + 4

/- ----------------------------------------------------------------
OrderedSequence: `SkipListPurchaseHistory` (src/src/skip_list.py).

The pointer structure of a skip list is equivalent to its level-0 node list
(each node also carrying its tower height): the multi-level search walk of
the source lands, on any key-sorted state, at the first level-0 node whose
key is not less than the target, which is the `dropWhile` split below.
The random level drawn by `_random_level` (always at most `max_level`) is
passed in as an explicit parameter.
---------------------------------------------------------------- -/

/-- Purchase data dict (only numeric fields are relevant to the model). -/
def PData := List (String × ℚ)

/-- A skip-list node: key, payload, tower height. -/
structure SkipNode where
  itemId : String
  data : PData
  lvl : Nat

/-- Skip-list state: the level-0 chain (in list order), the current top
level, and the size counter. -/
structure SkipList where
  nodes : List SkipNode
  level : Nat
  size : Nat

/-- Fresh skip list (`__init__`, `max_level = 4`). -/
def emptySkip : SkipList := ⟨[], 0, 0⟩

/-- Maximum tower height (`max_level`). -/
def skipMaxLevel : Nat := 4

/-- The `add_purchase` operation: `None` data is normalised to the empty
dict; an existing key has its payload replaced in place (no size change);
a new key is spliced in at the sorted position with the drawn level. -/
def addPurchase (s : SkipList) (randLvl : Nat) (itemId : String)
    (pd : Option PData) : SkipList :=
  let data := pd.getD []
  let pre := s.nodes.takeWhile (fun n => strLtB n.itemId itemId)
  let post := s.nodes.dropWhile (fun n => strLtB n.itemId itemId)
  match post with
  | n :: rest =>
    if n.itemId = itemId then
      { s with nodes := pre ++ { n with data := data } :: rest }
    else
      let nl := min randLvl skipMaxLevel
      { nodes := pre ++ ⟨itemId, data, nl⟩ :: post
        level := max s.level nl
        size := s.size + 1 }
  | [] =>
    let nl := min randLvl skipMaxLevel
    { nodes := pre ++ [⟨itemId, data, nl⟩]
      level := max s.level nl
      size := s.size + 1 }

/-- The `search_purchase` operation. -/
def searchPurchase (s : SkipList) (itemId : String) : Option PData :=
  match s.nodes.dropWhile (fun n => strLtB n.itemId itemId) with
  | n :: _ => if n.itemId = itemId then some n.data else none
  | [] => none

/-- The `delete_purchase` operation: splice the node out of every level and
shrink the active level while the top levels are empty. -/
def deletePurchase (s : SkipList) (itemId : String) : SkipList × Bool :=
  let pre := s.nodes.takeWhile (fun n => strLtB n.itemId itemId)
  let post := s.nodes.dropWhile (fun n => strLtB n.itemId itemId)
  match post with
  | n :: rest =>
    if n.itemId = itemId then
      let nodes1 := pre ++ rest
      ({ nodes := nodes1
         level := min s.level ((nodes1.map (·.lvl)).foldl max 0)
         size := s.size - 1 }, true)
    else (s, false)
  | [] => (s, false)

/-- The `to_list` operation: the level-0 walk. -/
def skipToList (s : SkipList) : List String :=
  s.nodes.map (·.itemId)

/-- An operation on the skip list (the insert carries the random draw). -/
inductive SOp where
  | add (randLvl : Nat) (itemId : String) (pd : Option PData)
  | del (itemId : String)

/-- Apply one skip-list operation. -/
def applySOp (s : SkipList) : SOp → SkipList
  | .add lvl k pd => addPurchase s lvl k pd
  | .del k => (deletePurchase s k).1

/-- Run a sequence of operations from the empty skip list. -/
def runSkip (ops : List SOp) : SkipList :=
  ops.foldl applySOp emptySkip

/-- Well-formedness of the skip list: the level-0 chain is strictly sorted
by item id and the size counter matches the chain length. -/
structure SkWF (s : SkipList) : Prop where
  sorted : s.nodes.Pairwise (fun m n => strLtB m.itemId n.itemId = true)
  size_eq : s.size = s.nodes.length

/- ----------------------------------------------------------------
SetIndex: `BitmapIndex` (src/src/bitmap_index.py).

Python sets of integer handles are modelled as duplicate-free lists in
insertion order (membership is all the claims use).
---------------------------------------------------------------- -/

structure BitmapIndex where
  bitmaps : List (String × List Nat)
  itemToIndex : List (String × Nat)
  indexToItem : List (Nat × String)
  indexCounter : Nat
  totalItems : Nat

/-- Fresh bitmap index. -/
def emptyBitmap : BitmapIndex := ⟨[], [], [], 0, 0⟩

/-- Handle lookup. -/
def idxLookup : List (Nat × String) → Nat → Option String
  | [], _ => none
  | (n, s) :: rest, m => if n = m then some s else idxLookup rest m

/-- The `add_item` operation: assign a fresh dense handle on first sight,
then add the handle to the attribute set. -/
def addItem (bi : BitmapIndex) (category itemId : String) : BitmapIndex :=
  let bi1 :=
    if (alookup bi.itemToIndex itemId).isSome then bi
    else
      { bi with
        itemToIndex := bi.itemToIndex ++ [(itemId, bi.indexCounter)]
        indexToItem := bi.indexToItem ++ [(bi.indexCounter, itemId)]
        indexCounter := bi.indexCounter + 1
        totalItems := bi.totalItems + 1 }
  let idx := (alookup bi1.itemToIndex itemId).getD 0
  match alookup bi1.bitmaps category with
  | none => { bi1 with bitmaps := bi1.bitmaps ++ [(category, [idx])] }
  | some s =>
    if idx ∈ s then bi1
    else
      { bi1 with
        bitmaps := bi1.bitmaps.map
          (fun p => if p.1 = category then (p.1, p.2 ++ [idx]) else p) }

/-- The `remove_item` operation: drop the handle from the attribute set and
drop the attribute entirely when its set becomes empty. -/
def removeItem (bi : BitmapIndex) (category itemId : String) : BitmapIndex :=
  match alookup bi.itemToIndex itemId with
  | none => bi
  | some idx =>
    match alookup bi.bitmaps category with
    | none => bi
    | some s =>
      if idx ∈ s then
        let s1 := s.filter (fun n => n ≠ idx)
        if s1 = [] then
          { bi with bitmaps := bi.bitmaps.filter (fun p => p.1 ≠ category) }
        else
          { bi with
            bitmaps := bi.bitmaps.map
              (fun p => if p.1 = category then (p.1, s1) else p) }
      else bi

/-- Resolve a set of handles back to item identifiers (under the reachable
invariant every handle resolves, so the `filterMap` never skips). -/
def resolveIdxs (bi : BitmapIndex) (s : List Nat) : List String :=
  s.filterMap (fun n => idxLookup bi.indexToItem n)

/-- The `get_items` operation. -/
def getItems (bi : BitmapIndex) (category : String) : List String :=
  resolveIdxs bi ((alookup bi.bitmaps category).getD [])

/-- The loop of `get_items_intersection` over the remaining categories:
an absent category aborts with `None` (the early `return []`). -/
def interGo (bi : BitmapIndex) : List String → List Nat → Option (List Nat)
  | [], acc => some acc
  | c :: cs, acc =>
    match alookup bi.bitmaps c with
    | none => none
    | some s => interGo bi cs (acc.filter (fun n => n ∈ s))

/-- The `get_items_intersection` operation. -/
def getItemsIntersection (bi : BitmapIndex) (cats : List String) :
    List String :=
  match cats with
  | [] => []
  | c0 :: rest =>
    match interGo bi rest ((alookup bi.bitmaps c0).getD []) with
    | none => []
    | some res => resolveIdxs bi res

/-- The `get_items_union` operation: absent categories are skipped. -/
def getItemsUnion (bi : BitmapIndex) (cats : List String) : List String :=
  match cats with
  | [] => []
  | _ =>
    let res := cats.foldl
      (fun acc c =>
        match alookup bi.bitmaps c with
        | none => acc
        | some s => acc ++ s.filter (fun n => n ∉ acc))
      []
    resolveIdxs bi res

/-- An operation on the bitmap index. -/
inductive BOp where
  | add (category itemId : String)
  | rem (category itemId : String)

/-- Apply one bitmap operation. -/
def applyBOp (bi : BitmapIndex) : BOp → BitmapIndex
  | .add c i => addItem bi c i
  | .rem c i => removeItem bi c i

/-- Run a sequence of operations from the empty index. -/
def runBitmap (ops : List BOp) : BitmapIndex :=
  ops.foldl applyBOp emptyBitmap

/-- Well-formedness of the bitmap index: the two handle maps are mutually
inverse and the handle counter is fresh. -/
structure BWF (bi : BitmapIndex) : Prop where
  pair_iff : ∀ s n, alookup bi.itemToIndex s = some n ↔
    idxLookup bi.indexToItem n = some s
  ctr_big : ∀ p ∈ bi.indexToItem, p.1 < bi.indexCounter

/- ----------------------------------------------------------------
RecommendationCache: the TTL cache of `OptimizedRecommenderSystem`
(`_is_cache_valid`, `_update_cache_timestamp`, `_clean_cache`,
and the `cache[key] = result` / `key in cache and valid` pattern of the
recommendation methods).  Timestamps are rationals standing for
`time.time()` values.
---------------------------------------------------------------- -/

structure RecCacheState (V : Type) where
  recommendationCache : List (String × V)
  cacheTimestamps : List (String × ℚ)
  cacheTtl : ℚ

/-- Fresh cache state (`cache_ttl = 3600`). -/
def initCache (V : Type) : RecCacheState V := ⟨[], [], 3600⟩

/-- The `_is_cache_valid` check. -/
def isCacheValid {V : Type} (c : RecCacheState V) (now : ℚ) (key : String) :
    Bool :=
  match alookup c.cacheTimestamps key with
  | none => false
  | some ts => decide (now - ts < c.cacheTtl)

/-- The read pattern `key in cache and _is_cache_valid(key)`. -/
def cacheFetch {V : Type} (c : RecCacheState V) (now : ℚ) (key : String) :
    Option V :=
  match alookup c.recommendationCache key with
  | some v => if isCacheValid c now key then some v else none
  | none => none

/-- The write pattern `cache[key] = v; _update_cache_timestamp(key)`. -/
def cacheStore {V : Type} (c : RecCacheState V) (now : ℚ) (key : String)
    (v : V) : RecCacheState V :=
  { c with
    recommendationCache := assocSet c.recommendationCache key v
    cacheTimestamps := assocSet c.cacheTimestamps key now }

/-- The `_clean_cache` operation: collect the keys whose age is at least the
ttl, then pop them from the timestamp dict and from the result dict. -/
def cleanCache {V : Type} (c : RecCacheState V) (now : ℚ) :
    RecCacheState V :=
  let expired := (c.cacheTimestamps.filter
    (fun p => decide (c.cacheTtl ≤ now - p.2))).map Prod.fst
  { c with
    cacheTimestamps :=
      c.cacheTimestamps.filter (fun p => !(expired.contains p.1))
    recommendationCache :=
      c.recommendationCache.filter (fun p => !(expired.contains p.1)) }

/- ----------------------------------------------------------------
UserLedger: `User` / `UserStore` (src/src/user.py).

Purchase-record dicts are modelled with rational values; only the
`total_amount` field is ever read numerically.
---------------------------------------------------------------- -/

/-- A user record: attribute dict, purchase history (most recent first, as
`LinkedPurchaseHistory` prepends), preference and spending accumulators. -/
structure PUser where
  info : List (String × String)
  purchases : List (String × PData)
  preferences : List (String × ℚ)
  categorySpend : List (String × ℚ)
  totalSpent : ℚ

/-- Fresh user record (`User.__init__`). -/
def newPUser (info : Option (List (String × String))) : PUser :=
  ⟨info.getD [], [], [], [], 0⟩

/-- The amount used for the preference update in `User.add_purchase`:
`purchase_data.get("total_amount", 0) if purchase_data else 1.0` — note that
both `None` and the empty dict are falsy, and that a nonempty dict without
the field contributes 0, not the unit weight. -/
def amountOf (pd : Option PData) : ℚ :=
  match pd with
  | none => 1
  | some [] => 1
  | some d => (alookup d "total_amount").getD 0

/-- The `User.add_purchase` operation. -/
def PUser.addPurchase (u : PUser) (itemId category : String)
    (pd : Option PData) : PUser :=
  let amount := amountOf pd
  { u with
    purchases := (itemId, pd.getD []) :: u.purchases
    preferences := bumpScore u.preferences category amount
    categorySpend := bumpScore u.categorySpend category amount
    totalSpent := u.totalSpent + amount }

/-- The user store: user dict plus the per-user category list index. -/
structure UStore where
  users : List (String × PUser)
  userCategories : List (String × List String)

/-- Fresh user store. -/
def emptyUStore : UStore := ⟨[], []⟩

/-- The `UserStore.add_user` operation: a no-op when the identifier is
already present. -/
def UStore.addUser (st : UStore) (userId : String)
    (info : Option (List (String × String))) : UStore :=
  if (alookup st.users userId).isSome then st
  else { st with users := st.users ++ [(userId, newPUser info)] }

/-- The `UserStore.add_purchase` operation: upsert the user, extend the
history and accumulators, and record the category in the per-user list. -/
def UStore.addPurchase (st : UStore) (userId itemId category : String)
    (pd : Option PData) : UStore :=
  let st1 := st.addUser userId none
  let users2 := st1.users.map
    (fun p => if p.1 = userId then (p.1, p.2.addPurchase itemId category pd)
              else p)
  let cats := (alookup st1.userCategories userId).getD []
  let cats2 := if category ∈ cats then cats else cats ++ [category]
  { users := users2
    userCategories := assocSet st1.userCategories userId cats2 }

/-- Preference weight of a category for a user of the store (0 when the
user or the category is absent). -/
def prefOf (st : UStore) (userId category : String) : ℚ :=
  match alookup st.users userId with
  | none => 0
  | some u => (alookup u.preferences category).getD 0

/-- Total spend of a user of the store (0 when absent). -/
def totalOf (st : UStore) (userId : String) : ℚ :=
  match alookup st.users userId with
  | none => 0
  | some u => u.totalSpent

/-- Purchase history of a user of the store. -/
def purchasesOf (st : UStore) (userId : String) : List (String × PData) :=
  match alookup st.users userId with
  | none => []
  | some u => u.purchases

/- ----------------------------------------------------------------
Catalog: `Product` / `ProductStore` (src/src/product.py) and
`OptimizedProductStore` (src/src/optimized_hash_table.py).

The open keyword dict of product attributes is modelled by the explicit
record of the fields the code reads.
---------------------------------------------------------------- -/

structure PInfo where
  brand : Option String
  price : Option ℚ
  stock : Option ℚ
  availability : Option String

/-- Attribute record with no field set. -/
def noInfo : PInfo := ⟨none, none, none, none⟩

/-- A product record (`Product`): an `info` of `none` stands for a `None`
or empty attribute dict (both falsy in the source). -/
structure ProductRec where
  category : String
  info : Option PInfo

/-- The dict-based product store. -/
structure PStore where
  items : List (String × ProductRec)
  categoryIndex : List (String × List String)
  brandIndex : List (String × List String)
  priceRangeIndex : List (String × List String)

/-- Fresh dict-based product store. -/
def emptyPStore : PStore := ⟨[], [], [], []⟩

/-- Append to a `defaultdict(list)` index (no duplicate check). -/
def appendIndex (idx : List (String × List String)) (key item : String) :
    List (String × List String) :=
  match alookup idx key with
  | some l => assocSet idx key (l ++ [item])
  | none => idx ++ [(key, [item])]

/-- The price bucketing of `ProductStore._get_price_range`. -/
def priceRangePS (price : ℚ) : String :=
  if price < 50 then "0-50"
  else if price < 100 then "50-100"
  else if price < 200 then "100-200"
  else "200+"

/-- The `ProductStore.add_product` operation: overwrite the record, append
to the category index unconditionally, and, when an attribute dict is
present, append to the brand index (default brand "unknown") and to the
price-range index (default price 0). -/
def PStore.addProduct (st : PStore) (itemId category : String)
    (info : Option PInfo) : PStore :=
  let st1 :=
    { st with
      items := assocSet st.items itemId ⟨category, info⟩
      categoryIndex := appendIndex st.categoryIndex category itemId }
  match info with
  | none => st1
  | some inf =>
    { st1 with
      brandIndex := appendIndex st1.brandIndex (inf.brand.getD "unknown")
        itemId
      priceRangeIndex := appendIndex st1.priceRangeIndex
        (priceRangePS (inf.price.getD 0)) itemId }

/-- The hash-table-based product store (`OptimizedProductStore`). -/
structure OPStore where
  items : HashTable ProductRec
  categoryIndex : HashTable (List String)
  brandIndex : HashTable (List String)
  priceIndex : HashTable (List String)

/-- Fresh optimized product store (initial capacity 1000). -/
def emptyOPStore : OPStore :=
  ⟨emptyTable ProductRec 1000, emptyTable (List String) 1000,
   emptyTable (List String) 1000, emptyTable (List String) 1000⟩

/-- The `_update_category_index` / `_update_brand_index` /
`_update_price_index` pattern: insert a fresh singleton list, or append the
item only when it is not already listed. -/
def updateHTIndex (idx : HashTable (List String)) (key item : String) :
    HashTable (List String) :=
  match idx.get key with
  | none => idx.insertOp key (some [item])
  | some l => if item ∈ l then idx else idx.insertOp key (some (l ++ [item]))

/-- The price bucketing of `OptimizedProductStore._get_price_range`. -/
def priceRangeOPS (price : ℚ) : String :=
  if price < 10 then "0-10"
  else if price < 50 then "10-50"
  else if price < 100 then "50-100"
  else if price < 500 then "100-500"
  else "500+"

/-- The `OptimizedProductStore.add_product` operation: a complete no-op when
the identifier is already present (the second load is ignored). -/
def OPStore.addProduct (st : OPStore) (itemId category : String)
    (info : Option PInfo) : OPStore :=
  if (st.items.get itemId).isSome then st
  else
    let st1 :=
      { st with items := st.items.insertOp itemId (some ⟨category, info⟩) }
    let st2 :=
      { st1 with
        categoryIndex := updateHTIndex st1.categoryIndex category itemId }
    match info with
    | none => st2
    | some inf =>
      let st3 :=
        match inf.brand with
        | some b =>
          { st2 with brandIndex := updateHTIndex st2.brandIndex b itemId }
        | none => st2
      match inf.price with
      | some pr =>
        { st3 with
          priceIndex := updateHTIndex st3.priceIndex (priceRangeOPS pr)
            itemId }
      | none => st3

/- ----------------------------------------------------------------
SimilarityEngine: `_compute_cosine_similarity_cached`
(src/src/optimized_recommender.py).  The value lives in `ℝ` because the
magnitudes are square roots; all the data it is built from is rational and
computable.
---------------------------------------------------------------- -/

/-- Category set of a preference dict (Python `set(prefs.keys())`). -/
def prefKeys (p : List (String × ℚ)) : List String :=
  (p.map Prod.fst).dedup

/-- Categories common to both preference dicts. -/
def sharedCats (p q : List (String × ℚ)) : List String :=
  (prefKeys p).filter (fun c => (alookup q c).isSome)

/-- Weight of a category in a preference dict. -/
def prefVal (p : List (String × ℚ)) (c : String) : ℚ :=
  (alookup p c).getD 0

/-- Dot product over the shared categories only. -/
def dotShared (p q : List (String × ℚ)) : ℚ :=
  ((sharedCats p q).map (fun c => prefVal p c * prefVal q c)).sum

/-- Squared first magnitude, summed over the shared categories only. -/
def mag2Fst (p q : List (String × ℚ)) : ℚ :=
  ((sharedCats p q).map (fun c => prefVal p c * prefVal p c)).sum

/-- Squared second magnitude, summed over the shared categories only. -/
def mag2Snd (p q : List (String × ℚ)) : ℚ :=
  ((sharedCats p q).map (fun c => prefVal q c * prefVal q c)).sum

/-- Cosine similarity of two preference dicts, exactly as the source
computes it: 0 when no category is shared, 0 when either magnitude over the
shared categories is 0, else the quotient.  (Python computes with floats;
the embedding computes the same expression with exact reals, hence the
square roots and the `noncomputable` marker.) -/
noncomputable def cosineSim (p q : List (String × ℚ)) : ℝ :=
  if sharedCats p q = [] then 0
  else if Real.sqrt (mag2Fst p q) = 0 ∨ Real.sqrt (mag2Snd p q) = 0 then 0
  else (dotShared p q : ℝ) /
    (Real.sqrt (mag2Fst p q) * Real.sqrt (mag2Snd p q))

/-- The `get_preferences(normalized=True)` view of a preference dict: the
empty dict stays empty, otherwise every weight is divided by the total. -/
def normalizePrefs (prefs : List (String × ℚ)) : List (String × ℚ) :=
  if prefs = [] then []
  else
    let total := (prefs.map (·.2)).sum
    prefs.map (fun p => (p.1, p.2 / total))

/-- `_compute_cosine_similarity_cached` at the user-store level: 0 when
either user id is unknown, else the cosine similarity of the two users'
normalized preference dicts. -/
noncomputable def computeCosineSimilarity (st : UStore) (u1 u2 : String) :
    ℝ :=
  match alookup st.users u1, alookup st.users u2 with
  | some a, some b =>
      cosineSim (normalizePrefs a.preferences) (normalizePrefs b.preferences)
  | _, _ => 0

/- ----------------------------------------------------------------
Recommender: the read-side world and the recommendation strategies
(src/src/optimized_recommender.py, cache-miss paths, which coincide with
src/src/recommender.py for content and hybrid).
---------------------------------------------------------------- -/

/-- Read view of a user: raw preference dict and purchased item ids
(`get_items()` order). -/
structure UserR where
  prefs : List (String × ℚ)
  items : List String

/-- Read view of a product: the fields `_is_item_available` reads. -/
structure ProdView where
  stock : Option ℚ
  availability : Option String

/-- Read view of the stores: users and products in dict insertion order,
plus the category → items index (`get_items_by_category`). -/
structure World where
  users : List (String × UserR)
  products : List (String × ProdView)
  catIndex : List (String × List String)

/-- Items of a user (empty for an unknown user). -/
def itemsOf (w : World) (userId : String) : List String :=
  match alookup w.users userId with
  | some u => u.items
  | none => []

/-- The `_is_item_available` check: the product exists, its stock is absent
or positive, and its availability is not "out_of_stock". -/
def isAvailable (w : World) (itemId : String) : Bool :=
  match alookup w.products itemId with
  | none => false
  | some p =>
    (match p.stock with
     | none => true
     | some s => decide (0 < s)) &&
    decide (p.availability ≠ some "out_of_stock")

/-- The `get_items_by_category` lookup (an absent category gives []). -/
def itemsInCategory (w : World) (category : String) : List String :=
  (alookup w.catIndex category).getD []

/-- The stable descending sort key `lambda x: x[1], reverse=True`. -/
def byScoreDesc (a b : String × ℚ) : Prop := b.2 ≤ a.2

instance : DecidableRel byScoreDesc :=
  fun a b => inferInstanceAs (Decidable (b.2 ≤ a.2))

/-- The inner loop of `recommend_by_category`: walk the category item list,
appending unowned, unrepeated, available items until the target length is
reached (the `break` after an append and the guard at the loop head both
amount to stopping as soon as the accumulator is full). -/
def fillFromItems (k : Nat) (userItems : List String) (w : World)
    (acc : List String) : List String → List String
  | [] => acc
  | it :: rest =>
    if k ≤ acc.length then acc
    else
      let acc1 :=
        if !(userItems.contains it) && !(acc.contains it) && isAvailable w it
        then acc ++ [it] else acc
      fillFromItems k userItems w acc1 rest

/-- The outer loop of `recommend_by_category` over the preference-sorted
categories. -/
def fillFromCats (k : Nat) (userItems : List String) (w : World)
    (acc : List String) : List (String × ℚ) → List String
  | [] => acc
  | c :: cs =>
    if k ≤ acc.length then acc
    else fillFromCats k userItems w
      (fillFromItems k userItems w acc (itemsInCategory w c.1)) cs

/-- The `recommend_by_category` operation (content-based strategy; the
cached variant computes the same list on a cache miss). -/
def recommendByCategory (w : World) (userId : String) (topK : Nat) :
    List String :=
  match alookup w.users userId with
  | none => []
  | some u =>
    let cats := List.insertionSort byScoreDesc (normalizePrefs u.prefs)
    (fillFromCats topK u.items w [] cats).take topK

/-- The `get_similar_users_cached` operation, parameterised by the pairwise
similarity values (the floating-point cosine of the source): keep the other
users with positive similarity, stable-sort by similarity descending, and
take the first `topN`. -/
def getSimilarUsers (simf : String → String → ℚ) (w : World)
    (userId : String) (topN : Nat) : List (String × ℚ) :=
  let sims := (w.users.map Prod.fst).filterMap
    (fun o =>
      if o = userId then none
      else if 0 < simf userId o then some (o, simf userId o) else none)
  (List.insertionSort byScoreDesc sims).take topN

/-- Candidate items contributed by one similar user: the set of their items
(sets deduplicate), minus the requesting user's items, availability
filtered. -/
def collabCandidates (w : World) (userItems : List String) (other : String) :
    List String :=
  ((itemsOf w other).dedup).filter
    (fun it => !(userItems.contains it) && isAvailable w it)

/-- The `heapq.nlargest` key for the collaborative strategy: the pair
(score, item id) compared descending — a larger item id wins a score tie. -/
def collabRel (a b : String × ℚ) : Prop :=
  b.2 < a.2 ∨ (b.2 = a.2 ∧ (strLtB b.1 a.1 = true ∨ b.1 = a.1))

instance : DecidableRel collabRel :=
  fun a b => inferInstanceAs
    (Decidable (b.2 < a.2 ∨ (b.2 = a.2 ∧ (strLtB b.1 a.1 = true ∨ b.1 = a.1))))

/-- The `recommend_by_similar_users_cached` operation, parameterised by the
similarity values: accumulate each similar user's weight onto their
candidate items, then take the top `topK` by (score, id) descending.
(The dict the source accumulates into is iterated through `nlargest` with a
total key, so the set iteration order does not affect the result; the fold
below fixes one concrete order.) -/
def recommendBySimilarUsers (simf : String → String → ℚ) (w : World)
    (userId : String) (topK : Nat) : List String :=
  match alookup w.users userId with
  | none => []
  | some u =>
    let similars := getSimilarUsers simf w userId 20
    let scores := similars.foldl
      (fun acc os =>
        (collabCandidates w u.items os.1).foldl
          (fun a it => bumpScore a it os.2) acc)
      []
    if scores = [] then []
    else ((List.insertionSort collabRel scores).take topK).map Prod.fst

/-- Declarative description of the collaborative result, with the
tie-breaking the code actually performs (item identifier descending):
every candidate item scored by the summed weights of the similar users who
purchased it, sorted by (score descending, id descending), first `topK`. -/
def collabSpecDesc (simf : String → String → ℚ) (w : World)
    (userId : String) (topK : Nat) : List String :=
  match alookup w.users userId with
  | none => []
  | some u =>
    let similars := getSimilarUsers simf w userId 20
    let cands := ((similars.map (fun os => itemsOf w os.1)).flatten.dedup).filter
      (fun it => !(u.items.contains it) && isAvailable w it)
    let scored := cands.map (fun it =>
      (it, ((similars.filter (fun os => (itemsOf w os.1).contains it)).map
        Prod.snd).sum))
    ((List.insertionSort collabRel scored).take topK).map Prod.fst

/-- The (score, item id) key with ascending identifier tie-breaking, as the
specification words it. -/
def collabRelAsc (a b : String × ℚ) : Prop :=
  b.2 < a.2 ∨ (b.2 = a.2 ∧ (strLtB a.1 b.1 = true ∨ a.1 = b.1))

instance : DecidableRel collabRelAsc :=
  fun a b => inferInstanceAs
    (Decidable (b.2 < a.2 ∨ (b.2 = a.2 ∧ (strLtB a.1 b.1 = true ∨ a.1 = b.1))))

/-- Modelled from the spec: the collaborative result as the specification
states it, identical to `collabSpecDesc` except that score ties are broken
by item identifier ascending. -/
def collabSpecAsc (simf : String → String → ℚ) (w : World)
    (userId : String) (topK : Nat) : List String :=
  match alookup w.users userId with
  | none => []
  | some u =>
    let similars := getSimilarUsers simf w userId 20
    let cands := ((similars.map (fun os => itemsOf w os.1)).flatten.dedup).filter
      (fun it => !(u.items.contains it) && isAvailable w it)
    let scored := cands.map (fun it =>
      (it, ((similars.filter (fun os => (itemsOf w os.1).contains it)).map
        Prod.snd).sum))
    ((List.insertionSort collabRelAsc scored).take topK).map Prod.fst

/-- The `for i, item in enumerate(recs)` scoring loop of the hybrid
strategy: bump each item by `weight * (1 - i / length)`. -/
def hybridAccum (weight len : ℚ) (acc : List (String × ℚ)) (i : ℚ) :
    List String → List (String × ℚ)
  | [] => acc
  | it :: rest =>
    hybridAccum weight len (bumpScore acc it (weight * (1 - i / len)))
      (i + 1) rest

/-- The `recommend_hybrid_optimized` operation (identical on a cache miss
to `recommend_hybrid`): request `2k` candidates from each strategy, score
both lists position-decayed, and take the top `k` by score with the stable
descending sort of `nlargest`. -/
def recommendHybrid (simf : String → String → ℚ) (w : World)
    (userId : String) (topK : Nat) (contentWeight collabWeight : ℚ) :
    List String :=
  let content := recommendByCategory w userId (topK * 2)
  let collab := recommendBySimilarUsers simf w userId (topK * 2)
  let s1 := hybridAccum contentWeight (content.length : ℚ) [] 0 content
  let s2 := hybridAccum collabWeight (collab.length : ℚ) s1 0 collab
  ((List.insertionSort byScoreDesc s2).take topK).map Prod.fst

/- ----------------------------------------------------------------
Concrete stores and worlds used by the counterexamples.
---------------------------------------------------------------- -/

/-- Counterexample world for the hybrid claim: user u purchased i1 (its
category A is exhausted for them), user v additionally purchased the
available item i3 of category B, which u has no preference for. -/
def exWorldHyb : World :=
  { users :=
      [("u", ⟨[("A", 1)], ["i1"]⟩),
       ("v", ⟨[("A", 1)], ["i1", "i3"]⟩)]
    products := [("i1", ⟨none, none⟩), ("i3", ⟨none, none⟩)]
    catIndex := [("A", ["i1"]), ("B", ["i3"])] }

/-- Similarity values for the hybrid counterexample (u and v share their
single preference category, so their cosine similarity is exactly 1). -/
def exSimfHyb : String → String → ℚ := fun _ _ => 1

/-- Counterexample world for the collaborative tie-break: the one similar
user v purchased the two available items iA and iB, so both score exactly
v's similarity weight — a tie. -/
def exWorldCollab : World :=
  { users :=
      [("u", ⟨[("A", 1)], []⟩),
       ("v", ⟨[("A", 1)], ["iA", "iB"]⟩)]
    products := [("iA", ⟨none, none⟩), ("iB", ⟨none, none⟩)]
    catIndex := [("A", [])] }

/-- Similarity values for the collaborative counterexample. -/
def exSimfCollab : String → String → ℚ := fun _ _ => 1

end S2P

namespace S2P

/- ----------------------------------------------------------------
Association-list toolkit.
---------------------------------------------------------------- -/

theorem alookup_nil {α : Type} (k : String) : alookup ([] : List (String × α)) k = none := rfl

theorem alookup_cons {α : Type} (k1 : String) (v1 : α) (rest : List (String × α)) (k : String) :
    alookup ((k1, v1) :: rest) k = if k1 = k then some v1 else alookup rest k := rfl

theorem alookup_append {α : Type} (l1 l2 : List (String × α)) (k : String) :
    alookup (l1 ++ l2) k = (alookup l1 k).or (alookup l2 k) := by
  induction l1 with
  | nil => simp [alookup]
  | cons p rest ih =>
    obtain ⟨k1, v1⟩ := p
    by_cases h : k1 = k <;> simp [alookup, h, ih]

theorem alookup_eq_none_iff {α : Type} (l : List (String × α)) (k : String) :
    alookup l k = none ↔ k ∉ l.map Prod.fst := by
  induction l with
  | nil => simp [alookup]
  | cons p rest ih =>
    obtain ⟨k1, v1⟩ := p
    rw [alookup_cons]
    by_cases h : k1 = k
    · subst h
      simp
    · simp [h, ih, Ne.symm h]

theorem alookup_isSome_iff {α : Type} (l : List (String × α)) (k : String) :
    (alookup l k).isSome ↔ k ∈ l.map Prod.fst := by
  rcases h : alookup l k with _ | v
  · simpa using (alookup_eq_none_iff l k).mp h
  · simp only [Option.isSome_some, true_iff]
    by_contra hmem
    rw [(alookup_eq_none_iff l k).mpr hmem] at h
    exact Option.noConfusion h

theorem mem_of_alookup_eq_some {α : Type} {l : List (String × α)} {k : String} {v : α}
    (h : alookup l k = some v) : (k, v) ∈ l := by
  induction l with
  | nil => exact absurd h (by simp [alookup])
  | cons p rest ih =>
    obtain ⟨k1, v1⟩ := p
    rw [alookup_cons] at h
    by_cases hk : k1 = k
    · subst hk
      rw [if_pos rfl] at h
      obtain rfl := Option.some.inj h
      exact List.mem_cons_self _ _
    · rw [if_neg hk] at h
      exact List.mem_cons_of_mem _ (ih h)

theorem alookup_of_mem_of_nodup {α : Type} {l : List (String × α)} {k : String} {v : α}
    (hnd : (l.map Prod.fst).Nodup) (h : (k, v) ∈ l) : alookup l k = some v := by
  induction l with
  | nil => cases h
  | cons p rest ih =>
    obtain ⟨k1, v1⟩ := p
    simp only [List.map_cons, List.nodup_cons] at hnd
    rcases List.mem_cons.mp h with heq | hmem
    · obtain ⟨rfl, rfl⟩ := Prod.mk.injEq .. ▸ heq
      simp [alookup]
    · have hk1 : k1 ≠ k := by
        rintro rfl
        exact hnd.1 (List.mem_map.mpr ⟨(k1, v), hmem, rfl⟩)
      rw [alookup_cons, if_neg hk1]
      exact ih hnd.2 hmem

theorem alookup_map_modify {α : Type} (l : List (String × α)) (k : String) (f : α → α) :
    alookup (l.map (fun p => if p.1 = k then (p.1, f p.2) else p)) k =
      (alookup l k).map f := by
  induction l with
  | nil => simp [alookup]
  | cons p rest ih =>
    obtain ⟨k1, v1⟩ := p
    dsimp only [List.map_cons]
    by_cases h : k1 = k
    · subst h
      rw [if_pos rfl, alookup_cons, alookup_cons, if_pos rfl, if_pos rfl]
      simp
    · rw [if_neg h, alookup_cons, alookup_cons, if_neg h, if_neg h]
      exact ih

theorem alookup_map_modify_ne {α : Type} (l : List (String × α)) (k k1 : String)
    (f : α → α) (h : k1 ≠ k) :
    alookup (l.map (fun p => if p.1 = k then (p.1, f p.2) else p)) k1 =
      alookup l k1 := by
  induction l with
  | nil => simp [alookup]
  | cons p rest ih =>
    obtain ⟨ka, va⟩ := p
    dsimp only [List.map_cons]
    by_cases ha : ka = k
    · subst ha
      have hne : ka ≠ k1 := fun e => h (e ▸ rfl)
      rw [if_pos rfl, alookup_cons, alookup_cons, if_neg hne, if_neg hne]
      exact ih
    · rw [if_neg ha, alookup_cons, alookup_cons]
      by_cases hb : ka = k1
      · simp [hb]
      · rw [if_neg hb, if_neg hb]
        exact ih

theorem alookup_assocSet_self {α : Type} (l : List (String × α)) (k : String) (v : α) :
    alookup (assocSet l k v) k = some v := by
  unfold assocSet
  rcases h : alookup l k with _ | v0
  · simp [h, alookup_append, alookup, Option.or]
  · have hmod := alookup_map_modify l k (fun _ => v)
    rw [h] at hmod
    simp only [h, Option.isSome_some, if_pos]
    exact hmod

theorem alookup_assocSet_ne {α : Type} (l : List (String × α)) (k k1 : String) (v : α)
    (h : k1 ≠ k) : alookup (assocSet l k v) k1 = alookup l k1 := by
  unfold assocSet
  rcases alookup l k with _ | v0
  · rw [if_neg (by simp), alookup_append]
    have hone : alookup [(k, v)] k1 = none := by simp [alookup, Ne.symm h]
    rw [hone, Option.or_none]
  · simpa using alookup_map_modify_ne l k k1 (fun _ => v) h

theorem map_fst_map_modify {α : Type} (l : List (String × α)) (k : String) (f : α → α) :
    (l.map (fun p => if p.1 = k then (p.1, f p.2) else p)).map Prod.fst =
      l.map Prod.fst := by
  induction l with
  | nil => simp
  | cons p rest ih =>
    obtain ⟨k1, v1⟩ := p
    dsimp only [List.map_cons]
    by_cases h : k1 = k
    · subst h
      rw [if_pos rfl]
      simpa using ih
    · rw [if_neg h]
      simpa using ih

theorem assocSet_keys {α : Type} (l : List (String × α)) (k : String) (v : α) :
    (assocSet l k v).map Prod.fst =
      if (alookup l k).isSome then l.map Prod.fst else l.map Prod.fst ++ [k] := by
  unfold assocSet
  rcases alookup l k with _ | v0
  · simp
  · simp only [Option.isSome_some, if_pos]
    exact map_fst_map_modify l k (fun _ => v)

theorem alookup_filter_key {α : Type} (l : List (String × α)) (f : String → Bool) (k : String) :
    alookup (l.filter (fun p => f p.1)) k = if f k then alookup l k else none := by
  induction l with
  | nil => simp [alookup]
  | cons p rest ih =>
    obtain ⟨k1, v1⟩ := p
    by_cases h : k1 = k
    · subst h
      by_cases hf : f k1 <;> simp [List.filter_cons, hf, alookup_cons, ih]
    · by_cases hf : f k1 <;> simp [List.filter_cons, hf, alookup_cons, h, ih]

theorem bumpScore_alookup_self (l : List (String × ℚ)) (k : String) (s : ℚ) :
    alookup (bumpScore l k s) k = some ((alookup l k).getD 0 + s) := by
  unfold bumpScore
  rcases h : alookup l k with _ | v0
  · simp [h, alookup_append, alookup, Option.or, zero_add]
  · have hmod := alookup_map_modify l k (fun x => x + s)
    rw [h] at hmod
    simp only [h, Option.isSome_some, if_pos, Option.getD_some]
    exact hmod

theorem bumpScore_alookup_ne (l : List (String × ℚ)) (k k1 : String) (s : ℚ)
    (h : k1 ≠ k) : alookup (bumpScore l k s) k1 = alookup l k1 := by
  unfold bumpScore
  rcases alookup l k with _ | v0
  · rw [if_neg (by simp), alookup_append]
    have hone : alookup [(k, s)] k1 = none := by simp [alookup, Ne.symm h]
    rw [hone, Option.or_none]
  · simpa using alookup_map_modify_ne l k k1 (fun x => x + s) h

theorem bumpScore_keys (l : List (String × ℚ)) (k : String) (s : ℚ) :
    (bumpScore l k s).map Prod.fst =
      if (alookup l k).isSome then l.map Prod.fst else l.map Prod.fst ++ [k] := by
  unfold bumpScore
  rcases alookup l k with _ | v0
  · simp
  · simp only [Option.isSome_some, if_pos]
    exact map_fst_map_modify l k (fun x => x + s)

/- ----------------------------------------------------------------
C4: the TTL cache.
---------------------------------------------------------------- -/

theorem expired_mem_iff {V : Type} (c : RecCacheState V) (now : ℚ) (k : String)
    (hnd : (c.cacheTimestamps.map Prod.fst).Nodup) :
    (k ∈ ((c.cacheTimestamps.filter
        (fun p => decide (c.cacheTtl ≤ now - p.2))).map Prod.fst)) ↔
      (∃ ts, alookup c.cacheTimestamps k = some ts ∧ c.cacheTtl ≤ now - ts) := by
  constructor
  · intro h
    rcases List.mem_map.mp h with ⟨p, hp, hfst⟩
    rcases List.mem_filter.mp hp with ⟨hmem, hcond⟩
    refine ⟨p.2, ?_, by simpa using hcond⟩
    have : (p.1, p.2) ∈ c.cacheTimestamps := by simpa using hmem
    rw [← hfst]
    exact alookup_of_mem_of_nodup hnd this
  · rintro ⟨ts, hts, hc⟩
    refine List.mem_map.mpr ⟨(k, ts), List.mem_filter.mpr ⟨mem_of_alookup_eq_some hts, by simpa using hc⟩, rfl⟩

theorem cleanCache_timestamps_alookup {V : Type} (c : RecCacheState V)
    (now : ℚ) (k : String) (hnd : (c.cacheTimestamps.map Prod.fst).Nodup) :
    alookup (cleanCache c now).cacheTimestamps k =
      (match alookup c.cacheTimestamps k with
       | some ts => if c.cacheTtl ≤ now - ts then none else some ts
       | none => none) := by
  have hmem := expired_mem_iff c now k hnd
  show alookup (c.cacheTimestamps.filter _) k = _
  rw [alookup_filter_key c.cacheTimestamps
    (fun x => !((c.cacheTimestamps.filter
      (fun p => decide (c.cacheTtl ≤ now - p.2))).map Prod.fst).contains x) k]
  rcases hts : alookup c.cacheTimestamps k with _ | ts
  · simp
  · by_cases hc : c.cacheTtl ≤ now - ts
    · have : k ∈ (c.cacheTimestamps.filter
          (fun p => decide (c.cacheTtl ≤ now - p.2))).map Prod.fst :=
        hmem.mpr ⟨ts, hts, hc⟩
      simp [this, hc]
    · have : k ∉ (c.cacheTimestamps.filter
          (fun p => decide (c.cacheTtl ≤ now - p.2))).map Prod.fst := by
        intro h
        rcases hmem.mp h with ⟨ts2, hts2, hc2⟩
        rw [hts] at hts2
        cases hts2
        exact hc hc2
      simp [this, hc, hts]

theorem cleanCache_results_alookup {V : Type} (c : RecCacheState V)
    (now : ℚ) (k : String) (hnd : (c.cacheTimestamps.map Prod.fst).Nodup) :
    alookup (cleanCache c now).recommendationCache k =
      (match alookup c.cacheTimestamps k with
       | some ts =>
         if c.cacheTtl ≤ now - ts then none
         else alookup c.recommendationCache k
       | none => alookup c.recommendationCache k) := by
  have hmem := expired_mem_iff c now k hnd
  show alookup (c.recommendationCache.filter _) k = _
  rw [alookup_filter_key c.recommendationCache
    (fun x => !((c.cacheTimestamps.filter
      (fun p => decide (c.cacheTtl ≤ now - p.2))).map Prod.fst).contains x) k]
  rcases hts : alookup c.cacheTimestamps k with _ | ts
  · have : k ∉ (c.cacheTimestamps.filter
        (fun p => decide (c.cacheTtl ≤ now - p.2))).map Prod.fst := by
      intro h
      rcases hmem.mp h with ⟨ts2, hts2, _⟩
      rw [hts] at hts2
      exact Option.noConfusion hts2
    simp [this]
  · by_cases hc : c.cacheTtl ≤ now - ts
    · have : k ∈ (c.cacheTimestamps.filter
          (fun p => decide (c.cacheTtl ≤ now - p.2))).map Prod.fst :=
        hmem.mpr ⟨ts, hts, hc⟩
      simp [this, hc]
    · have : k ∉ (c.cacheTimestamps.filter
          (fun p => decide (c.cacheTtl ≤ now - p.2))).map Prod.fst := by
        intro h
        rcases hmem.mp h with ⟨ts2, hts2, hc2⟩
        rw [hts] at hts2
        cases hts2
        exact hc hc2
      simp [this, hc]

theorem cleanCache_ttl_eq {V : Type} (c : RecCacheState V) (now : ℚ) :
    (cleanCache c now).cacheTtl = c.cacheTtl := rfl

/-- C4, amended: a cache entry stored at time t is returned by a lookup at
time t2 iff t2 - t < ttl; `_clean_cache` removes exactly the entries whose
age is at least the ttl (not strictly greater, see the counterexample at the
exact boundary), and every entry retrievable before the cleanup is
retrievable after it. -/
theorem C4_cache_ttl_semantics {V : Type} :
    (∀ (c : RecCacheState V) (t t2 : ℚ) (k : String) (v : V),
      cacheFetch (cacheStore c t k v) t2 k =
        if t2 - t < c.cacheTtl then some v else none)
    ∧ (∀ (c : RecCacheState V) (now : ℚ) (k : String),
        (c.cacheTimestamps.map Prod.fst).Nodup →
        alookup (cleanCache c now).cacheTimestamps k =
          (match alookup c.cacheTimestamps k with
           | some ts => if c.cacheTtl ≤ now - ts then none else some ts
           | none => none)
        ∧ alookup (cleanCache c now).recommendationCache k =
          (match alookup c.cacheTimestamps k with
           | some ts =>
             if c.cacheTtl ≤ now - ts then none
             else alookup c.recommendationCache k
           | none => alookup c.recommendationCache k))
    ∧ (∀ (c : RecCacheState V) (now : ℚ) (k : String),
        (c.cacheTimestamps.map Prod.fst).Nodup →
        cacheFetch (cleanCache c now) now k = cacheFetch c now k) := by
  refine ⟨?_, ?_, ?_⟩
  · intro c t t2 k v
    simp only [cacheFetch, cacheStore, isCacheValid, alookup_assocSet_self]
    by_cases h : t2 - t < c.cacheTtl <;> simp [h]
  · intro c now k hnd
    exact ⟨cleanCache_timestamps_alookup c now k hnd,
      cleanCache_results_alookup c now k hnd⟩
  · intro c now k hnd
    have h1 := cleanCache_timestamps_alookup c now k hnd
    have h2 := cleanCache_results_alookup c now k hnd
    rcases hts : alookup c.cacheTimestamps k with _ | ts
    · rw [hts] at h1 h2
      have h1a : alookup (cleanCache c now).cacheTimestamps k = none := h1
      have h2a : alookup (cleanCache c now).recommendationCache k =
          alookup c.recommendationCache k := h2
      unfold cacheFetch isCacheValid
      rw [h1a, h2a, hts, cleanCache_ttl_eq]
    · rw [hts] at h1 h2
      have h1a : alookup (cleanCache c now).cacheTimestamps k =
          (if c.cacheTtl ≤ now - ts then none else some ts) := h1
      have h2a : alookup (cleanCache c now).recommendationCache k =
          (if c.cacheTtl ≤ now - ts then none
           else alookup c.recommendationCache k) := h2
      by_cases hc : c.cacheTtl ≤ now - ts
      · rw [if_pos hc] at h1a h2a
        have hlt : ¬ (now - ts < c.cacheTtl) := not_lt.mpr hc
        unfold cacheFetch isCacheValid
        rw [h1a, h2a, hts, cleanCache_ttl_eq]
        rcases alookup c.recommendationCache k with _ | v <;> simp [hlt]
      · rw [if_neg hc] at h1a h2a
        unfold cacheFetch isCacheValid
        rw [h1a, h2a, hts, cleanCache_ttl_eq]

/-- C4 counterexample: an entry stored at time 0 and cleaned at time 3600
(its age equal to the ttl, hence not exceeding it) is nevertheless removed
by `_clean_cache` — the source removes at age greater than or equal to the
ttl, not strictly greater. -/
theorem C4_counterexample :
    alookup (cleanCache (cacheStore (initCache Nat) 0 "k" 7) 3600).cacheTimestamps "k" = none
    ∧ ¬ ((initCache Nat).cacheTtl < (3600 : ℚ) - 0) := by
  constructor
  · norm_num [cleanCache, cacheStore, initCache, assocSet, alookup,
      List.filter, List.contains]
  · norm_num [initCache]

/-- C4 witness: the amended theorem applied to a one-entry cache at the
boundary, with its duplicate-free-keys hypothesis discharged concretely. -/
theorem C4_witness :
    ((((⟨[("k", 5)], [("k", 0)], 3600⟩ : RecCacheState ℕ)).cacheTimestamps.map
        Prod.fst).Nodup)
    ∧ cacheFetch (cleanCache (⟨[("k", 5)], [("k", 0)], 3600⟩ : RecCacheState ℕ) 100)
        100 "k" =
      cacheFetch (⟨[("k", 5)], [("k", 0)], 3600⟩ : RecCacheState ℕ) 100 "k" :=
  ⟨by simp, C4_cache_ttl_semantics.2.2 ⟨[("k", 5)], [("k", 0)], 3600⟩ 100 "k" (by simp)⟩

/- ----------------------------------------------------------------
KeyedTable machinery: bucket-level lemmas.
---------------------------------------------------------------- -/

theorem bucketInsert_cons_eq {V : Type} (k : String) (v : Option V)
    (ka : String) (va : Option V) (rest : List (String × Option V))
    (h : ka = k) :
    bucketInsert k v ((ka, va) :: rest) = ((k, v) :: rest, false) := by
  simp [bucketInsert, h]

theorem bucketInsert_cons_ne {V : Type} (k : String) (v : Option V)
    (ka : String) (va : Option V) (rest : List (String × Option V))
    (h : ¬ ka = k) :
    bucketInsert k v ((ka, va) :: rest) =
      ((ka, va) :: (bucketInsert k v rest).1, (bucketInsert k v rest).2) := by
  simp [bucketInsert, h]

theorem bucketInsert_fst {V : Type} (k : String) (v : Option V)
    (b : List (String × Option V)) :
    ((bucketInsert k v b).1).map Prod.fst =
      if k ∈ b.map Prod.fst then b.map Prod.fst else b.map Prod.fst ++ [k] := by
  induction b with
  | nil => simp [bucketInsert]
  | cons p rest ih =>
    obtain ⟨k1, v1⟩ := p
    by_cases h : k1 = k
    · rw [bucketInsert_cons_eq k v k1 v1 rest h]
      subst h
      simp
    · rw [bucketInsert_cons_ne k v k1 v1 rest h]
      simp only [List.map_cons, List.mem_cons]
      rw [ih]
      by_cases hm : k ∈ rest.map Prod.fst <;> simp [hm, h, Ne.symm h]

theorem bucketInsert_isNew {V : Type} (k : String) (v : Option V)
    (b : List (String × Option V)) :
    (bucketInsert k v b).2 = true ↔ k ∉ b.map Prod.fst := by
  induction b with
  | nil => simp [bucketInsert]
  | cons p rest ih =>
    obtain ⟨k1, v1⟩ := p
    by_cases h : k1 = k
    · rw [bucketInsert_cons_eq k v k1 v1 rest h]
      subst h
      simp
    · rw [bucketInsert_cons_ne k v k1 v1 rest h]
      simp only [List.map_cons, List.mem_cons]
      rw [ih]
      constructor
      · intro hk hor
        rcases hor with he | hm
        · exact h he.symm
        · exact hk hm
      · intro hk hm
        exact hk (Or.inr hm)

theorem bucketInsert_length {V : Type} (k : String) (v : Option V)
    (b : List (String × Option V)) :
    (bucketInsert k v b).1.length =
      if k ∈ b.map Prod.fst then b.length else b.length + 1 := by
  induction b with
  | nil => simp [bucketInsert]
  | cons p rest ih =>
    obtain ⟨k1, v1⟩ := p
    by_cases h : k1 = k
    · rw [bucketInsert_cons_eq k v k1 v1 rest h]
      subst h
      simp
    · rw [bucketInsert_cons_ne k v k1 v1 rest h]
      simp only [List.length_cons, List.map_cons, List.mem_cons]
      rw [ih]
      by_cases hm : k ∈ rest.map Prod.fst <;> simp [hm, h, Ne.symm h]

theorem bucketInsert_find_self {V : Type} (k : String) (v : Option V)
    (b : List (String × Option V)) :
    (bucketInsert k v b).1.find? (fun p => p.1 = k) = some (k, v) := by
  induction b with
  | nil => simp [bucketInsert, List.find?]
  | cons p rest ih =>
    obtain ⟨k1, v1⟩ := p
    by_cases h : k1 = k
    · rw [bucketInsert_cons_eq k v k1 v1 rest h]
      simp [List.find?]
    · rw [bucketInsert_cons_ne k v k1 v1 rest h]
      rw [List.find?_cons_of_neg _ (by simpa using h)]
      exact ih

theorem bucketInsert_find_ne {V : Type} (k k1 : String) (v : Option V)
    (b : List (String × Option V)) (h : k1 ≠ k) :
    (bucketInsert k v b).1.find? (fun p => p.1 = k1) =
      b.find? (fun p => p.1 = k1) := by
  induction b with
  | nil => simp [bucketInsert, List.find?, Ne.symm h]
  | cons p rest ih =>
    obtain ⟨ka, va⟩ := p
    by_cases ha : ka = k
    · rw [bucketInsert_cons_eq k v ka va rest ha]
      subst ha
      rw [List.find?_cons_of_neg _ (by simpa using Ne.symm h),
        List.find?_cons_of_neg _ (by simpa using Ne.symm h)]
    · rw [bucketInsert_cons_ne k v ka va rest ha]
      by_cases hb : ka = k1
      · subst hb
        rw [List.find?_cons_of_pos _ (by simp), List.find?_cons_of_pos _ (by simp)]
      · rw [List.find?_cons_of_neg _ (by simpa using hb),
          List.find?_cons_of_neg _ (by simpa using hb)]
        exact ih

theorem bucketInsert_mem {V : Type} (k : String) (v : Option V)
    (b : List (String × Option V)) (p : String × Option V)
    (hp : p ∈ (bucketInsert k v b).1) : p = (k, v) ∨ p ∈ b := by
  induction b with
  | nil => simpa [bucketInsert] using hp
  | cons q rest ih =>
    obtain ⟨ka, va⟩ := q
    by_cases ha : ka = k
    · rw [bucketInsert_cons_eq k v ka va rest ha] at hp
      rcases List.mem_cons.mp hp with rfl | hm
      · exact Or.inl rfl
      · exact Or.inr (List.mem_cons_of_mem _ hm)
    · rw [bucketInsert_cons_ne k v ka va rest ha] at hp
      rcases List.mem_cons.mp hp with rfl | hm
      · exact Or.inr (List.mem_cons_self _ _)
      · rcases ih hm with h1 | h2
        · exact Or.inl h1
        · exact Or.inr (List.mem_cons_of_mem _ h2)

theorem bucketInsert_nodup {V : Type} (k : String) (v : Option V)
    (b : List (String × Option V)) (hnd : (b.map Prod.fst).Nodup) :
    (((bucketInsert k v b).1).map Prod.fst).Nodup := by
  rw [bucketInsert_fst]
  by_cases hm : k ∈ b.map Prod.fst
  · simpa [hm] using hnd
  · simp only [hm, if_false]
    rw [List.nodup_append]
    exact ⟨hnd, List.nodup_singleton k,
      by simpa using fun x hx => hm (List.mem_map.mpr ⟨(k, x), hx, rfl⟩)⟩

theorem bucketDelete_cons_eq {V : Type} (k ka : String) (va : Option V)
    (rest : List (String × Option V)) (h : ka = k) :
    bucketDelete k ((ka, va) :: rest) = (rest, true) := by
  simp [bucketDelete, h]

theorem bucketDelete_cons_ne {V : Type} (k ka : String) (va : Option V)
    (rest : List (String × Option V)) (h : ¬ ka = k) :
    bucketDelete k ((ka, va) :: rest) =
      ((ka, va) :: (bucketDelete k rest).1, (bucketDelete k rest).2) := by
  simp [bucketDelete, h]

theorem bucketDelete_not_mem {V : Type} (k : String)
    (b : List (String × Option V)) (h : k ∉ b.map Prod.fst) :
    bucketDelete k b = (b, false) := by
  induction b with
  | nil => rfl
  | cons p rest ih =>
    obtain ⟨ka, va⟩ := p
    simp only [List.map_cons, List.mem_cons] at h
    push_neg at h
    rw [bucketDelete_cons_ne k ka va rest (fun e => h.1 e.symm), ih h.2]

theorem bucketDelete_isDel {V : Type} (k : String)
    (b : List (String × Option V)) :
    (bucketDelete k b).2 = true ↔ k ∈ b.map Prod.fst := by
  induction b with
  | nil => simp [bucketDelete]
  | cons p rest ih =>
    obtain ⟨ka, va⟩ := p
    by_cases h : ka = k
    · rw [bucketDelete_cons_eq k ka va rest h]
      subst h
      simp
    · rw [bucketDelete_cons_ne k ka va rest h]
      simp only [List.map_cons, List.mem_cons]
      rw [ih]
      constructor
      · exact fun hm => Or.inr hm
      · rintro (he | hm)
        · exact absurd he.symm h
        · exact hm

theorem bucketDelete_keys {V : Type} (k : String)
    (b : List (String × Option V)) :
    ((bucketDelete k b).1).map Prod.fst = (b.map Prod.fst).erase k := by
  induction b with
  | nil => simp [bucketDelete]
  | cons p rest ih =>
    obtain ⟨ka, va⟩ := p
    by_cases h : ka = k
    · rw [bucketDelete_cons_eq k ka va rest h]
      subst h
      simp [List.erase_cons_head]
    · rw [bucketDelete_cons_ne k ka va rest h]
      simp only [List.map_cons]
      rw [List.erase_cons_tail, ih]
      simpa using h

theorem bucketDelete_length {V : Type} (k : String)
    (b : List (String × Option V)) (h : k ∈ b.map Prod.fst) :
    (bucketDelete k b).1.length + 1 = b.length := by
  have hk := congrArg List.length (bucketDelete_keys k b)
  simp only [List.length_map] at hk
  rw [hk, List.length_erase_of_mem h, List.length_map]
  have : 1 ≤ b.length := by
    rcases b with _ | ⟨p, rest⟩
    · simp at h
    · simp
  omega

theorem bucketDelete_mem {V : Type} (k : String)
    (b : List (String × Option V)) (p : String × Option V)
    (hp : p ∈ (bucketDelete k b).1) : p ∈ b := by
  induction b with
  | nil => simpa [bucketDelete] using hp
  | cons q rest ih =>
    obtain ⟨ka, va⟩ := q
    by_cases h : ka = k
    · rw [bucketDelete_cons_eq k ka va rest h] at hp
      exact List.mem_cons_of_mem _ hp
    · rw [bucketDelete_cons_ne k ka va rest h] at hp
      rcases List.mem_cons.mp hp with rfl | hm
      · exact List.mem_cons_self _ _
      · exact List.mem_cons_of_mem _ (ih hm)

theorem bucketDelete_nodup {V : Type} (k : String)
    (b : List (String × Option V)) (hnd : (b.map Prod.fst).Nodup) :
    (((bucketDelete k b).1).map Prod.fst).Nodup := by
  rw [bucketDelete_keys]
  exact List.Nodup.erase k hnd

theorem bucketDelete_find_self {V : Type} (k : String)
    (b : List (String × Option V)) (hnd : (b.map Prod.fst).Nodup) :
    (bucketDelete k b).1.find? (fun p => p.1 = k) = none := by
  rw [List.find?_eq_none]
  intro p hp
  have hkeys : k ∉ ((bucketDelete k b).1).map Prod.fst := by
    rw [bucketDelete_keys]
    exact (hnd.erase_eq_filter k ▸ by
      intro hmem
      rcases List.mem_filter.mp hmem with ⟨_, hcond⟩
      simp at hcond)
  intro hpk
  exact hkeys (List.mem_map.mpr ⟨p, hp, by simpa using hpk⟩)

theorem bucketDelete_find_ne {V : Type} (k k1 : String)
    (b : List (String × Option V)) (h : k1 ≠ k) :
    (bucketDelete k b).1.find? (fun p => p.1 = k1) =
      b.find? (fun p => p.1 = k1) := by
  induction b with
  | nil => simp [bucketDelete]
  | cons p rest ih =>
    obtain ⟨ka, va⟩ := p
    by_cases ha : ka = k
    · rw [bucketDelete_cons_eq k ka va rest ha]
      subst ha
      rw [List.find?_cons_of_neg _ (by simpa using Ne.symm h)]
    · rw [bucketDelete_cons_ne k ka va rest ha]
      by_cases hb : ka = k1
      · subst hb
        rw [List.find?_cons_of_pos _ (by simp), List.find?_cons_of_pos _ (by simp)]
      · rw [List.find?_cons_of_neg _ (by simpa using hb),
          List.find?_cons_of_neg _ (by simpa using hb)]
        exact ih

/- ----------------------------------------------------------------
KeyedTable machinery: flatten and bucket-placement reasoning.
---------------------------------------------------------------- -/

theorem set_getElem_self {α : Type} (l : List α) (i : Nat) (h : i < l.length) :
    l.set i l[i] = l := by
  apply List.ext_getElem
  · simp
  · intro n h1 h2
    by_cases hn : n = i
    · subst hn
      simp
    · rw [List.getElem_set_ne (fun e => hn e.symm)]

theorem flatten_set_decomp {α : Type} (L : List (List α)) (i : Nat)
    (hi : i < L.length) (x : List α) :
    (L.set i x).flatten =
      (L.take i).flatten ++ (x ++ (L.drop (i + 1)).flatten) := by
  rw [List.set_eq_take_cons_drop x hi, List.flatten_append, List.flatten_cons]

theorem flatten_getElem_decomp {α : Type} (L : List (List α)) (i : Nat)
    (hi : i < L.length) :
    L.flatten = (L.take i).flatten ++ (L[i] ++ (L.drop (i + 1)).flatten) := by
  conv_lhs => rw [← set_getElem_self L i hi]
  exact flatten_set_decomp L i hi L[i]

theorem find?_flatten_eq {α : Type} (L : List (List α)) (pred : α → Bool)
    (i : Nat) (hi : i < L.length)
    (hout : ∀ j, (hj : j < L.length) → j ≠ i → ∀ x ∈ L[j], ¬ pred x) :
    L.flatten.find? pred = L[i].find? pred := by
  induction L generalizing i with
  | nil => simp at hi
  | cons b rest ih =>
    rcases i with _ | i
    · have hrest : rest.flatten.find? pred = none := by
        rw [List.find?_eq_none]
        intro x hx
        rcases List.mem_flatten.mp hx with ⟨l, hl, hxl⟩
        rcases List.mem_iff_getElem.mp hl with ⟨j, hj, rfl⟩
        exact hout (j + 1) (by simpa using Nat.succ_lt_succ hj) (by simp)
          x (by simpa using hxl)
      rw [List.flatten_cons, List.find?_append, hrest]
      simpa using Option.or_none
    · have hb : b.find? pred = none := by
        rw [List.find?_eq_none]
        intro x hx
        exact hout 0 (by simp) (by simp) x (by simpa using hx)
      rw [List.flatten_cons, List.find?_append, hb]
      have hstep := ih i (by simpa using Nat.lt_of_succ_lt_succ hi)
        (fun j hj hne x hx =>
          hout (j + 1) (by simpa using Nat.succ_lt_succ hj)
            (by simpa using hne) x (by simpa using hx))
      simpa using hstep

theorem flatten_replicate_nil {α : Type} (n : Nat) :
    (List.replicate n ([] : List α)).flatten = [] := by
  induction n with
  | zero => rfl
  | succ m ih => simpa [List.replicate_succ] using ih

theorem entries_emptyTable (V : Type) (cap : Nat) :
    (emptyTable V cap).entries = [] := by
  simp [emptyTable, HashTable.entries, flatten_replicate_nil]

theorem lookupEntry_emptyTable (V : Type) (cap : Nat) (k : String) :
    lookupEntry (emptyTable V cap) k = none := by
  simp [lookupEntry, entries_emptyTable]

theorem emptyTable_wf0 (V : Type) (cap : Nat) (h : 1 ≤ cap) :
    HTWF0 (emptyTable V cap) := by
  refine ⟨h, by simp [emptyTable], ?_, ?_, ?_⟩
  · rw [entries_emptyTable]
    rfl
  · intro b hb
    rw [List.eq_of_mem_replicate hb]
    simp
  · intro i hi p hp
    have : p ∈ ([] : List (String × Option V)) := by
      simpa [emptyTable, List.getElem_replicate] using hp
    cases this

theorem emptyTable_wf (V : Type) (cap : Nat) (h : 1 ≤ cap) :
    HTWF (emptyTable V cap) :=
  ⟨emptyTable_wf0 V cap h, by simp [emptyTable]⟩

theorem hashIdx_lt {V : Type} {t : HashTable V} (h : HTWF0 t) (k : String) :
    hashIdx k t.capacity < t.buckets.length := by
  have hc := h.cap_pos
  rw [h.bucket_count]
  unfold hashIdx
  by_cases hk : k = ""
  · rw [if_pos hk]
    omega
  · rw [if_neg hk]
    exact Nat.mod_lt _ (by omega)

theorem entry_bucket {V : Type} {t : HashTable V} (h : HTWF0 t)
    {p : String × Option V} (hp : p ∈ t.entries) :
    p.1 ≠ "" ∧ ∃ i, ∃ hi : i < t.buckets.length,
      hashIdx p.1 t.capacity = i ∧ p ∈ t.buckets[i] := by
  rcases List.mem_flatten.mp hp with ⟨b, hb, hpb⟩
  rcases List.mem_iff_getElem.mp hb with ⟨i, hi, rfl⟩
  obtain ⟨hne, hidx⟩ := h.placed i hi p hpb
  exact ⟨hne, i, hi, hidx, hpb⟩

theorem lookupEntry_empty_key {V : Type} {t : HashTable V} (h : HTWF0 t) :
    lookupEntry t "" = none := by
  unfold lookupEntry
  have : t.entries.find? (fun p => p.1 = "") = none := by
    rw [List.find?_eq_none]
    intro p hp
    simpa using (entry_bucket h hp).1
  rw [this]
  rfl

theorem keysList_nodup {V : Type} {t : HashTable V} (h : HTWF0 t) :
    t.keysList.Nodup := by
  unfold HashTable.keysList HashTable.entries
  rw [List.map_flatten, List.nodup_flatten]
  constructor
  · intro l hl
    rcases List.mem_map.mp hl with ⟨b, hb, rfl⟩
    exact h.nodupb b hb
  · rw [List.pairwise_iff_getElem]
    intro i j hi hj hij
    simp only [List.length_map] at hi hj
    intro a hai haj
    rw [List.getElem_map] at hai haj
    rcases List.mem_map.mp hai with ⟨p, hp, rfl⟩
    rcases List.mem_map.mp haj with ⟨q, hq, hqa⟩
    have h1 := (h.placed i hi p hp).2
    have h2 := (h.placed j hj q hq).2
    rw [← hqa] at h1
    omega

theorem lookupEntry_isSome_iff {V : Type} (t : HashTable V) (k : String) :
    (lookupEntry t k).isSome ↔ k ∈ t.keysList := by
  unfold lookupEntry HashTable.keysList
  rcases hfind : t.entries.find? (fun p => p.1 = k) with _ | p
  · rw [hfind]
    rw [List.find?_eq_none] at hfind
    constructor
    · intro hs
      simp at hs
    · intro hm
      exfalso
      rcases List.mem_map.mp hm with ⟨q, hq, rfl⟩
      exact (by simpa using hfind q hq : ¬ q.1 = q.1) rfl
  · rw [hfind]
    constructor
    · intro _
      have hp := List.mem_of_find?_eq_some hfind
      have hpk := List.find?_some hfind
      exact List.mem_map.mpr ⟨p, hp, by simpa using hpk⟩
    · intro _
      simp

theorem get_eq_lookupEntry {V : Type} {t : HashTable V} (h : HTWF0 t)
    (k : String) : t.get k = (lookupEntry t k).join := by
  by_cases hk : k = ""
  · subst hk
    rw [lookupEntry_empty_key h]
    rfl
  · have hi := hashIdx_lt h k
    have hout : ∀ j, (hj : j < t.buckets.length) → j ≠ hashIdx k t.capacity →
        ∀ x ∈ t.buckets[j], ¬ (decide (x.1 = k) = true) := by
      intro j hj hne x hx
      have := (h.placed j hj x hx).2
      simp only [decide_eq_true_eq]
      intro he
      rw [he] at this
      exact hne this.symm
    have hfl := find?_flatten_eq t.buckets (fun p => decide (p.1 = k))
      (hashIdx k t.capacity) hi hout
    unfold HashTable.get lookupEntry HashTable.entries
    rw [if_neg hk, hfl, List.getD_eq_getElem _ _ hi]
    cases t.buckets[hashIdx k t.capacity].find? (fun p => decide (p.1 = k)) <;> rfl

theorem getD_set_self {α : Type} (l : List α) (i : Nat) (hi : i < l.length)
    (x d : α) : (l.set i x).getD i d = x := by
  rw [List.getD_eq_getElem _ _ (by simpa using hi)]
  exact List.getElem_set_self _

theorem getD_set_ne {α : Type} (l : List α) {i j : Nat} (h : i ≠ j) (x d : α) :
    (l.set i x).getD j d = l.getD j d := by
  by_cases hj : j < l.length
  · rw [List.getD_eq_getElem _ _ (by simpa using hj),
      List.getD_eq_getElem _ _ hj]
    exact List.getElem_set_ne h _
  · rw [List.getD_eq_getElem?_getD, List.getD_eq_getElem?_getD]
    have h1 : l[j]? = none := by
      rw [List.getElem?_eq_none_iff]
      omega
    have h2 : (l.set i x)[j]? = none := by
      rw [List.getElem?_eq_none_iff]
      simp only [List.length_set]
      omega
    rw [h1, h2]

theorem lookupEntry_eq_bucket {V : Type} {t : HashTable V} (h : HTWF0 t)
    (k : String) (hk : k ≠ "") :
    lookupEntry t k =
      ((t.buckets.getD (hashIdx k t.capacity) []).find?
        (fun p => p.1 = k)).map (fun p => p.2) := by
  have hi := hashIdx_lt h k
  have hout : ∀ j, (hj : j < t.buckets.length) → j ≠ hashIdx k t.capacity →
      ∀ x ∈ t.buckets[j], ¬ (decide (x.1 = k) = true) := by
    intro j hj hne x hx
    have hpl := (h.placed j hj x hx).2
    simp only [decide_eq_true_eq]
    intro he
    rw [he] at hpl
    exact hne hpl.symm
  unfold lookupEntry HashTable.entries
  rw [find?_flatten_eq t.buckets _ (hashIdx k t.capacity) hi hout,
    List.getD_eq_getElem _ _ hi]

theorem isSome_omap {α β : Type} (f : α → β) (o : Option α) :
    (o.map f).isSome = o.isSome := by
  cases o <;> rfl

theorem mem_keysList_iff_bucket {V : Type} {t : HashTable V} (h : HTWF0 t)
    (k : String) (hk : k ≠ "") :
    k ∈ t.keysList ↔
      k ∈ (t.buckets.getD (hashIdx k t.capacity) []).map Prod.fst := by
  rw [← lookupEntry_isSome_iff, lookupEntry_eq_bucket h k hk,
    isSome_omap]
  rw [List.find?_isSome]
  constructor
  · rintro ⟨p, hp, hpk⟩
    exact List.mem_map.mpr ⟨p, hp, by simpa using hpk⟩
  · intro hm
    rcases List.mem_map.mp hm with ⟨p, hp, rfl⟩
    exact ⟨p, hp, by simp⟩

/- ----------------------------------------------------------------
KeyedTable machinery: the bucket-update step of `insert`.
---------------------------------------------------------------- -/

theorem insertBase_capacity {V : Type} (t : HashTable V) (k : String)
    (v : Option V) : (insertBase t k v).capacity = t.capacity := rfl

theorem insertBase_buckets {V : Type} (t : HashTable V) (k : String)
    (v : Option V) :
    (insertBase t k v).buckets =
      t.buckets.set (hashIdx k t.capacity)
        (bucketInsert k v (t.buckets.getD (hashIdx k t.capacity) [])).1 := rfl

theorem insertBase_size_def {V : Type} (t : HashTable V) (k : String)
    (v : Option V) :
    (insertBase t k v).size =
      if (bucketInsert k v (t.buckets.getD (hashIdx k t.capacity) [])).2
      then t.size + 1 else t.size := rfl

theorem insertBase_wf0 {V : Type} {t : HashTable V} (h : HTWF0 t)
    (k : String) (hk : k ≠ "") (v : Option V) :
    HTWF0 (insertBase t k v) := by
  have hi := hashIdx_lt h k
  have hb : t.buckets.getD (hashIdx k t.capacity) [] =
      t.buckets[hashIdx k t.capacity] := List.getD_eq_getElem _ _ hi
  have hbmem : t.buckets.getD (hashIdx k t.capacity) [] ∈ t.buckets := by
    rw [hb]
    exact List.getElem_mem hi
  refine ⟨h.cap_pos, ?_, ?_, ?_, ?_⟩
  · rw [insertBase_buckets, List.length_set, h.bucket_count, insertBase_capacity]
  · -- size accounting through the flatten decomposition
    rw [insertBase_size_def]
    show _ = (insertBase t k v).entries.length
    unfold HashTable.entries
    rw [insertBase_buckets,
      flatten_set_decomp t.buckets (hashIdx k t.capacity) hi _]
    have hold : t.size =
        ((t.buckets.take (hashIdx k t.capacity)).flatten ++
          (t.buckets[hashIdx k t.capacity] ++
            (t.buckets.drop (hashIdx k t.capacity + 1)).flatten)).length := by
      rw [← flatten_getElem_decomp t.buckets (hashIdx k t.capacity) hi]
      exact h.size_eq
    simp only [List.length_append] at hold ⊢
    rw [bucketInsert_length]
    by_cases hm : k ∈ (t.buckets.getD (hashIdx k t.capacity) []).map Prod.fst
    · have hnew : (bucketInsert k v (t.buckets.getD (hashIdx k t.capacity) [])).2 = false := by
        rcases hr : (bucketInsert k v (t.buckets.getD (hashIdx k t.capacity) [])).2 with _ | _
        · rfl
        · exact absurd hm ((bucketInsert_isNew k v _).mp hr)
      rw [hnew, if_pos hm, if_neg (by simp), hb]
      omega
    · have hnew : (bucketInsert k v (t.buckets.getD (hashIdx k t.capacity) [])).2 = true := by
        rcases hr : (bucketInsert k v (t.buckets.getD (hashIdx k t.capacity) [])).2 with _ | _
        · exfalso
          have := (bucketInsert_isNew k v (t.buckets.getD (hashIdx k t.capacity) []))
          rw [hr] at this
          simp only [Bool.false_eq_true, false_iff, not_not] at this
          exact hm this
        · rfl
      rw [hnew, if_neg hm, if_pos rfl, hb]
      omega
  · intro b2 hb2
    rw [insertBase_buckets] at hb2
    rcases List.mem_or_eq_of_mem_set hb2 with hmem | rfl
    · exact h.nodupb b2 hmem
    · exact bucketInsert_nodup k v _ (h.nodupb _ hbmem)
  · intro j hj p hp
    rw [insertBase_buckets, List.length_set] at hj
    by_cases hji : j = hashIdx k t.capacity
    · subst hji
      simp only [insertBase_buckets] at hp
      rw [List.getElem_set_self] at hp
      rcases bucketInsert_mem k v _ p hp with rfl | hpb
      · exact ⟨hk, by rw [insertBase_capacity]⟩
      · rw [hb] at hpb
        have := h.placed _ hi p hpb
        exact ⟨this.1, by rw [insertBase_capacity]; exact this.2⟩
    · simp only [insertBase_buckets] at hp
      rw [List.getElem_set_ne (fun e => hji e.symm)] at hp
      have := h.placed j hj p hp
      exact ⟨this.1, by rw [insertBase_capacity]; exact this.2⟩

theorem insertBase_size {V : Type} {t : HashTable V} (h : HTWF0 t)
    (k : String) (hk : k ≠ "") (v : Option V) :
    (insertBase t k v).size = if k ∈ t.keysList then t.size else t.size + 1 := by
  rw [insertBase_size_def]
  by_cases hm : k ∈ t.keysList
  · have hmb := (mem_keysList_iff_bucket h k hk).mp hm
    have hnew : (bucketInsert k v (t.buckets.getD (hashIdx k t.capacity) [])).2 = false := by
      rcases hr : (bucketInsert k v (t.buckets.getD (hashIdx k t.capacity) [])).2 with _ | _
      · rfl
      · exact absurd hmb ((bucketInsert_isNew k v _).mp hr)
    rw [hnew, if_pos hm, if_neg (by simp)]
  · have hmb : k ∉ (t.buckets.getD (hashIdx k t.capacity) []).map Prod.fst :=
      fun hx => hm ((mem_keysList_iff_bucket h k hk).mpr hx)
    have hnew : (bucketInsert k v (t.buckets.getD (hashIdx k t.capacity) [])).2 = true :=
      (bucketInsert_isNew k v _).mpr hmb
    rw [hnew, if_neg hm, if_pos rfl]

theorem insertBase_lookupEntry {V : Type} {t : HashTable V} (h : HTWF0 t)
    (k : String) (hk : k ≠ "") (v : Option V) (k1 : String) :
    lookupEntry (insertBase t k v) k1 =
      if k = k1 then some v else lookupEntry t k1 := by
  have hi := hashIdx_lt h k
  have hwf2 := insertBase_wf0 h k hk v
  by_cases hkk : k = k1
  · subst hkk
    rw [if_pos rfl, lookupEntry_eq_bucket hwf2 k hk]
    have hbeq : (insertBase t k v).buckets.getD
        (hashIdx k (insertBase t k v).capacity) [] =
        (bucketInsert k v (t.buckets.getD (hashIdx k t.capacity) [])).1 := by
      rw [insertBase_capacity, insertBase_buckets]
      exact getD_set_self _ _ hi _ _
    rw [hbeq, bucketInsert_find_self]
    rfl
  · rw [if_neg hkk]
    by_cases hk1 : k1 = ""
    · subst hk1
      rw [lookupEntry_empty_key hwf2, lookupEntry_empty_key h]
    · rw [lookupEntry_eq_bucket hwf2 k1 hk1, lookupEntry_eq_bucket h k1 hk1,
        insertBase_capacity, insertBase_buckets]
      by_cases hcol : hashIdx k1 t.capacity = hashIdx k t.capacity
      · rw [hcol, getD_set_self _ _ hi _ _,
          bucketInsert_find_ne k k1 v _ (fun e => hkk e.symm)]
      · rw [getD_set_ne _ (fun e => hcol e.symm) _ _]

/- ----------------------------------------------------------------
KeyedTable machinery: resize and the full insert.
---------------------------------------------------------------- -/

theorem insertGo_no_resize {V : Type} (fuel : Nat) (t : HashTable V)
    (k : String) (v : Option V) (h : ¬ (3 * t.capacity < 4 * t.size)) :
    insertGo fuel t k v = insertBase t k v := by
  cases fuel with
  | zero => rfl
  | succ f => simp [insertGo, h]

theorem mem_keysList_iff_lookup {V : Type} (t : HashTable V) (k : String) :
    k ∈ t.keysList ↔ (lookupEntry t k).isSome :=
  (lookupEntry_isSome_iff t k).symm

theorem rehash_foldl_spec {V : Type} (es : List (String × Option V)) :
    ∀ (acc : HashTable V) (fuel : Nat),
      HTWF0 acc →
      (es.map Prod.fst).Nodup →
      (∀ p ∈ es, p.1 ≠ "") →
      (∀ p ∈ es, p.1 ∉ acc.keysList) →
      4 * (acc.size + es.length) ≤ 3 * acc.capacity + 4 →
      HTWF0 (es.foldl (fun a p => insertGo fuel a p.1 p.2) acc)
      ∧ (es.foldl (fun a p => insertGo fuel a p.1 p.2) acc).capacity =
          acc.capacity
      ∧ (es.foldl (fun a p => insertGo fuel a p.1 p.2) acc).size =
          acc.size + es.length
      ∧ ∀ k1, lookupEntry (es.foldl (fun a p => insertGo fuel a p.1 p.2) acc) k1 =
          (lookupEntry acc k1).or
            ((es.find? (fun p => p.1 = k1)).map (fun p => p.2)) := by
  induction es with
  | nil =>
    intro acc fuel hacc _ _ _ _
    refine ⟨hacc, rfl, by simp, ?_⟩
    intro k1
    simp only [List.foldl_nil, List.find?_nil, Option.map_none]
    exact (Option.or_none).symm
  | cons p rest ih =>
    intro acc fuel hacc hnd hne hdisj hload
    obtain ⟨k, v⟩ := p
    have hk : k ≠ "" := hne (k, v) (List.mem_cons_self _ _)
    have hlen : ((k, v) :: rest).length = rest.length + 1 := by simp
    have hcond : ¬ (3 * acc.capacity < 4 * acc.size) := by
      rw [hlen] at hload
      omega
    have hknotin : k ∉ acc.keysList := hdisj (k, v) (List.mem_cons_self _ _)
    obtain ⟨hkrest, hndrest⟩ : k ∉ rest.map Prod.fst ∧ (rest.map Prod.fst).Nodup := by
      simpa using hnd
    rw [List.foldl_cons, insertGo_no_resize fuel acc k v hcond]
    have hwf2 : HTWF0 (insertBase acc k v) := insertBase_wf0 hacc k hk v
    have hsize2 : (insertBase acc k v).size = acc.size + 1 := by
      rw [insertBase_size hacc k hk v, if_neg hknotin]
    have hlook2 := insertBase_lookupEntry hacc k hk v
    have hkeys2 : ∀ k1, k1 ∈ (insertBase acc k v).keysList ↔
        k1 = k ∨ k1 ∈ acc.keysList := by
      intro k1
      rw [mem_keysList_iff_lookup, mem_keysList_iff_lookup, hlook2 k1]
      by_cases he : k = k1
      · subst he
        simp
      · rw [if_neg he]
        constructor
        · exact fun hs => Or.inr hs
        · rintro (rfl | hs)
          · exact absurd rfl he
          · exact hs
    have hstep := ih (insertBase acc k v) fuel hwf2 hndrest
      (fun q hq => hne q (List.mem_cons_of_mem _ hq))
      (fun q hq => by
        rw [hkeys2 q.1]
        push_neg
        refine ⟨?_, hdisj q (List.mem_cons_of_mem _ hq)⟩
        intro he
        exact hkrest (he ▸ List.mem_map.mpr ⟨q, hq, rfl⟩))
      (by
        rw [hsize2, insertBase_capacity]
        rw [hlen] at hload
        omega)
    obtain ⟨hwfr, hcapr, hsizer, hlookr⟩ := hstep
    refine ⟨hwfr, by rw [hcapr, insertBase_capacity], ?_, ?_⟩
    · rw [hsizer, hsize2, hlen]
      omega
    · intro k1
      rw [hlookr k1, hlook2 k1]
      by_cases he : k = k1
      · subst he
        rw [if_pos rfl]
        have hlacc : lookupEntry acc k = none := by
          rcases hl : lookupEntry acc k with _ | w
          · rfl
          · exact absurd ((lookupEntry_isSome_iff acc k).mp (by rw [hl]; rfl))
              hknotin
        rw [hlacc, List.find?_cons_of_pos _ (by simp)]
        rfl
      · rw [if_neg he, List.find?_cons_of_neg _ (by simpa using he)]

theorem resize_spec {V : Type} {t : HashTable V} (h : HTWF t) (fuel : Nat) :
    HTWF ((t.buckets.flatten).foldl (fun acc p => insertGo fuel acc p.1 p.2)
        (emptyTable V (2 * t.capacity)))
    ∧ ((t.buckets.flatten).foldl (fun acc p => insertGo fuel acc p.1 p.2)
        (emptyTable V (2 * t.capacity))).capacity = 2 * t.capacity
    ∧ ((t.buckets.flatten).foldl (fun acc p => insertGo fuel acc p.1 p.2)
        (emptyTable V (2 * t.capacity))).size = t.size
    ∧ ∀ k1, lookupEntry ((t.buckets.flatten).foldl
        (fun acc p => insertGo fuel acc p.1 p.2)
        (emptyTable V (2 * t.capacity))) k1 = lookupEntry t k1 := by
  have hc := h.cap_pos
  have hwfe : HTWF0 (emptyTable V (2 * t.capacity)) :=
    emptyTable_wf0 V (2 * t.capacity) (by omega)
  have hlen : t.buckets.flatten.length = t.size := by
    rw [h.size_eq]
    rfl
  have hspec := rehash_foldl_spec t.buckets.flatten
    (emptyTable V (2 * t.capacity)) fuel hwfe
    (keysList_nodup h.toHTWF0)
    (fun p hp => (entry_bucket h.toHTWF0 hp).1)
    (fun p _ => by
      intro hm
      unfold HashTable.keysList at hm
      rw [entries_emptyTable] at hm
      simp at hm)
    (by
      have hload := h.load
      simp only [emptyTable, hlen]
      omega)
  obtain ⟨hwfr, hcapr, hsizer, hlookr⟩ := hspec
  have hcap2 : (emptyTable V (2 * t.capacity)).capacity = 2 * t.capacity := rfl
  have hsize0 : (emptyTable V (2 * t.capacity)).size = 0 := rfl
  refine ⟨⟨hwfr, ?_⟩, by rw [hcapr, hcap2], by rw [hsizer, hsize0, hlen]; omega, ?_⟩
  · rw [hcapr, hcap2, hsizer, hsize0, hlen]
    have hload := h.load
    omega
  · intro k1
    rw [hlookr k1, lookupEntry_emptyTable]
    show _ = lookupEntry t k1
    unfold lookupEntry HashTable.entries
    cases t.buckets.flatten.find? (fun p => p.1 = k1) <;> rfl

theorem insertOp_spec {V : Type} {t : HashTable V} (h : HTWF t) (k : String)
    (hk : k ≠ "") (v : Option V) :
    HTWF (t.insertOp k v)
    ∧ (∀ k1, lookupEntry (t.insertOp k v) k1 =
        if k = k1 then some v else lookupEntry t k1)
    ∧ (t.insertOp k v).size =
        (if k ∈ t.keysList then t.size else t.size + 1) := by
  unfold HashTable.insertOp
  show HTWF (insertGo (t.size + 1) t k v) ∧ _ ∧ _
  by_cases hcond : 3 * t.capacity < 4 * t.size
  · -- the load-factor threshold fires: rehash, then do the bucket update
    have hres := resize_spec h t.size
    obtain ⟨hwf1, hcap1, hsize1, hlook1⟩ := hres
    have hunf : insertGo (t.size + 1) t k v =
        insertBase ((t.buckets.flatten).foldl
          (fun acc p => insertGo t.size acc p.1 p.2)
          (emptyTable V (2 * t.capacity))) k v := by
      simp [insertGo, hcond]
    rw [hunf]
    set t1 := (t.buckets.flatten).foldl
      (fun acc p => insertGo t.size acc p.1 p.2)
      (emptyTable V (2 * t.capacity)) with ht1
    have hkeys1 : ∀ k1, k1 ∈ t1.keysList ↔ k1 ∈ t.keysList := by
      intro k1
      rw [mem_keysList_iff_lookup, mem_keysList_iff_lookup, hlook1 k1]
    have hwf0b := insertBase_wf0 hwf1.toHTWF0 k hk v
    have hsizeb := insertBase_size hwf1.toHTWF0 k hk v
    have hlookb := insertBase_lookupEntry hwf1.toHTWF0 k hk v
    refine ⟨⟨hwf0b, ?_⟩, ?_, ?_⟩
    · rw [insertBase_capacity, hsizeb, hcap1]
      have hload := h.load
      have hc := h.cap_pos
      by_cases hm : k ∈ t1.keysList
      · rw [if_pos hm, hsize1]
        omega
      · rw [if_neg hm, hsize1]
        omega
    · intro k1
      rw [hlookb k1, hlook1 k1]
    · rw [hsizeb, hsize1]
      by_cases hm : k ∈ t.keysList
      · rw [if_pos hm, if_pos ((hkeys1 k).mpr hm)]
      · rw [if_neg hm, if_neg (fun hx => hm ((hkeys1 k).mp hx))]
  · -- no resize: insert is just the bucket update
    rw [insertGo_no_resize _ _ _ _ hcond]
    have hwf0b := insertBase_wf0 h.toHTWF0 k hk v
    have hsizeb := insertBase_size h.toHTWF0 k hk v
    have hlookb := insertBase_lookupEntry h.toHTWF0 k hk v
    refine ⟨⟨hwf0b, ?_⟩, fun k1 => hlookb k1, hsizeb⟩
    rw [insertBase_capacity, hsizeb]
    have hload := h.load
    by_cases hm : k ∈ t.keysList
    · rw [if_pos hm]
      exact hload
    · rw [if_neg hm]
      omega

/- ----------------------------------------------------------------
KeyedTable machinery: delete.
---------------------------------------------------------------- -/

theorem deleteOp_spec {V : Type} {t : HashTable V} (h : HTWF t) (k : String) :
    HTWF (t.deleteOp k).1
    ∧ (∀ k1, lookupEntry (t.deleteOp k).1 k1 =
        if k = k1 then none else lookupEntry t k1) := by
  unfold HashTable.deleteOp
  by_cases hk : k = ""
  · rw [if_pos hk]
    refine ⟨h, ?_⟩
    intro k1
    by_cases he : k = k1
    · rw [if_pos he, ← he, hk, lookupEntry_empty_key h.toHTWF0]
    · rw [if_neg he]
  · rw [if_neg hk]
    have hi := hashIdx_lt h.toHTWF0 k
    have hb : t.buckets.getD (hashIdx k t.capacity) [] =
        t.buckets[hashIdx k t.capacity] := List.getD_eq_getElem _ _ hi
    have hbmem : t.buckets.getD (hashIdx k t.capacity) [] ∈ t.buckets := by
      rw [hb]
      exact List.getElem_mem hi
    have hbnd := h.nodupb _ hbmem
    rcases hdel : (bucketDelete k (t.buckets.getD (hashIdx k t.capacity) [])).2
      with _ | _
    · -- key absent: nothing changes
      simp only [hdel, Bool.false_eq_true, if_false]
      refine ⟨h, ?_⟩
      intro k1
      by_cases he : k = k1
      · subst he
        rw [if_pos rfl]
        have hnm : k ∉ (t.buckets.getD (hashIdx k t.capacity) []).map Prod.fst := by
          intro hm
          have := (bucketDelete_isDel k _).mpr hm
          rw [hdel] at this
          exact Bool.noConfusion this
        have : k ∉ t.keysList := fun hx =>
          hnm ((mem_keysList_iff_bucket h.toHTWF0 k hk).mp hx)
        rcases hl : lookupEntry t k with _ | w
        · rfl
        · exact absurd ((lookupEntry_isSome_iff t k).mp (by rw [hl]; rfl)) this
      · rw [if_neg he]
    · -- key found: remove it, decrement the size
      simp only [hdel, if_true]
      have hmemb : k ∈ (t.buckets.getD (hashIdx k t.capacity) []).map Prod.fst :=
        (bucketDelete_isDel k _).mp hdel
      have hlenb := bucketDelete_length k _ hmemb
      set b2 := (bucketDelete k (t.buckets.getD (hashIdx k t.capacity) [])).1
        with hb2
      set t2 : HashTable V :=
        { t with buckets := t.buckets.set (hashIdx k t.capacity) b2,
                 size := t.size - 1 } with ht2
      have hcap2 : t2.capacity = t.capacity := rfl
      have hsizedec : t.size = ((t.buckets.take (hashIdx k t.capacity)).flatten ++
          (t.buckets[hashIdx k t.capacity] ++
            (t.buckets.drop (hashIdx k t.capacity + 1)).flatten)).length := by
        rw [← flatten_getElem_decomp t.buckets (hashIdx k t.capacity) hi]
        exact h.size_eq
      have hwf02 : HTWF0 t2 := by
        refine ⟨h.cap_pos, ?_, ?_, ?_, ?_⟩
        · show (t.buckets.set _ _).length = t.capacity
          rw [List.length_set, h.bucket_count]
        · show t.size - 1 = t2.entries.length
          unfold HashTable.entries
          show _ = (t.buckets.set _ _).flatten.length
          rw [flatten_set_decomp t.buckets (hashIdx k t.capacity) hi _]
          simp only [List.length_append] at hsizedec ⊢
          rw [hb] at hlenb
          omega
        · intro b3 hb3
          rcases List.mem_or_eq_of_mem_set hb3 with hmem | rfl
          · exact h.nodupb b3 hmem
          · exact bucketDelete_nodup k _ hbnd
        · intro j hj p hp
          show p.1 ≠ "" ∧ hashIdx p.1 t.capacity = j
          simp only [List.length_set] at hj
          by_cases hji : j = hashIdx k t.capacity
          · subst hji
            rw [List.getElem_set_self] at hp
            have hpb : p ∈ t.buckets[hashIdx k t.capacity] := by
              rw [← hb]
              exact bucketDelete_mem k _ p hp
            exact h.placed _ hi p hpb
          · rw [List.getElem_set_ne (fun e => hji e.symm)] at hp
            exact h.placed j hj p hp
      have hload2 : 4 * t2.size ≤ 3 * t2.capacity + 4 := by
        show 4 * (t.size - 1) ≤ 3 * t.capacity + 4
        have := h.load
        omega
      refine ⟨⟨hwf02, hload2⟩, ?_⟩
      intro k1
      by_cases he : k = k1
      · subst he
        rw [if_pos rfl, lookupEntry_eq_bucket hwf02 k hk]
        have hbk : t2.buckets.getD (hashIdx k t2.capacity) [] = b2 := by
          rw [hcap2]
          exact getD_set_self _ _ hi _ _
        rw [hbk, hb2, bucketDelete_find_self k _ hbnd]
        rfl
      · rw [if_neg he]
        by_cases hk1 : k1 = ""
        · subst hk1
          rw [lookupEntry_empty_key hwf02, lookupEntry_empty_key h.toHTWF0]
        · rw [lookupEntry_eq_bucket hwf02 k1 hk1,
            lookupEntry_eq_bucket h.toHTWF0 k1 hk1, hcap2]
          by_cases hcol : hashIdx k1 t.capacity = hashIdx k t.capacity
          · rw [hcol]
            have hbk : t2.buckets.getD (hashIdx k t.capacity) [] = b2 :=
              getD_set_self _ _ hi _ _
            rw [hbk, hb2, bucketDelete_find_ne k k1 _ (fun e => he e.symm), ← hcol]
          · have hbk : t2.buckets.getD (hashIdx k1 t.capacity) [] =
                t.buckets.getD (hashIdx k1 t.capacity) [] :=
              getD_set_ne _ (fun e => hcol e.symm) _ _
            rw [hbk]

/- ----------------------------------------------------------------
C1 and C10: the KeyedTable claims.
---------------------------------------------------------------- -/

theorem runFold_spec {V : Type} (ops : List (TOp V)) :
    ∀ t0 : HashTable V, HTWF t0 → (∀ op ∈ ops, op.key ≠ "") →
      HTWF (ops.foldl applyTOp t0)
      ∧ ∀ k, lookupEntry (ops.foldl applyTOp t0) k =
          ops.foldl (fun m op =>
            match op with
            | .ins k1 v => if k1 = k then some v else m
            | .del k1 => if k1 = k then none else m) (lookupEntry t0 k) := by
  induction ops with
  | nil =>
    intro t0 h0 _
    exact ⟨h0, fun k => rfl⟩
  | cons op rest ih =>
    intro t0 h0 hkeys
    rcases op with ⟨k1, v⟩ | ⟨k1⟩
    · have hk1 : k1 ≠ "" := hkeys (TOp.ins k1 v) (List.mem_cons_self _ _)
      obtain ⟨hwf1, hlook1, _⟩ := insertOp_spec h0 k1 hk1 v
      obtain ⟨hwfr, hlookr⟩ := ih (t0.insertOp k1 v) hwf1
        (fun op h => hkeys op (List.mem_cons_of_mem _ h))
      refine ⟨hwfr, ?_⟩
      intro k
      rw [List.foldl_cons, List.foldl_cons]
      show lookupEntry (rest.foldl applyTOp (t0.insertOp k1 v)) k = _
      rw [hlookr k, hlook1 k]
    · obtain ⟨hwf1, hlook1⟩ := deleteOp_spec h0 k1
      obtain ⟨hwfr, hlookr⟩ := ih (t0.deleteOp k1).1 hwf1
        (fun op h => hkeys op (List.mem_cons_of_mem _ h))
      refine ⟨hwfr, ?_⟩
      intro k
      rw [List.foldl_cons, List.foldl_cons]
      show lookupEntry (rest.foldl applyTOp (t0.deleteOp k1).1) k = _
      rw [hlookr k, hlook1 k]

/-- C1: for every sequence of inserts and deletes on nonempty keys, `get`
returns exactly the value of the most recent insert of the key (or the
not-found result after a delete or with no insert at all), the table never
holds duplicate keys, and its size counter counts exactly the live keys —
so every live entry survives every load-factor-triggered resize with no
loss and no duplication. -/
theorem C1_keyed_table_semantics {V : Type} (ops : List (TOp V))
    (hops : ∀ op ∈ ops, op.key ≠ "") :
    (∀ k, (runOps V ops).get k = (specMap ops k).join)
    ∧ (runOps V ops).keysList.Nodup
    ∧ (∀ k, k ∈ (runOps V ops).keysList ↔ (specMap ops k).isSome)
    ∧ (runOps V ops).size = (runOps V ops).keysList.length := by
  obtain ⟨hwf, hlook⟩ := runFold_spec ops (emptyTable V 16)
    (emptyTable_wf V 16 (by omega)) hops
  refine ⟨?_, keysList_nodup hwf.toHTWF0, ?_, ?_⟩
  · intro k
    unfold runOps specMap
    rw [get_eq_lookupEntry hwf.toHTWF0 k, hlook k, lookupEntry_emptyTable]
  · intro k
    unfold runOps specMap
    rw [mem_keysList_iff_lookup, hlook k, lookupEntry_emptyTable]
  · unfold runOps
    rw [hwf.size_eq]
    unfold HashTable.keysList
    rw [List.length_map]

/-- C1 witness: a concrete run with two inserts and a delete spanning both
claims, with the nonempty-key hypothesis discharged by computation. -/
theorem C1_witness :
    (∀ op ∈ ([TOp.ins "a" (some 1), TOp.ins "b" (some 2), TOp.del "a"] :
        List (TOp Nat)), op.key ≠ "")
    ∧ (runOps Nat [TOp.ins "a" (some 1), TOp.ins "b" (some 2),
        TOp.del "a"]).get "b" =
      (specMap [TOp.ins "a" (some 1), TOp.ins "b" (some 2), TOp.del "a"]
        "b").join :=
  ⟨by decide,
   (C1_keyed_table_semantics [TOp.ins "a" (some 1), TOp.ins "b" (some 2),
     TOp.del "a"] (by decide)).1 "b"⟩

/-- C10: after `insert(k, None)` the key behaves as absent at the public
interface — `get` returns the not-found result, `contains` is false, and
indexed access raises the key-not-found error — although the entry is
stored and counted in the size. -/
theorem C10_none_value_indistinguishable {V : Type} (t : HashTable V)
    (h : HTWF t) (k : String) (hk : k ≠ "") :
    (t.insertOp k none).get k = none
    ∧ (t.insertOp k none).containsKey k = false
    ∧ (t.insertOp k none).getItem k =
        Except.error ("Key " ++ k ++ " not found")
    ∧ k ∈ (t.insertOp k none).keysList
    ∧ (t.insertOp k none).size = (t.insertOp k none).keysList.length := by
  obtain ⟨hwf, hlook, _⟩ := insertOp_spec h k hk none
  have hget : (t.insertOp k none).get k = none := by
    rw [get_eq_lookupEntry hwf.toHTWF0 k, hlook k, if_pos rfl]
    rfl
  refine ⟨hget, ?_, ?_, ?_, ?_⟩
  · unfold HashTable.containsKey
    rw [hget]
    rfl
  · unfold HashTable.getItem
    rw [hget]
  · rw [mem_keysList_iff_lookup, hlook k, if_pos rfl]
    rfl
  · rw [hwf.size_eq]
    unfold HashTable.keysList
    rw [List.length_map]

/-- C10 witness: the claim applied to the fresh default table. -/
theorem C10_witness :
    (HTWF (emptyTable Nat 16) ∧ "x" ≠ "")
    ∧ ((emptyTable Nat 16).insertOp "x" none).get "x" = none :=
  ⟨⟨emptyTable_wf Nat 16 (by omega), by decide⟩,
   (C10_none_value_indistinguishable (emptyTable Nat 16)
     (emptyTable_wf Nat 16 (by omega)) "x" (by decide)).1⟩

/- ----------------------------------------------------------------
C7: recordPurchase.
---------------------------------------------------------------- -/

theorem addUser_alookup (st : UStore) (userId : String)
    (info : Option (List (String × String))) :
    alookup (st.addUser userId info).users userId =
      some ((alookup st.users userId).getD (newPUser info)) := by
  unfold UStore.addUser
  rcases h : alookup st.users userId with _ | u
  · rw [if_neg (by simp)]
    show alookup (st.users ++ [(userId, newPUser info)]) userId = _
    rw [alookup_append, h]
    simp [alookup]
  · rw [if_pos (by rfl), h]
    rfl

theorem addUser_of_isSome (st : UStore) (userId : String)
    (info : Option (List (String × String)))
    (h : (alookup st.users userId).isSome) : st.addUser userId info = st := by
  unfold UStore.addUser
  rw [if_pos h]

theorem addPurchase_users_alookup (st : UStore)
    (userId itemId category : String) (pd : Option PData) :
    alookup (st.addPurchase userId itemId category pd).users userId =
      some (((alookup st.users userId).getD
        (newPUser none)).addPurchase itemId category pd) := by
  unfold UStore.addPurchase
  show alookup ((st.addUser userId none).users.map
    (fun p => if p.1 = userId
      then (p.1, p.2.addPurchase itemId category pd) else p)) userId = _
  rw [alookup_map_modify ((st.addUser userId none).users) userId
    (fun u => u.addPurchase itemId category pd)]
  rw [addUser_alookup st userId none]
  rfl

/-- C7, amended: `recordPurchase` creates the user record if absent,
prepends the purchase to the history, and increments the category
preference weight and total spend by the recorded amount when the purchase
record carries one, by zero when a nonempty record lacks an amount, and by
the unit weight 1.0 only when the record is absent or empty; total spend
never decreases provided the effective amount is nonnegative. -/
theorem C7_record_purchase (st : UStore) (userId itemId category : String)
    (pd : Option PData) :
    (alookup (st.addPurchase userId itemId category pd).users userId).isSome
    ∧ purchasesOf (st.addPurchase userId itemId category pd) userId =
        (itemId, pd.getD []) :: purchasesOf st userId
    ∧ prefOf (st.addPurchase userId itemId category pd) userId category =
        prefOf st userId category + amountOf pd
    ∧ totalOf (st.addPurchase userId itemId category pd) userId =
        totalOf st userId + amountOf pd
    ∧ (0 ≤ amountOf pd →
        totalOf st userId ≤
          totalOf (st.addPurchase userId itemId category pd) userId) := by
  have hu := addPurchase_users_alookup st userId itemId category pd
  have hpur : purchasesOf (st.addPurchase userId itemId category pd) userId =
      (itemId, pd.getD []) :: purchasesOf st userId := by
    unfold purchasesOf
    rw [hu]
    rcases h : alookup st.users userId with _ | u
    · rfl
    · rfl
  have hpref : prefOf (st.addPurchase userId itemId category pd)
      userId category = prefOf st userId category + amountOf pd := by
    unfold prefOf
    rw [hu]
    rcases h : alookup st.users userId with _ | u
    · show (alookup (bumpScore (newPUser none).preferences category
        (amountOf pd)) category).getD 0 = 0 + amountOf pd
      rw [bumpScore_alookup_self]
      rfl
    · show (alookup (bumpScore u.preferences category
        (amountOf pd)) category).getD 0 = _
      rw [bumpScore_alookup_self]
      rfl
  have htot : totalOf (st.addPurchase userId itemId category pd) userId =
      totalOf st userId + amountOf pd := by
    unfold totalOf
    rw [hu]
    rcases h : alookup st.users userId with _ | u
    · rfl
    · rfl
  refine ⟨by rw [hu]; rfl, hpur, hpref, htot, ?_⟩
  intro hge
  rw [htot]
  linarith

/-- C7 counterexample: a purchase whose nonempty record lacks an amount
increments the preference weight by 0, not by the unit weight 1.0, and a
recorded negative amount strictly decreases the total spend. -/
theorem C7_counterexample :
    amountOf (some [("payment_method", 0)]) = 0
    ∧ (0 : ℚ) ≠ 1
    ∧ prefOf (emptyUStore.addPurchase "u" "i1" "c"
        (some [("payment_method", 0)])) "u" "c" = 0
    ∧ totalOf (emptyUStore.addPurchase "u2" "i2" "c2"
        (some [("total_amount", -5)])) "u2" < totalOf emptyUStore "u2" := by
  refine ⟨rfl, by norm_num, ?_, ?_⟩
  · have h := (C7_record_purchase emptyUStore "u" "i1" "c"
      (some [("payment_method", 0)])).2.2.1
    rw [h]
    show (0 : ℚ) + 0 = 0
    norm_num
  · have h := (C7_record_purchase emptyUStore "u2" "i2" "c2"
      (some [("total_amount", -5)])).2.2.2.1
    rw [h]
    show (0 : ℚ) + (-5) < 0
    norm_num

/-- C7 witness: the amended theorem at a purchase with a nonnegative
recorded amount, its hypothesis discharged by computation. -/
theorem C7_witness :
    (0 : ℚ) ≤ amountOf (some [("total_amount", 3)])
    ∧ totalOf emptyUStore "u" ≤
        totalOf (emptyUStore.addPurchase "u" "i" "c"
          (some [("total_amount", 3)])) "u" :=
  ⟨by norm_num [amountOf, alookup],
   (C7_record_purchase emptyUStore "u" "i" "c"
     (some [("total_amount", 3)])).2.2.2.2 (by norm_num [amountOf, alookup])⟩

/- ----------------------------------------------------------------
C8: idempotency of re-loading users and products.
---------------------------------------------------------------- -/

theorem appendIndex_alookup_self (idx : List (String × List String))
    (key item : String) :
    alookup (appendIndex idx key item) key =
      some ((alookup idx key).getD [] ++ [item]) := by
  unfold appendIndex
  rcases h : alookup idx key with _ | l
  · show alookup (idx ++ [(key, [item])]) key = _
    rw [alookup_append, h]
    simp [alookup]
  · rw [alookup_assocSet_self]
    rfl

/-- C8, amended: re-loading the same identifier never duplicates the keyed
record itself; however, the dict-based `ProductStore.add_product` applies
the second load's attributes but appends a duplicate membership to its
category index, while `UserStore.add_user` and
`OptimizedProductStore.add_product` ignore the second load entirely, so the
second load's attributes are not applied there. -/
theorem C8_idempotent_loading :
    (∀ (st : UStore) (userId : String)
        (i1 i2 : Option (List (String × String))),
      (st.addUser userId i1).addUser userId i2 = st.addUser userId i1)
    ∧ (∀ (st : PStore) (itemId category : String) (inf1 inf2 : Option PInfo),
        alookup ((st.addProduct itemId category inf1).addProduct itemId
          category inf2).items itemId = some ⟨category, inf2⟩
        ∧ (((st.addProduct itemId category inf1).addProduct itemId
            category inf2).items.map Prod.fst) =
          ((st.addProduct itemId category inf1).items.map Prod.fst)
        ∧ alookup ((st.addProduct itemId category inf1).addProduct itemId
            category inf2).categoryIndex category =
          some (((alookup (st.addProduct itemId category inf1).categoryIndex
            category).getD []) ++ [itemId]))
    ∧ (∀ (st : OPStore) (itemId category : String) (inf1 inf2 : Option PInfo),
        HTWF st.items → itemId ≠ "" →
        (st.addProduct itemId category inf1).addProduct itemId category inf2
          = st.addProduct itemId category inf1) := by
  refine ⟨?_, ?_, ?_⟩
  · intro st userId i1 i2
    apply addUser_of_isSome
    rw [addUser_alookup]
    rfl
  · intro st itemId category inf1 inf2
    have hitems1 : ∀ s : PStore,
        (s.addProduct itemId category inf2).items =
          assocSet s.items itemId ⟨category, inf2⟩ := by
      intro s
      unfold PStore.addProduct
      rcases inf2 with _ | i <;> rfl
    have hcat1 : ∀ s : PStore,
        (s.addProduct itemId category inf2).categoryIndex =
          appendIndex s.categoryIndex category itemId := by
      intro s
      unfold PStore.addProduct
      rcases inf2 with _ | i <;> rfl
    refine ⟨?_, ?_, ?_⟩
    · rw [hitems1, alookup_assocSet_self]
    · rw [hitems1, assocSet_keys]
      have hsome : (alookup (st.addProduct itemId category inf1).items
          itemId).isSome = true := by
        have : (st.addProduct itemId category inf1).items =
            assocSet st.items itemId ⟨category, inf1⟩ := by
          unfold PStore.addProduct
          rcases inf1 with _ | i <;> rfl
        rw [this, alookup_assocSet_self]
        rfl
      rw [if_pos hsome]
    · rw [hcat1, appendIndex_alookup_self]
  · intro st itemId category inf1 inf2 hwf hne
    by_cases hpresent : (st.items.get itemId).isSome
    · have h1 : st.addProduct itemId category inf1 = st := by
        unfold OPStore.addProduct
        rw [if_pos hpresent]
      rw [h1]
      unfold OPStore.addProduct
      rw [if_pos hpresent]
    · have hitems : (st.addProduct itemId category inf1).items =
          st.items.insertOp itemId (some ⟨category, inf1⟩) := by
        unfold OPStore.addProduct
        rw [if_neg hpresent]
        rcases inf1 with _ | i
        · rfl
        · obtain ⟨b, p, s, a⟩ := i
          rcases b with _ | bb <;> rcases p with _ | pp <;> rfl
      obtain ⟨hwf1, hlook1, _⟩ := insertOp_spec hwf itemId hne
        (some ⟨category, inf1⟩)
      have hget1 : ((st.addProduct itemId category inf1).items.get
          itemId).isSome := by
        rw [hitems, get_eq_lookupEntry hwf1.toHTWF0, hlook1 itemId,
          if_pos rfl]
        rfl
      generalize hgen : st.addProduct itemId category inf1 = t1 at hget1 ⊢
      unfold OPStore.addProduct
      rw [if_pos hget1]

/-- C8 counterexample: loading the same product twice through the
dict-based `ProductStore` puts its identifier into the category index
twice, contradicting at-most-once index membership. -/
theorem C8_counterexample :
    List.count "p1"
      ((alookup ((emptyPStore.addProduct "p1" "Books" none).addProduct
        "p1" "Books" none).categoryIndex "Books").getD []) = 2 := by
  decide

/-- C8 witness: the amended theorem applied to the empty optimized store,
its well-formedness and nonempty-key hypotheses discharged concretely. -/
theorem C8_witness :
    (HTWF emptyOPStore.items ∧ "p" ≠ "")
    ∧ (emptyOPStore.addProduct "p" "c" none).addProduct "p" "c" none =
        emptyOPStore.addProduct "p" "c" none :=
  ⟨⟨emptyTable_wf ProductRec 1000 (by omega), by decide⟩,
   C8_idempotent_loading.2.2 emptyOPStore "p" "c" none none
     (emptyTable_wf ProductRec 1000 (by omega)) (by decide)⟩

/- ----------------------------------------------------------------
C5: the bitmap SetIndex.
---------------------------------------------------------------- -/

theorem idxLookup_append (l1 l2 : List (Nat × String)) (n : Nat) :
    idxLookup (l1 ++ l2) n = (idxLookup l1 n).or (idxLookup l2 n) := by
  induction l1 with
  | nil => simp [idxLookup]
  | cons p rest ih =>
    obtain ⟨m, s⟩ := p
    by_cases h : m = n <;> simp [idxLookup, h, ih]

theorem idxLookup_eq_none_iff (l : List (Nat × String)) (n : Nat) :
    idxLookup l n = none ↔ n ∉ l.map Prod.fst := by
  induction l with
  | nil => simp [idxLookup]
  | cons p rest ih =>
    obtain ⟨m, s⟩ := p
    rw [idxLookup]
    by_cases h : m = n
    · subst h
      simp
    · simp [h, ih, Ne.symm h]

/-- Reachable-state invariant of the bitmap index: the identifier-to-handle
and handle-to-identifier maps are mutually inverse, and the counter is
fresh. -/
theorem BWF.inj {bi : BitmapIndex} (h : BWF bi) {n1 n2 : Nat} {x : String}
    (h1 : idxLookup bi.indexToItem n1 = some x)
    (h2 : idxLookup bi.indexToItem n2 = some x) : n1 = n2 := by
  have e1 := (h.pair_iff x n1).mpr h1
  have e2 := (h.pair_iff x n2).mpr h2
  rw [e1] at e2
  exact Option.some.inj e2

theorem addItem_maps (bi : BitmapIndex) (category itemId : String) :
    ((alookup bi.itemToIndex itemId).isSome →
      (addItem bi category itemId).itemToIndex = bi.itemToIndex
      ∧ (addItem bi category itemId).indexToItem = bi.indexToItem
      ∧ (addItem bi category itemId).indexCounter = bi.indexCounter)
    ∧ (alookup bi.itemToIndex itemId = none →
      (addItem bi category itemId).itemToIndex =
        bi.itemToIndex ++ [(itemId, bi.indexCounter)]
      ∧ (addItem bi category itemId).indexToItem =
        bi.indexToItem ++ [(bi.indexCounter, itemId)]
      ∧ (addItem bi category itemId).indexCounter = bi.indexCounter + 1) := by
  constructor
  · intro hcond
    unfold addItem
    rw [if_pos hcond]
    dsimp only
    rcases h2 : alookup bi.bitmaps category with _ | s
    · exact ⟨rfl, rfl, rfl⟩
    · dsimp only
      by_cases hm : (alookup bi.itemToIndex itemId).getD 0 ∈ s
      · rw [if_pos hm]
        exact ⟨rfl, rfl, rfl⟩
      · rw [if_neg hm]
        exact ⟨rfl, rfl, rfl⟩
  · intro hcond
    unfold addItem
    rw [if_neg (by rw [hcond]; simp)]
    dsimp only
    rcases h2 : alookup bi.bitmaps category with _ | s
    · exact ⟨rfl, rfl, rfl⟩
    · dsimp only
      by_cases hm : (alookup (bi.itemToIndex ++ [(itemId, bi.indexCounter)])
          itemId).getD 0 ∈ s
      · rw [if_pos hm]
        exact ⟨rfl, rfl, rfl⟩
      · rw [if_neg hm]
        exact ⟨rfl, rfl, rfl⟩

theorem removeItem_maps (bi : BitmapIndex) (category itemId : String) :
    (removeItem bi category itemId).itemToIndex = bi.itemToIndex
    ∧ (removeItem bi category itemId).indexToItem = bi.indexToItem
    ∧ (removeItem bi category itemId).indexCounter = bi.indexCounter := by
  unfold removeItem
  rcases h1 : alookup bi.itemToIndex itemId with _ | idx
  · exact ⟨rfl, rfl, rfl⟩
  · rcases h2 : alookup bi.bitmaps category with _ | s
    · exact ⟨rfl, rfl, rfl⟩
    · dsimp only
      by_cases hm : idx ∈ s
      · rw [if_pos hm]
        by_cases hs1 : s.filter (fun n => n ≠ idx) = []
        · rw [if_pos hs1]
          exact ⟨rfl, rfl, rfl⟩
        · rw [if_neg hs1]
          exact ⟨rfl, rfl, rfl⟩
      · rw [if_neg hm]
        exact ⟨rfl, rfl, rfl⟩

theorem addItem_wf {bi : BitmapIndex} (h : BWF bi) (category itemId : String) :
    BWF (addItem bi category itemId) := by
  rcases hpresent : alookup bi.itemToIndex itemId with _ | n0
  · obtain ⟨e1, e2, e3⟩ := (addItem_maps bi category itemId).2 hpresent
    have hfresh : idxLookup bi.indexToItem bi.indexCounter = none := by
      rw [idxLookup_eq_none_iff]
      intro hm
      rcases List.mem_map.mp hm with ⟨p, hp, hfst⟩
      have := h.ctr_big p hp
      omega
    refine ⟨?_, ?_⟩
    · intro s n
      rw [e1, e2, alookup_append, idxLookup_append]
      by_cases hs : itemId = s
      · subst hs
        rw [hpresent]
        have hsg : alookup [(itemId, bi.indexCounter)] itemId =
            some bi.indexCounter := by simp [alookup]
        rw [hsg]
        constructor
        · intro he
          have he2 : n = bi.indexCounter := by
            have : some bi.indexCounter = some n := by simpa using he
            exact (Option.some.inj this).symm
          subst he2
          rw [hfresh]
          simp [idxLookup]
        · intro he
          rcases hn : idxLookup bi.indexToItem n with _ | s2
          · rw [hn] at he
            by_cases hnc : bi.indexCounter = n
            · subst hnc
              simp
            · exfalso
              simp [idxLookup, hnc] at he
          · rw [hn] at he
            have hs2 : s2 = itemId := by simpa using he
            rw [hs2] at hn
            have hcontr := (h.pair_iff itemId n).mpr hn
            rw [hpresent] at hcontr
            exact Option.noConfusion hcontr
      · have hone1 : alookup [(itemId, bi.indexCounter)] s = none := by
          simp [alookup, hs]
        rw [hone1, Option.or_none]
        constructor
        · intro he
          have hl2 := (h.pair_iff s n).mp he
          rw [hl2]
          rfl
        · intro he
          rcases hl : idxLookup bi.indexToItem n with _ | s2
          · rw [hl] at he
            by_cases hnc : bi.indexCounter = n
            · exfalso
              subst hnc
              have : itemId = s := by simpa [idxLookup] using he
              exact hs this
            · exfalso
              simp [idxLookup, hnc] at he
          · rw [hl] at he
            have hs2 : s2 = s := by simpa using he
            rw [hs2] at hl
            exact (h.pair_iff s n).mpr hl
    · intro p hp
      rw [e2] at hp
      rw [e3]
      rcases List.mem_append.mp hp with hm | hm
      · have := h.ctr_big p hm
        omega
      · have hpe : p = (bi.indexCounter, itemId) := by simpa using hm
        rw [hpe]
        omega
  · obtain ⟨e1, e2, e3⟩ := (addItem_maps bi category itemId).1
      (by rw [hpresent]; rfl)
    refine ⟨?_, ?_⟩
    · intro s n
      rw [e1, e2]
      exact h.pair_iff s n
    · intro p hp
      rw [e2] at hp
      rw [e3]
      exact h.ctr_big p hp

theorem removeItem_wf {bi : BitmapIndex} (h : BWF bi)
    (category itemId : String) : BWF (removeItem bi category itemId) := by
  obtain ⟨e1, e2, e3⟩ := removeItem_maps bi category itemId
  refine ⟨?_, ?_⟩
  · intro s n
    rw [e1, e2]
    exact h.pair_iff s n
  · intro p hp
    rw [e2] at hp
    rw [e3]
    exact h.ctr_big p hp

theorem runBitmap_wf (ops : List BOp) : BWF (runBitmap ops) := by
  unfold runBitmap
  induction ops using List.reverseRecOn with
  | nil =>
    refine ⟨?_, ?_⟩
    · intro s n
      simp [emptyBitmap, alookup, idxLookup]
    · intro p hp
      simp [emptyBitmap] at hp
  | append_singleton rest op ih =>
    rw [List.foldl_append]
    rcases op with ⟨c, i⟩ | ⟨c, i⟩
    · exact addItem_wf ih c i
    · exact removeItem_wf ih c i

theorem mem_resolveIdxs (bi : BitmapIndex) (s : List Nat) (x : String) :
    x ∈ resolveIdxs bi s ↔ ∃ n ∈ s, idxLookup bi.indexToItem n = some x := by
  unfold resolveIdxs
  rw [List.mem_filterMap]

theorem mem_getItems (bi : BitmapIndex) (c : String) (x : String) :
    x ∈ getItems bi c ↔ ∃ n ∈ (alookup bi.bitmaps c).getD [],
      idxLookup bi.indexToItem n = some x := by
  unfold getItems
  rw [mem_resolveIdxs]

theorem getItems_absent (bi : BitmapIndex) (c : String)
    (h : alookup bi.bitmaps c = none) : getItems bi c = [] := by
  unfold getItems
  rw [h]
  rfl

theorem interGo_none_iff (bi : BitmapIndex) (cats : List String) :
    ∀ acc, interGo bi cats acc = none ↔
      ∃ c ∈ cats, alookup bi.bitmaps c = none := by
  induction cats with
  | nil =>
    intro acc
    simp [interGo]
  | cons c cs ih =>
    intro acc
    rcases hc : alookup bi.bitmaps c with _ | s
    · simp only [interGo, hc]
      constructor
      · intro _
        exact ⟨c, List.mem_cons_self _ _, hc⟩
      · intro _
        trivial
    · simp only [interGo, hc]
      rw [ih]
      constructor
      · rintro ⟨c2, hc2, habs⟩
        exact ⟨c2, List.mem_cons_of_mem _ hc2, habs⟩
      · rintro ⟨c2, hc2, habs⟩
        rcases List.mem_cons.mp hc2 with rfl | hc3
        · rw [hc] at habs
          exact Option.noConfusion habs
        · exact ⟨c2, hc3, habs⟩

theorem interGo_mem (bi : BitmapIndex) (cats : List String) :
    ∀ acc res, interGo bi cats acc = some res →
      ∀ n, n ∈ res ↔ n ∈ acc ∧
        ∀ c ∈ cats, ∃ s, alookup bi.bitmaps c = some s ∧ n ∈ s := by
  induction cats with
  | nil =>
    intro acc res h n
    have : acc = res := by simpa [interGo] using h
    subst this
    simp
  | cons c cs ih =>
    intro acc res h n
    rcases hc : alookup bi.bitmaps c with _ | s
    · rw [interGo, hc] at h
      exact Option.noConfusion h
    · rw [interGo, hc] at h
      have hstep := ih _ _ h n
      rw [hstep, List.mem_filter]
      constructor
      · rintro ⟨⟨hacc, hns⟩, hall⟩
        refine ⟨hacc, ?_⟩
        intro c2 hc2
        rcases List.mem_cons.mp hc2 with rfl | hc3
        · exact ⟨s, hc, by simpa using hns⟩
        · exact hall c2 hc3
      · rintro ⟨hacc, hall⟩
        obtain ⟨s2, hs2, hns2⟩ := hall c (List.mem_cons_self _ _)
        rw [hc] at hs2
        obtain rfl := Option.some.inj hs2
        exact ⟨⟨hacc, by simpa using hns2⟩,
          fun c2 hc2 => hall c2 (List.mem_cons_of_mem _ hc2)⟩

theorem unionFold_mem (bi : BitmapIndex) (cats : List String) :
    ∀ acc n, (n ∈ cats.foldl
      (fun acc c =>
        match alookup bi.bitmaps c with
        | none => acc
        | some s => acc ++ s.filter (fun n => n ∉ acc))
      acc) ↔
      n ∈ acc ∨ ∃ c ∈ cats, ∃ s, alookup bi.bitmaps c = some s ∧ n ∈ s := by
  induction cats with
  | nil =>
    intro acc n
    simp
  | cons c cs ih =>
    intro acc n
    rw [List.foldl_cons]
    rcases hc : alookup bi.bitmaps c with _ | s
    · rw [ih]
      constructor
      · rintro (hacc | ⟨c2, hc2, hex⟩)
        · exact Or.inl hacc
        · exact Or.inr ⟨c2, List.mem_cons_of_mem _ hc2, hex⟩
      · rintro (hacc | ⟨c2, hc2, s2, hs2, hns2⟩)
        · exact Or.inl hacc
        · rcases List.mem_cons.mp hc2 with rfl | hc3
          · rw [hc] at hs2
            exact Option.noConfusion hs2
          · exact Or.inr ⟨c2, hc3, s2, hs2, hns2⟩
    · rw [ih]
      have hmem : n ∈ acc ++ s.filter (fun m => m ∉ acc) ↔
          n ∈ acc ∨ n ∈ s := by
        rw [List.mem_append, List.mem_filter]
        constructor
        · rintro (h1 | ⟨h2, _⟩)
          · exact Or.inl h1
          · exact Or.inr h2
        · rintro (h1 | h2)
          · exact Or.inl h1
          · by_cases hacc : n ∈ acc
            · exact Or.inl hacc
            · exact Or.inr ⟨h2, by simpa using hacc⟩
      rw [hmem]
      constructor
      · rintro ((h1 | h2) | ⟨c2, hc2, hex⟩)
        · exact Or.inl h1
        · exact Or.inr ⟨c, List.mem_cons_self _ _, s, hc, h2⟩
        · exact Or.inr ⟨c2, List.mem_cons_of_mem _ hc2, hex⟩
      · rintro (h1 | ⟨c2, hc2, s2, hs2, hns2⟩)
        · exact Or.inl (Or.inl h1)
        · rcases List.mem_cons.mp hc2 with rfl | hc3
          · rw [hc] at hs2
            obtain rfl := Option.some.inj hs2
            exact Or.inl (Or.inr hns2)
          · exact Or.inr ⟨c2, hc3, s2, hs2, hns2⟩

theorem inter_cons_mem (bi : BitmapIndex) (hwf : BWF bi) (c0 : String)
    (rest : List String) (x : String) :
    x ∈ getItemsIntersection bi (c0 :: rest) ↔
      ∀ c ∈ c0 :: rest, x ∈ getItems bi c := by
  have hred : getItemsIntersection bi (c0 :: rest) =
      match interGo bi rest ((alookup bi.bitmaps c0).getD []) with
      | none => []
      | some res => resolveIdxs bi res := rfl
  rw [hred]
  rcases h : interGo bi rest ((alookup bi.bitmaps c0).getD []) with _ | res
  · show x ∈ ([] : List String) ↔ _
    simp only [List.not_mem_nil, false_iff]
    intro hall
    obtain ⟨c, hcmem, habs⟩ := (interGo_none_iff bi rest _).mp h
    have hx := hall c (List.mem_cons_of_mem _ hcmem)
    rw [getItems_absent bi c habs] at hx
    exact List.not_mem_nil x hx
  · show x ∈ resolveIdxs bi res ↔ _
    rw [mem_resolveIdxs]
    constructor
    · rintro ⟨n, hnres, hlook⟩
      obtain ⟨hninit, hall⟩ := (interGo_mem bi rest _ res h n).mp hnres
      intro c hc
      rcases List.mem_cons.mp hc with rfl | hc3
      · rw [mem_getItems]
        exact ⟨n, hninit, hlook⟩
      · obtain ⟨s, hs, hns⟩ := hall c hc3
        rw [mem_getItems]
        refine ⟨n, ?_, hlook⟩
        rw [hs]
        exact hns
    · intro hall
      have h0 := hall c0 (List.mem_cons_self _ _)
      rw [mem_getItems] at h0
      obtain ⟨n, hninit, hlook⟩ := h0
      have hrest : ∀ c ∈ rest, ∃ s, alookup bi.bitmaps c = some s ∧ n ∈ s := by
        intro c hc
        have hx := hall c (List.mem_cons_of_mem _ hc)
        rw [mem_getItems] at hx
        obtain ⟨n2, hn2, hlook2⟩ := hx
        obtain rfl : n2 = n := hwf.inj hlook2 hlook
        rcases hs : alookup bi.bitmaps c with _ | s
        · rw [hs] at hn2
          simp at hn2
        · rw [hs] at hn2
          exact ⟨s, rfl, by simpa using hn2⟩
      exact ⟨n, (interGo_mem bi rest _ res h n).mpr ⟨hninit, hrest⟩, hlook⟩

theorem union_mem_iff (bi : BitmapIndex) (cats : List String) (x : String) :
    x ∈ getItemsUnion bi cats ↔ ∃ c ∈ cats, x ∈ getItems bi c := by
  rcases cats with _ | ⟨c0, rest⟩
  · simp [getItemsUnion]
  · show x ∈ resolveIdxs bi _ ↔ _
    rw [mem_resolveIdxs]
    constructor
    · rintro ⟨n, hn, hlook⟩
      rcases (unionFold_mem bi (c0 :: rest) [] n).mp hn with hfalse | ⟨c, hc, s, hs, hns⟩
      · exact absurd hfalse (List.not_mem_nil n)
      · refine ⟨c, hc, ?_⟩
        rw [mem_getItems]
        refine ⟨n, ?_, hlook⟩
        rw [hs]
        exact hns
    · rintro ⟨c, hc, hx⟩
      rw [mem_getItems] at hx
      obtain ⟨n, hn, hlook⟩ := hx
      rcases hs : alookup bi.bitmaps c with _ | s
      · rw [hs] at hn
        simp at hn
      · rw [hs] at hn
        refine ⟨n, ?_, hlook⟩
        exact (unionFold_mem bi (c0 :: rest) [] n).mpr
          (Or.inr ⟨c, hc, s, hs, by simpa using hn⟩)

/-- C5: over every reachable state of the bitmap index,
`get_items_intersection [A, B]` holds exactly the items belonging to both
attribute sets (and, for any nonempty list of attribute values, exactly the
items belonging to all of them); `get_items_union` holds exactly the items
belonging to at least one of the requested attribute sets, silently skipping
absent attribute values; the intersection of an empty list of attribute
values is empty; and an intersection in which any requested attribute value
is absent is empty rather than an error. -/
theorem C5_setindex_algebra (ops : List BOp) :
    (∀ A B x, x ∈ getItemsIntersection (runBitmap ops) [A, B] ↔
        (x ∈ getItems (runBitmap ops) A ∧ x ∈ getItems (runBitmap ops) B))
    ∧ (∀ c0 rest x, x ∈ getItemsIntersection (runBitmap ops) (c0 :: rest) ↔
        ∀ c ∈ c0 :: rest, x ∈ getItems (runBitmap ops) c)
    ∧ (∀ cats x, x ∈ getItemsUnion (runBitmap ops) cats ↔
        ∃ c ∈ cats, x ∈ getItems (runBitmap ops) c)
    ∧ getItemsIntersection (runBitmap ops) [] = []
    ∧ (∀ cats, (∃ c ∈ cats, alookup (runBitmap ops).bitmaps c = none) →
        getItemsIntersection (runBitmap ops) cats = []) := by
  have hwf := runBitmap_wf ops
  refine ⟨?_, ?_, ?_, rfl, ?_⟩
  · intro A B x
    rw [inter_cons_mem _ hwf]
    simp
  · intro c0 rest x
    exact inter_cons_mem _ hwf c0 rest x
  · intro cats x
    exact union_mem_iff _ cats x
  · rintro cats ⟨c, hc, habs⟩
    rcases cats with _ | ⟨c0, rest⟩
    · rfl
    · rw [List.eq_nil_iff_forall_not_mem]
      intro x hx
      have hall := (inter_cons_mem _ hwf c0 rest x).mp hx
      have hmem := hall c hc
      rw [getItems_absent _ c habs] at hmem
      exact List.not_mem_nil x hmem

theorem C5_witness :
    getItemsIntersection (runBitmap [BOp.add "A" "x"]) ["B"] = [] :=
  (C5_setindex_algebra [BOp.add "A" "x"]).2.2.2.2 ["B"]
    ⟨"B", by decide, by decide⟩

theorem charsLtB_irrefl : ∀ l : List Char, charsLtB l l = false := by
  intro l
  induction l with
  | nil => rfl
  | cons a as ih =>
    rw [charsLtB, if_neg (lt_irrefl a), if_neg (lt_irrefl a)]
    exact ih

theorem charsLtB_trans (a : List Char) : ∀ b c : List Char,
    charsLtB a b = true → charsLtB b c = true → charsLtB a c = true := by
  induction a with
  | nil =>
    intro b c h1 h2
    cases c with
    | nil =>
      cases b with
      | nil => exact h1
      | cons y ys => simp [charsLtB] at h2
    | cons z zs => rfl
  | cons x xs ih =>
    intro b c h1 h2
    cases b with
    | nil => simp [charsLtB] at h1
    | cons y ys =>
      cases c with
      | nil => simp [charsLtB] at h2
      | cons z zs =>
        rw [charsLtB] at h1 h2 ⊢
        rcases lt_trichotomy x y with hxy | rfl | hxy
        · rcases lt_trichotomy y z with hyz | rfl | hyz
          · rw [if_pos (lt_trans hxy hyz)]
          · rw [if_pos hxy]
          · rw [if_neg (lt_asymm hyz), if_pos hyz] at h2
            exact Bool.noConfusion h2
        · rw [if_neg (lt_irrefl x), if_neg (lt_irrefl x)] at h1
          rcases lt_trichotomy x z with hxz | rfl | hxz
          · rw [if_pos hxz]
          · rw [if_neg (lt_irrefl x), if_neg (lt_irrefl x)] at h2 ⊢
            exact ih ys zs h1 h2
          · rw [if_neg (lt_asymm hxz), if_pos hxz] at h2
            exact Bool.noConfusion h2
        · rw [if_neg (lt_asymm hxy), if_pos hxy] at h1
          exact Bool.noConfusion h1

theorem charsLtB_eq_of_not (a : List Char) : ∀ b : List Char,
    charsLtB a b = false → charsLtB b a = false → a = b := by
  induction a with
  | nil =>
    intro b h1 h2
    cases b with
    | nil => rfl
    | cons y ys => simp [charsLtB] at h1
  | cons x xs ih =>
    intro b h1 h2
    cases b with
    | nil => simp [charsLtB] at h2
    | cons y ys =>
      rw [charsLtB] at h1 h2
      rcases lt_trichotomy x y with hxy | rfl | hxy
      · rw [if_pos hxy] at h1
        exact Bool.noConfusion h1
      · rw [if_neg (lt_irrefl x), if_neg (lt_irrefl x)] at h1
        rw [ih ys h1 (by rwa [if_neg (lt_irrefl x), if_neg (lt_irrefl x)] at h2)]
      · rw [if_pos hxy] at h2
        exact Bool.noConfusion h2

theorem strLtB_irrefl (s : String) : strLtB s s = false :=
  charsLtB_irrefl s.data

theorem strLtB_trans {a b c : String} (h1 : strLtB a b = true)
    (h2 : strLtB b c = true) : strLtB a c = true :=
  charsLtB_trans a.data b.data c.data h1 h2

theorem strLtB_eq_of_not {a b : String} (h1 : strLtB a b = false)
    (h2 : strLtB b a = false) : a = b := by
  have hd := charsLtB_eq_of_not a.data b.data h1 h2
  obtain ⟨da⟩ := a
  obtain ⟨db⟩ := b
  exact congrArg String.mk hd

theorem strLtB_ne {a b : String} (h : strLtB a b = true) : a ≠ b := by
  rintro rfl
  rw [strLtB_irrefl] at h
  exact Bool.noConfusion h

theorem dropWhile_head_false {α : Type} (p : α → Bool) (l : List α) :
    ∀ n rest, l.dropWhile p = n :: rest → p n = false := by
  induction l with
  | nil =>
    intro n rest h
    exact absurd h (by simp)
  | cons x xs ih =>
    intro n rest h
    rw [List.dropWhile_cons] at h
    by_cases hp : p x = true
    · rw [if_pos hp] at h
      exact ih n rest h
    · rw [if_neg hp] at h
      obtain ⟨rfl, rfl⟩ := List.cons.inj h
      simpa using hp

theorem dropWhile_append_all {α : Type} (p : α → Bool) (l1 l2 : List α)
    (h : ∀ a ∈ l1, p a = true) :
    (l1 ++ l2).dropWhile p = l2.dropWhile p := by
  induction l1 with
  | nil => rfl
  | cons x xs ih =>
    rw [List.cons_append, List.dropWhile_cons,
      if_pos (h x (List.mem_cons_self _ _))]
    exact ih (fun a ha => h a (List.mem_cons_of_mem _ ha))

theorem addPurchase_replace (s : SkipList) (lvl : Nat) (k : String)
    (pd : Option PData) (n : SkipNode) (rest : List SkipNode)
    (hpost : s.nodes.dropWhile (fun nd => strLtB nd.itemId k) = n :: rest)
    (hk : n.itemId = k) :
    addPurchase s lvl k pd =
      { s with nodes := s.nodes.takeWhile (fun nd => strLtB nd.itemId k)
          ++ { n with data := pd.getD [] } :: rest } := by
  unfold addPurchase
  rw [hpost]
  dsimp only
  rw [if_pos hk]

theorem addPurchase_insert_mid (s : SkipList) (lvl : Nat) (k : String)
    (pd : Option PData) (n : SkipNode) (rest : List SkipNode)
    (hpost : s.nodes.dropWhile (fun nd => strLtB nd.itemId k) = n :: rest)
    (hk : ¬ n.itemId = k) :
    addPurchase s lvl k pd =
      { nodes := s.nodes.takeWhile (fun nd => strLtB nd.itemId k)
          ++ ⟨k, pd.getD [], min lvl skipMaxLevel⟩ :: n :: rest
        level := max s.level (min lvl skipMaxLevel)
        size := s.size + 1 } := by
  unfold addPurchase
  rw [hpost]
  dsimp only
  rw [if_neg hk]

theorem addPurchase_insert_end (s : SkipList) (lvl : Nat) (k : String)
    (pd : Option PData)
    (hpost : s.nodes.dropWhile (fun nd => strLtB nd.itemId k) = []) :
    addPurchase s lvl k pd =
      { nodes := s.nodes.takeWhile (fun nd => strLtB nd.itemId k)
          ++ [⟨k, pd.getD [], min lvl skipMaxLevel⟩]
        level := max s.level (min lvl skipMaxLevel)
        size := s.size + 1 } := by
  unfold addPurchase
  rw [hpost]

theorem deletePurchase_found (s : SkipList) (k : String)
    (n : SkipNode) (rest : List SkipNode)
    (hpost : s.nodes.dropWhile (fun nd => strLtB nd.itemId k) = n :: rest)
    (hk : n.itemId = k) :
    deletePurchase s k =
      ({ nodes := s.nodes.takeWhile (fun nd => strLtB nd.itemId k) ++ rest
         level := min s.level
           (((s.nodes.takeWhile (fun nd => strLtB nd.itemId k) ++ rest).map
             (·.lvl)).foldl max 0)
         size := s.size - 1 }, true) := by
  unfold deletePurchase
  rw [hpost]
  dsimp only
  rw [if_pos hk]

theorem deletePurchase_miss_ne (s : SkipList) (k : String)
    (n : SkipNode) (rest : List SkipNode)
    (hpost : s.nodes.dropWhile (fun nd => strLtB nd.itemId k) = n :: rest)
    (hk : ¬ n.itemId = k) :
    deletePurchase s k = (s, false) := by
  unfold deletePurchase
  rw [hpost]
  dsimp only
  rw [if_neg hk]

theorem deletePurchase_miss_nil (s : SkipList) (k : String)
    (hpost : s.nodes.dropWhile (fun nd => strLtB nd.itemId k) = []) :
    deletePurchase s k = (s, false) := by
  unfold deletePurchase
  rw [hpost]

theorem skw_split (s : SkipList) (k : String) :
    s.nodes.takeWhile (fun nd => strLtB nd.itemId k) ++
      s.nodes.dropWhile (fun nd => strLtB nd.itemId k) = s.nodes :=
  List.takeWhile_append_dropWhile (fun nd => strLtB nd.itemId k) s.nodes

theorem skw_parts {s : SkipList} (h : SkWF s) (k : String) :
    (s.nodes.takeWhile (fun nd => strLtB nd.itemId k)).Pairwise
      (fun m n => strLtB m.itemId n.itemId = true)
    ∧ (s.nodes.dropWhile (fun nd => strLtB nd.itemId k)).Pairwise
      (fun m n => strLtB m.itemId n.itemId = true)
    ∧ ∀ a ∈ s.nodes.takeWhile (fun nd => strLtB nd.itemId k),
        ∀ b ∈ s.nodes.dropWhile (fun nd => strLtB nd.itemId k),
          strLtB a.itemId b.itemId = true := by
  have hsort := h.sorted
  rw [← skw_split s k, List.pairwise_append] at hsort
  exact hsort

theorem addPurchase_wf {s : SkipList} (h : SkWF s) (lvl : Nat) (k : String)
    (pd : Option PData) : SkWF (addPurchase s lvl k pd) := by
  obtain ⟨hpreS, hpostS, hcross⟩ := skw_parts h k
  have hpreLt : ∀ a ∈ s.nodes.takeWhile (fun nd => strLtB nd.itemId k),
      strLtB a.itemId k = true := by
    intro a ha
    have hx := List.mem_takeWhile_imp ha
    exact hx
  have hlen : s.nodes.length =
      (s.nodes.takeWhile (fun nd => strLtB nd.itemId k)).length +
      (s.nodes.dropWhile (fun nd => strLtB nd.itemId k)).length := by
    rw [← skw_split s k, List.length_append]
    simp
  rcases hpost : s.nodes.dropWhile (fun nd => strLtB nd.itemId k)
    with _ | ⟨n, rest⟩
  · rw [addPurchase_insert_end s lvl k pd hpost]
    refine ⟨?_, ?_⟩
    · rw [List.pairwise_append]
      refine ⟨hpreS, List.pairwise_singleton _ _, ?_⟩
      intro a ha b hb
      rw [List.mem_singleton] at hb
      subst hb
      exact hpreLt a ha
    · rw [hpost] at hlen
      simp only [List.length_append, List.length_cons, List.length_nil]
      simp only [List.length_nil] at hlen
      have := h.size_eq
      omega
  · have hpn : strLtB n.itemId k = false :=
      dropWhile_head_false _ _ n rest hpost
    rw [hpost] at hpostS hcross
    rw [List.pairwise_cons] at hpostS
    obtain ⟨hn, hrest⟩ := hpostS
    by_cases hk : n.itemId = k
    · rw [addPurchase_replace s lvl k pd n rest hpost hk]
      refine ⟨?_, ?_⟩
      · rw [List.pairwise_append]
        refine ⟨hpreS, ?_, ?_⟩
        · rw [List.pairwise_cons]
          exact ⟨fun b hb => hn b hb, hrest⟩
        · intro a ha b hb
          rcases List.mem_cons.mp hb with rfl | hb2
          · exact hcross a ha n (List.mem_cons_self _ _)
          · exact hcross a ha b (List.mem_cons_of_mem _ hb2)
      · rw [hpost] at hlen
        simp only [List.length_append, List.length_cons]
        simp only [List.length_append, List.length_cons] at hlen
        have := h.size_eq
        omega
    · have hkn : strLtB k n.itemId = true := by
        by_cases hkn : strLtB k n.itemId = true
        · exact hkn
        · exact absurd (strLtB_eq_of_not hpn (by simpa using hkn)) hk
      rw [addPurchase_insert_mid s lvl k pd n rest hpost hk]
      refine ⟨?_, ?_⟩
      · rw [List.pairwise_append]
        refine ⟨hpreS, ?_, ?_⟩
        · rw [List.pairwise_cons]
          refine ⟨?_, ?_⟩
          · intro b hb
            rcases List.mem_cons.mp hb with rfl | hb2
            · exact hkn
            · exact strLtB_trans hkn (hn b hb2)
          · rw [List.pairwise_cons]
            exact ⟨hn, hrest⟩
        · intro a ha b hb
          rcases List.mem_cons.mp hb with rfl | hb2
          · exact hpreLt a ha
          · rcases List.mem_cons.mp hb2 with rfl | hb3
            · exact hcross a ha b (List.mem_cons_self _ _)
            · exact hcross a ha b (List.mem_cons_of_mem _ hb3)
      · rw [hpost] at hlen
        simp only [List.length_append, List.length_cons]
        simp only [List.length_cons] at hlen
        have := h.size_eq
        omega

theorem deletePurchase_wf {s : SkipList} (h : SkWF s) (k : String) :
    SkWF ((deletePurchase s k).1) := by
  obtain ⟨hpreS, hpostS, hcross⟩ := skw_parts h k
  have hlen : s.nodes.length =
      (s.nodes.takeWhile (fun nd => strLtB nd.itemId k)).length +
      (s.nodes.dropWhile (fun nd => strLtB nd.itemId k)).length := by
    rw [← skw_split s k, List.length_append]
    simp
  rcases hpost : s.nodes.dropWhile (fun nd => strLtB nd.itemId k)
    with _ | ⟨n, rest⟩
  · rw [deletePurchase_miss_nil s k hpost]
    exact h
  · rw [hpost] at hpostS hcross
    rw [List.pairwise_cons] at hpostS
    obtain ⟨hn, hrest⟩ := hpostS
    by_cases hk : n.itemId = k
    · rw [deletePurchase_found s k n rest hpost hk]
      refine ⟨?_, ?_⟩
      · rw [List.pairwise_append]
        exact ⟨hpreS, hrest,
          fun a ha b hb => hcross a ha b (List.mem_cons_of_mem _ hb)⟩
      · rw [hpost] at hlen
        simp only [List.length_append, List.length_cons] at hlen ⊢
        have := h.size_eq
        omega
    · rw [deletePurchase_miss_ne s k n rest hpost hk]
      exact h

theorem emptySkip_wf : SkWF emptySkip :=
  ⟨List.Pairwise.nil, rfl⟩

theorem runSkip_wf (ops : List SOp) : SkWF (runSkip ops) := by
  unfold runSkip
  induction ops using List.reverseRecOn with
  | nil => exact emptySkip_wf
  | append_singleton rest op ih =>
    rw [List.foldl_append]
    rcases op with ⟨lvl, k, pd⟩ | k
    · exact addPurchase_wf ih lvl k pd
    · exact deletePurchase_wf ih k

theorem search_none_of_absent (s : SkipList) (k : String)
    (habs : ∀ n ∈ s.nodes, n.itemId ≠ k) : searchPurchase s k = none := by
  unfold searchPurchase
  rcases hpost : s.nodes.dropWhile (fun nd => strLtB nd.itemId k)
    with _ | ⟨n, rest⟩
  · rw [hpost]
  · have hmem : n ∈ s.nodes := by
      have hsub : List.Sublist
          (s.nodes.dropWhile (fun nd => strLtB nd.itemId k)) s.nodes :=
        List.dropWhile_sublist _
      exact hsub.subset (by rw [hpost]; exact List.mem_cons_self _ _)
    rw [hpost]
    show (if n.itemId = k then some n.data else none) = none
    rw [if_neg (habs n hmem)]

theorem delete_removes_key {s : SkipList} (h : SkWF s) (k : String) :
    ∀ m ∈ ((deletePurchase s k).1).nodes, m.itemId ≠ k := by
  obtain ⟨hpreS, hpostS, hcross⟩ := skw_parts h k
  have hpreLt : ∀ a ∈ s.nodes.takeWhile (fun nd => strLtB nd.itemId k),
      strLtB a.itemId k = true := by
    intro a ha
    have hx := List.mem_takeWhile_imp ha
    exact hx
  rcases hpost : s.nodes.dropWhile (fun nd => strLtB nd.itemId k)
    with _ | ⟨n, rest⟩
  · rw [deletePurchase_miss_nil s k hpost]
    intro m hm
    rw [← skw_split s k, hpost, List.append_nil] at hm
    exact strLtB_ne (hpreLt m hm)
  · have hpn : strLtB n.itemId k = false :=
      dropWhile_head_false _ _ n rest hpost
    rw [hpost] at hpostS
    rw [List.pairwise_cons] at hpostS
    obtain ⟨hn, hrest⟩ := hpostS
    by_cases hk : n.itemId = k
    · rw [deletePurchase_found s k n rest hpost hk]
      intro m hm
      rcases List.mem_append.mp hm with hm1 | hm2
      · exact strLtB_ne (hpreLt m hm1)
      · have := hn m hm2
        rw [hk] at this
        exact (strLtB_ne this).symm
    · rw [deletePurchase_miss_ne s k n rest hpost hk]
      intro m hm
      rw [← skw_split s k, hpost] at hm
      rcases List.mem_append.mp hm with hm1 | hm2
      · exact strLtB_ne (hpreLt m hm1)
      · rcases List.mem_cons.mp hm2 with rfl | hm3
        · exact hk
        · intro hmk
          have := hn m hm3
          rw [hmk] at this
          rw [this] at hpn
          exact Bool.noConfusion hpn

theorem head_of_mem_key {s : SkipList} (h : SkWF s) {k : String}
    (hm : ∃ m ∈ s.nodes, m.itemId = k) :
    ∃ n rest, s.nodes.dropWhile (fun nd => strLtB nd.itemId k) = n :: rest
      ∧ n.itemId = k := by
  obtain ⟨hpreS, hpostS, hcross⟩ := skw_parts h k
  obtain ⟨m, hmem, hkey⟩ := hm
  have hmpost : m ∈ s.nodes.dropWhile (fun nd => strLtB nd.itemId k) := by
    rw [← skw_split s k] at hmem
    rcases List.mem_append.mp hmem with hm1 | hm2
    · have hx := List.mem_takeWhile_imp hm1
      rw [hkey] at hx
      rw [strLtB_irrefl] at hx
      exact Bool.noConfusion hx
    · exact hm2
  rcases hpost : s.nodes.dropWhile (fun nd => strLtB nd.itemId k)
    with _ | ⟨n, rest⟩
  · rw [hpost] at hmpost
    exact absurd hmpost (List.not_mem_nil m)
  · refine ⟨n, rest, hpost, ?_⟩
    have hpn : strLtB n.itemId k = false :=
      dropWhile_head_false _ _ n rest hpost
    rw [hpost] at hmpost hpostS
    rcases List.mem_cons.mp hmpost with rfl | hm3
    · exact hkey
    · rw [List.pairwise_cons] at hpostS
      have := hpostS.1 m hm3
      rw [hkey] at this
      rw [this] at hpn
      exact Bool.noConfusion hpn

theorem skw_keys_nodup {s : SkipList} (h : SkWF s) : (skipToList s).Nodup := by
  unfold skipToList
  have hpw : (s.nodes.map (·.itemId)).Pairwise (fun a b => a ≠ b) := by
    rw [List.pairwise_map]
    exact h.sorted.imp (fun hab => strLtB_ne hab)
  exact hpw

/-- C9: on every reachable ordered-sequence state, the full traversal lists
the keys in strictly ascending order; inserting a key that already exists
keeps the size unchanged, stores the latest payload (returned by a
subsequent search), and leaves exactly one entry for that key; and a search
for a key right after its removal reports not-found. -/
theorem C9_ordered_sequence (ops : List SOp) :
    (skipToList (runSkip ops)).Pairwise (fun a b => strLtB a b = true)
    ∧ (∀ lvl k pd, (∃ m ∈ (runSkip ops).nodes, m.itemId = k) →
        (addPurchase (runSkip ops) lvl k pd).size = (runSkip ops).size
        ∧ searchPurchase (addPurchase (runSkip ops) lvl k pd) k
            = some (pd.getD [])
        ∧ (skipToList (addPurchase (runSkip ops) lvl k pd)).count k = 1)
    ∧ (∀ k, searchPurchase ((deletePurchase (runSkip ops) k).1) k = none) := by
  have hwf := runSkip_wf ops
  refine ⟨?_, ?_, ?_⟩
  · unfold skipToList
    rw [List.pairwise_map]
    exact hwf.sorted
  · intro lvl k pd hex
    obtain ⟨n, rest, hpost, hk⟩ := head_of_mem_key hwf hex
    have hpreLt : ∀ a ∈ (runSkip ops).nodes.takeWhile
        (fun nd => strLtB nd.itemId k), strLtB a.itemId k = true := by
      intro a ha
      have hx := List.mem_takeWhile_imp ha
      exact hx
    have hwf2 := addPurchase_wf hwf lvl k pd
    rw [addPurchase_replace (runSkip ops) lvl k pd n rest hpost hk] at hwf2 ⊢
    refine ⟨rfl, ?_, ?_⟩
    · unfold searchPurchase
      dsimp only
      rw [dropWhile_append_all (fun nd : SkipNode => strLtB nd.itemId k)
        _ _ hpreLt, List.dropWhile_cons]
      have hneg : ¬ ((fun nd => strLtB nd.itemId k)
          ({ n with data := pd.getD [] } : SkipNode) = true) := by
        show ¬ (strLtB n.itemId k = true)
        rw [hk, strLtB_irrefl k]
        simp
      rw [if_neg hneg]
      show (if ({ n with data := pd.getD [] } : SkipNode).itemId = k
        then some ({ n with data := pd.getD [] } : SkipNode).data
        else none) = some (pd.getD [])
      rw [if_pos hk]
    · refine List.count_eq_one_of_mem (skw_keys_nodup hwf2) ?_
      unfold skipToList
      refine List.mem_map.mpr ⟨{ n with data := pd.getD [] }, ?_, hk⟩
      exact List.mem_append_right _ (List.mem_cons_self _ _)
  · intro k
    exact search_none_of_absent _ _ (delete_removes_key hwf k)

theorem C9_witness :
    (addPurchase (runSkip [SOp.add 2 "a" none]) 1 "a" none).size
      = (runSkip [SOp.add 2 "a" none]).size :=
  ((C9_ordered_sequence [SOp.add 2 "a" none]).2.1 1 "a" none
    ⟨⟨"a", [], min 2 skipMaxLevel⟩, List.mem_cons_self _ _, rfl⟩).1

theorem sharedCats_nodup (p q : List (String × ℚ)) :
    (sharedCats p q).Nodup :=
  (List.nodup_dedup _).filter _

theorem mem_sharedCats (p q : List (String × ℚ)) (c : String) :
    c ∈ sharedCats p q ↔
      (alookup p c).isSome = true ∧ (alookup q c).isSome = true := by
  unfold sharedCats prefKeys
  rw [List.mem_filter, List.mem_dedup, ← alookup_isSome_iff]

theorem sharedCats_perm (p q : List (String × ℚ)) :
    (sharedCats p q).Perm (sharedCats q p) := by
  rw [List.perm_ext_iff_of_nodup (sharedCats_nodup p q) (sharedCats_nodup q p)]
  intro c
  rw [mem_sharedCats, mem_sharedCats]
  tauto

theorem dotShared_comm (p q : List (String × ℚ)) :
    dotShared p q = dotShared q p := by
  unfold dotShared
  have h1 : (sharedCats q p).map (fun c => prefVal q c * prefVal p c)
      = (sharedCats q p).map (fun c => prefVal p c * prefVal q c) :=
    List.map_congr_left (fun c _ => mul_comm _ _)
  rw [h1]
  exact ((sharedCats_perm p q).map _).sum_eq

theorem mag2_swap (p q : List (String × ℚ)) : mag2Fst p q = mag2Snd q p := by
  unfold mag2Fst mag2Snd
  exact ((sharedCats_perm p q).map _).sum_eq

theorem sharedCats_nil_swap {p q : List (String × ℚ)}
    (h : sharedCats p q = []) : sharedCats q p = [] := by
  have hp := sharedCats_perm q p
  rw [h] at hp
  exact hp.eq_nil

theorem cosineSim_comm (p q : List (String × ℚ)) :
    cosineSim p q = cosineSim q p := by
  unfold cosineSim
  by_cases h1 : sharedCats p q = []
  · rw [if_pos h1, if_pos (sharedCats_nil_swap h1)]
  · have h2 : ¬ sharedCats q p = [] := fun hc => h1 (sharedCats_nil_swap hc)
    rw [if_neg h1, if_neg h2]
    by_cases h3 : Real.sqrt (mag2Fst p q) = 0 ∨ Real.sqrt (mag2Snd p q) = 0
    · have h3' : Real.sqrt (mag2Fst q p) = 0 ∨ Real.sqrt (mag2Snd q p) = 0 := by
        rw [mag2_swap q p, ← mag2_swap p q]
        exact h3.symm
      rw [if_pos h3, if_pos h3']
    · have h3' : ¬ (Real.sqrt (mag2Fst q p) = 0
          ∨ Real.sqrt (mag2Snd q p) = 0) := by
        rw [mag2_swap q p, ← mag2_swap p q]
        exact fun hc => h3 hc.symm
      rw [if_neg h3, if_neg h3']
      rw [dotShared_comm p q, mag2_swap q p, ← mag2_swap p q, mul_comm]

theorem computeCosine_comm (st : UStore) (a b : String) :
    computeCosineSimilarity st a b = computeCosineSimilarity st b a := by
  unfold computeCosineSimilarity
  rcases h1 : alookup st.users a with _ | ua
  · rcases h2 : alookup st.users b with _ | ub
    · rfl
    · rfl
  · rcases h2 : alookup st.users b with _ | ub
    · rfl
    · exact cosineSim_comm _ _

theorem cosineSim_nil_left (q : List (String × ℚ)) :
    cosineSim ([] : List (String × ℚ)) q = 0 := by
  unfold cosineSim
  rw [if_pos (show sharedCats ([] : List (String × ℚ)) q = [] from rfl)]

/-- C6: user-pair cosine similarity is symmetric; when categories are shared
and both magnitudes are nonzero the value is the dot product over the shared
categories divided by the product of the magnitudes computed over the shared
categories only; it is 0 when no category is shared and 0 when either
magnitude over the shared categories is 0; and a user whose preference dict
is empty has similarity 0 to everyone, on either side of the pair. -/
theorem C6_cosine_similarity (st : UStore) :
    (∀ a b, computeCosineSimilarity st a b = computeCosineSimilarity st b a)
    ∧ (∀ p q : List (String × ℚ), sharedCats p q ≠ [] →
        ¬ (Real.sqrt (mag2Fst p q) = 0 ∨ Real.sqrt (mag2Snd p q) = 0) →
        cosineSim p q = (dotShared p q : ℝ) /
          (Real.sqrt (mag2Fst p q) * Real.sqrt (mag2Snd p q)))
    ∧ (∀ p q : List (String × ℚ), sharedCats p q = [] → cosineSim p q = 0)
    ∧ (∀ p q : List (String × ℚ),
        Real.sqrt (mag2Fst p q) = 0 ∨ Real.sqrt (mag2Snd p q) = 0 →
        cosineSim p q = 0)
    ∧ (∀ a b u, alookup st.users a = some u → u.preferences = [] →
        computeCosineSimilarity st a b = 0
        ∧ computeCosineSimilarity st b a = 0) := by
  refine ⟨computeCosine_comm st, ?_, ?_, ?_, ?_⟩
  · intro p q h1 h2
    unfold cosineSim
    rw [if_neg h1, if_neg h2]
  · intro p q h1
    unfold cosineSim
    rw [if_pos h1]
  · intro p q h2
    unfold cosineSim
    by_cases h1 : sharedCats p q = []
    · rw [if_pos h1]
    · rw [if_neg h1, if_pos h2]
  · intro a b u hu hpref
    have hleft : computeCosineSimilarity st a b = 0 := by
      unfold computeCosineSimilarity
      rw [hu]
      rcases alookup st.users b with _ | ub
      · rfl
      · show cosineSim (normalizePrefs u.preferences) _ = 0
        rw [hpref]
        show cosineSim ([] : List (String × ℚ)) _ = 0
        exact cosineSim_nil_left _
    exact ⟨hleft, by rw [computeCosine_comm st b a]; exact hleft⟩

theorem C6_witness :
    computeCosineSimilarity ⟨[("a", newPUser none)], []⟩ "a" "b" = 0 :=
  ((C6_cosine_similarity ⟨[("a", newPUser none)], []⟩).2.2.2.2 "a" "b"
    (newPUser none) rfl rfl).1

theorem scontains_iff (l : List String) (a : String) :
    l.contains a = true ↔ a ∈ l := by
  simp

theorem collabRel_total (a b : String × ℚ) : collabRel a b ∨ collabRel b a := by
  unfold collabRel
  rcases lt_trichotomy b.2 a.2 with h | h | h
  · exact Or.inl (Or.inl h)
  · by_cases hs : b.1 = a.1
    · exact Or.inl (Or.inr ⟨h, Or.inr hs⟩)
    · by_cases hlt : strLtB b.1 a.1 = true
      · exact Or.inl (Or.inr ⟨h, Or.inl hlt⟩)
      · by_cases hlt2 : strLtB a.1 b.1 = true
        · exact Or.inr (Or.inr ⟨h.symm, Or.inl hlt2⟩)
        · exact absurd (strLtB_eq_of_not (by simpa using hlt2)
            (by simpa using hlt)).symm hs
  · exact Or.inr (Or.inl h)

theorem collabRel_trans (a b c : String × ℚ) (h1 : collabRel a b)
    (h2 : collabRel b c) : collabRel a c := by
  unfold collabRel at h1 h2 ⊢
  rcases h1 with h1 | ⟨h1e, h1s⟩
  · rcases h2 with h2 | ⟨h2e, _⟩
    · exact Or.inl (lt_trans h2 h1)
    · exact Or.inl (h2e ▸ h1)
  · rcases h2 with h2 | ⟨h2e, h2s⟩
    · exact Or.inl (h1e ▸ h2)
    · refine Or.inr ⟨h2e.trans h1e, ?_⟩
      rcases h1s with h1s | h1s
      · rcases h2s with h2s | h2s
        · exact Or.inl (strLtB_trans h2s h1s)
        · exact Or.inl (h2s ▸ h1s)
      · rcases h2s with h2s | h2s
        · exact Or.inl (h1s ▸ h2s)
        · exact Or.inr (h2s.trans h1s)

theorem collabRel_antisymm (a b : String × ℚ) (h1 : collabRel a b)
    (h2 : collabRel b a) : a = b := by
  obtain ⟨a1, a2⟩ := a
  obtain ⟨b1, b2⟩ := b
  unfold collabRel at h1 h2
  dsimp only at h1 h2
  rcases h1 with h1 | ⟨h1e, h1s⟩
  · rcases h2 with h2 | ⟨h2e, _⟩
    · exact absurd h1 (lt_asymm h2)
    · exact absurd h1 (h2e ▸ lt_irrefl _)
  · rcases h2 with h2 | ⟨h2e, h2s⟩
    · exact absurd h2 (h1e ▸ lt_irrefl _)
    · have hstr : a1 = b1 := by
        rcases h1s with h1s | h1s
        · rcases h2s with h2s | h2s
          · have := strLtB_trans h1s h2s
            rw [strLtB_irrefl] at this
            exact Bool.noConfusion this
          · exact h2s
        · exact h1s.symm
      rw [hstr, h1e]

theorem bumpScore_keys_nodup (l : List (String × ℚ)) (k : String) (s : ℚ)
    (h : (l.map Prod.fst).Nodup) :
    ((bumpScore l k s).map Prod.fst).Nodup := by
  rw [bumpScore_keys]
  rcases hl : alookup l k with _ | v
  · simp only [Option.isSome_none, Bool.false_eq_true, if_false]
    rw [List.nodup_append]
    refine ⟨h, List.nodup_singleton _, ?_⟩
    intro a ha hk
    rw [List.mem_singleton] at hk
    subst hk
    exact absurd ha ((alookup_eq_none_iff l a).mp hl)
  · simpa using h

theorem collabCandidates_nodup (w : World) (userItems : List String)
    (o : String) : (collabCandidates w userItems o).Nodup :=
  (List.nodup_dedup _).filter _

theorem foldl_bump_alookup (s : ℚ) (cs : List String) (hnd : cs.Nodup) :
    ∀ (acc : List (String × ℚ)) (k : String),
      alookup (cs.foldl (fun a it => bumpScore a it s) acc) k =
        if k ∈ cs then some ((alookup acc k).getD 0 + s)
        else alookup acc k := by
  induction cs with
  | nil =>
    intro acc k
    simp
  | cons it rest ih =>
    rw [List.nodup_cons] at hnd
    obtain ⟨hni, hnr⟩ := hnd
    intro acc k
    rw [List.foldl_cons, ih hnr]
    by_cases h1 : k ∈ rest
    · have hne : ¬ k = it := fun he => hni (he ▸ h1)
      rw [if_pos h1, if_pos (List.mem_cons_of_mem _ h1),
        bumpScore_alookup_ne _ _ _ _ hne]
    · by_cases h2 : k = it
      · subst h2
        rw [if_neg h1, if_pos (List.mem_cons_self _ _),
          bumpScore_alookup_self]
      · rw [if_neg h1, if_neg (fun hm => by
          rcases List.mem_cons.mp hm with hm | hm
          · exact h2 hm
          · exact h1 hm),
          bumpScore_alookup_ne _ _ _ _ h2]

theorem foldl_bump_keys_nodup (s : ℚ) (cs : List String) :
    ∀ (acc : List (String × ℚ)), (acc.map Prod.fst).Nodup →
      ((cs.foldl (fun a it => bumpScore a it s) acc).map Prod.fst).Nodup := by
  induction cs with
  | nil =>
    intro acc h
    exact h
  | cons it rest ih =>
    intro acc h
    rw [List.foldl_cons]
    exact ih _ (bumpScore_keys_nodup acc it s h)

theorem scoresFold_alookup (w : World) (userItems : List String) :
    ∀ (sim : List (String × ℚ)) (acc : List (String × ℚ)) (k : String),
      alookup (sim.foldl (fun acc os =>
          (collabCandidates w userItems os.1).foldl
            (fun a it => bumpScore a it os.2) acc) acc) k =
        if sim.any
            (fun os => decide (k ∈ collabCandidates w userItems os.1)) then
          some ((alookup acc k).getD 0 +
            ((sim.filter (fun os =>
              decide (k ∈ collabCandidates w userItems os.1))).map
              Prod.snd).sum)
        else alookup acc k := by
  intro sim
  induction sim with
  | nil =>
    intro acc k
    simp
  | cons os rest ih =>
    intro acc k
    rw [List.foldl_cons, ih]
    have hinner := foldl_bump_alookup os.2
      (collabCandidates w userItems os.1)
      (collabCandidates_nodup w userItems os.1) acc k
    by_cases h1 : k ∈ collabCandidates w userItems os.1
    · rw [if_pos h1] at hinner
      have hfc : (os :: rest).filter
          (fun o => decide (k ∈ collabCandidates w userItems o.1)) =
          os :: rest.filter
            (fun o => decide (k ∈ collabCandidates w userItems o.1)) := by
        rw [List.filter_cons, if_pos (by simpa using h1)]
      have hac : (os :: rest).any
          (fun o => decide (k ∈ collabCandidates w userItems o.1)) = true := by
        rw [List.any_cons]
        simp [h1]
      rw [hac, if_pos rfl, hfc]
      by_cases h2 : rest.any
          (fun o => decide (k ∈ collabCandidates w userItems o.1)) = true
      · rw [if_pos h2, hinner]
        simp only [Option.getD_some, List.map_cons, List.sum_cons]
        rw [add_assoc]
      · rw [if_neg h2, hinner]
        have hfr : rest.filter
            (fun o => decide (k ∈ collabCandidates w userItems o.1)) = [] := by
          have h2f : rest.any
              (fun o => decide (k ∈ collabCandidates w userItems o.1))
              = false := Bool.eq_false_iff.mpr h2
          rw [List.filter_eq_nil_iff]
          intro o ho
          have hx := List.any_eq_false.mp h2f o ho
          simpa using hx
        rw [hfr]
        simp only [List.map_cons, List.map_nil, List.sum_cons, List.sum_nil,
          add_zero]
    · rw [if_neg h1] at hinner
      have hfc : (os :: rest).filter
          (fun o => decide (k ∈ collabCandidates w userItems o.1)) =
          rest.filter
            (fun o => decide (k ∈ collabCandidates w userItems o.1)) := by
        rw [List.filter_cons, if_neg (by simpa using h1)]
      have hac : (os :: rest).any
          (fun o => decide (k ∈ collabCandidates w userItems o.1)) =
          rest.any (fun o => decide (k ∈ collabCandidates w userItems o.1)) := by
        rw [List.any_cons]
        simp [h1]
      rw [hac, hfc, hinner]

theorem scoresFold_keys_nodup (w : World) (userItems : List String)
    (sim : List (String × ℚ)) :
    ∀ (acc : List (String × ℚ)), (acc.map Prod.fst).Nodup →
      ((sim.foldl (fun acc os =>
          (collabCandidates w userItems os.1).foldl
            (fun a it => bumpScore a it os.2) acc) acc).map Prod.fst).Nodup := by
  induction sim with
  | nil =>
    intro acc h
    exact h
  | cons os rest ih =>
    intro acc h
    rw [List.foldl_cons]
    exact ih _ (foldl_bump_keys_nodup os.2 _ acc h)

theorem alookup_map_pair (f : String → ℚ) (l : List String) (k : String) :
    alookup (l.map (fun it => (it, f it))) k =
      if k ∈ l then some (f k) else none := by
  induction l with
  | nil => simp [alookup]
  | cons x rest ih =>
    rw [List.map_cons, alookup_cons, ih]
    by_cases h1 : x = k
    · subst h1
      rw [if_pos rfl, if_pos (List.mem_cons_self _ _)]
    · rw [if_neg h1]
      by_cases h2 : k ∈ rest
      · rw [if_pos h2, if_pos (List.mem_cons_of_mem _ h2)]
      · rw [if_neg h2, if_neg (fun hm => by
          rcases List.mem_cons.mp hm with hm | hm
          · exact h1 hm.symm
          · exact h2 hm)]

theorem perm_of_alookup_eq {l1 l2 : List (String × ℚ)}
    (h1 : (l1.map Prod.fst).Nodup) (h2 : (l2.map Prod.fst).Nodup)
    (h : ∀ k, alookup l1 k = alookup l2 k) : l1.Perm l2 := by
  rw [List.perm_ext_iff_of_nodup (List.Nodup.of_map _ h1)
    (List.Nodup.of_map _ h2)]
  rintro ⟨k, v⟩
  constructor
  · intro hm
    exact mem_of_alookup_eq_some ((h k) ▸ alookup_of_mem_of_nodup h1 hm)
  · intro hm
    exact mem_of_alookup_eq_some ((h k).symm ▸ alookup_of_mem_of_nodup h2 hm)

theorem mem_collabCandidates (w : World) (userItems : List String)
    (o : String) (k : String) :
    k ∈ collabCandidates w userItems o ↔
      ((!(userItems.contains k) && isAvailable w k) = true
        ∧ k ∈ itemsOf w o) := by
  unfold collabCandidates
  rw [List.mem_filter, List.mem_dedup]
  tauto

theorem mem_collab_cands (w : World) (userItems : List String)
    (sim : List (String × ℚ)) (k : String) :
    k ∈ ((sim.map (fun os => itemsOf w os.1)).flatten.dedup).filter
        (fun it => !(userItems.contains it) && isAvailable w it) ↔
      ((!(userItems.contains k) && isAvailable w k) = true
        ∧ ∃ os ∈ sim, k ∈ itemsOf w os.1) := by
  rw [List.mem_filter, List.mem_dedup, List.mem_flatten]
  constructor
  · rintro ⟨⟨l, hl, hkl⟩, hpred⟩
    obtain ⟨os, hos, rfl⟩ := List.mem_map.mp hl
    exact ⟨hpred, os, hos, hkl⟩
  · rintro ⟨hpred, os, hos, hk⟩
    exact ⟨⟨itemsOf w os.1, List.mem_map_of_mem _ hos, hk⟩, hpred⟩

theorem map_fst_map_pair (f : String → ℚ) (l : List String) :
    (l.map (fun it => (it, f it))).map Prod.fst = l := by
  induction l with
  | nil => rfl
  | cons x rest ih => simp [ih]

/-- C3 (amended): the collaborative strategy takes the requesting user's
top-20 similar users, scores every candidate item — purchased by a similar
user, not purchased by the requesting user, and available — by the sum of
the contributing similar users' similarity weights, and returns the top
`topK` candidates ordered by score descending with ties broken by item
identifier DESCENDING (the code's `(score, id)` key sorts both components
descending, not id-ascending as the specification words it). -/
theorem C3_collaborative_scoring (simf : String → String → ℚ) (w : World)
    (userId : String) (topK : Nat) :
    recommendBySimilarUsers simf w userId topK
      = collabSpecDesc simf w userId topK := by
  unfold recommendBySimilarUsers collabSpecDesc
  rcases hu : alookup w.users userId with _ | u
  · rfl
  · dsimp only
    generalize getSimilarUsers simf w userId 20 = sim
    set scores := sim.foldl (fun acc os =>
      (collabCandidates w u.items os.1).foldl
        (fun a it => bumpScore a it os.2) acc) [] with hscores
    set cands := ((sim.map (fun os => itemsOf w os.1)).flatten.dedup).filter
      (fun it => !(u.items.contains it) && isAvailable w it) with hcands
    set scored := cands.map (fun it =>
      (it, ((sim.filter (fun os => (itemsOf w os.1).contains it)).map
        Prod.snd).sum)) with hscored
    have hnd1 : (scores.map Prod.fst).Nodup := by
      rw [hscores]
      exact scoresFold_keys_nodup w u.items sim [] (by simp)
    have hkeys2 : scored.map Prod.fst = cands := by
      rw [hscored]
      exact map_fst_map_pair _ _
    have hnd2 : (scored.map Prod.fst).Nodup := by
      rw [hkeys2, hcands]
      exact (List.nodup_dedup _).filter _
    have hkey : ∀ k, alookup scores k = alookup scored k := by
      intro k
      rw [hscores, hscored, scoresFold_alookup w u.items sim [] k,
        alookup_map_pair]
      by_cases hpred : (!(u.items.contains k) && isAvailable w k) = true
      · have hos : ∀ o : String,
            (k ∈ collabCandidates w u.items o) ↔ k ∈ itemsOf w o := by
          intro o
          rw [mem_collabCandidates]
          exact ⟨fun h => h.2, fun h => ⟨hpred, h⟩⟩
        by_cases hex : ∃ os ∈ sim, k ∈ itemsOf w os.1
        · obtain ⟨os0, hos0, hm0⟩ := hex
          have hc1 : sim.any
              (fun os => decide (k ∈ collabCandidates w u.items os.1))
              = true :=
            List.any_eq_true.mpr
              ⟨os0, hos0, decide_eq_true ((hos os0.1).mpr hm0)⟩
          have hc2 : k ∈ cands := by
            rw [hcands]
            exact (mem_collab_cands w u.items sim k).mpr
              ⟨hpred, os0, hos0, hm0⟩
          rw [if_pos hc1, if_pos hc2]
          have hfe : sim.filter
              (fun os => decide (k ∈ collabCandidates w u.items os.1))
              = sim.filter (fun os => (itemsOf w os.1).contains k) :=
            List.filter_congr (fun os _ => by
              by_cases hm : k ∈ itemsOf w os.1
              · rw [decide_eq_true ((hos os.1).mpr hm),
                  (scontains_iff _ _).mpr hm]
              · rw [decide_eq_false (fun hc => hm ((hos os.1).mp hc)),
                  show (itemsOf w os.1).contains k = false from
                    Bool.eq_false_iff.mpr
                      (fun hc => hm ((scontains_iff _ _).mp hc))])
          rw [hfe]
          simp only [alookup, Option.getD_none, zero_add]
        · have hc1 : ¬ (sim.any
              (fun os => decide (k ∈ collabCandidates w u.items os.1))
              = true) := by
            intro hc
            obtain ⟨os0, hos0, hd⟩ := List.any_eq_true.mp hc
            exact hex ⟨os0, hos0, (hos os0.1).mp (of_decide_eq_true hd)⟩
          have hc2 : k ∉ cands := by
            rw [hcands]
            intro hm
            obtain ⟨_, os0, hos0, hm0⟩ :=
              (mem_collab_cands w u.items sim k).mp hm
            exact hex ⟨os0, hos0, hm0⟩
          rw [if_neg hc1, if_neg hc2]
          rfl
      · have hc1 : ¬ (sim.any
            (fun os => decide (k ∈ collabCandidates w u.items os.1))
            = true) := by
          intro hc
          obtain ⟨os0, hos0, hd⟩ := List.any_eq_true.mp hc
          exact hpred
            ((mem_collabCandidates w u.items os0.1 k).mp
              (of_decide_eq_true hd)).1
        have hc2 : k ∉ cands := by
          rw [hcands]
          intro hm
          exact hpred ((mem_collab_cands w u.items sim k).mp hm).1
        rw [if_neg hc1, if_neg hc2]
        rfl
    have hperm : scores.Perm scored := perm_of_alookup_eq hnd1 hnd2 hkey
    by_cases hempty : scores = []
    · rw [if_pos hempty]
      have hsc : scored = [] := by
        rw [hempty] at hperm
        exact hperm.symm.eq_nil
      rw [hsc]
      simp
    · rw [if_neg hempty]
      haveI : IsTotal (String × ℚ) collabRel := ⟨collabRel_total⟩
      haveI : IsTrans (String × ℚ) collabRel := ⟨collabRel_trans⟩
      haveI : IsAntisymm (String × ℚ) collabRel := ⟨collabRel_antisymm⟩
      have hsorteq : List.insertionSort collabRel scores
          = List.insertionSort collabRel scored :=
        List.eq_of_perm_of_sorted
          ((List.perm_insertionSort collabRel scores).trans
            (hperm.trans (List.perm_insertionSort collabRel scored).symm))
          (List.sorted_insertionSort collabRel scores)
          (List.sorted_insertionSort collabRel scored)
      rw [hsorteq]

/-- C3 counterexample: in `exWorldCollab` the single similar user `v`
purchased the two available items `iA` and `iB`, so both score `v`'s
similarity weight — a tie.  The code returns them in identifier-descending
order, while the specification's identifier-ascending tie-break would
return the opposite order. -/
theorem C3_counterexample :
    recommendBySimilarUsers exSimfCollab exWorldCollab "u" 2 = ["iB", "iA"]
    ∧ collabSpecAsc exSimfCollab exWorldCollab "u" 2 = ["iA", "iB"]
    ∧ recommendBySimilarUsers exSimfCollab exWorldCollab "u" 2
        ≠ collabSpecAsc exSimfCollab exWorldCollab "u" 2 := by
  have h1 : recommendBySimilarUsers exSimfCollab exWorldCollab "u" 2
      = ["iB", "iA"] := by decide
  have h2 : collabSpecAsc exSimfCollab exWorldCollab "u" 2
      = ["iA", "iB"] := by
    norm_num +decide [collabSpecAsc, exWorldCollab, exSimfCollab,
      getSimilarUsers, alookup, itemsOf, isAvailable, collabRelAsc,
      List.insertionSort, List.orderedInsert, byScoreDesc, strLtB, charsLtB]
  refine ⟨h1, h2, ?_⟩
  rw [h1, h2]
  decide

theorem fillFromItems_extend (k : Nat) (ui : List String) (w : World) :
    ∀ (l : List String) (acc : List String),
      ∃ ext, fillFromItems k ui w acc l = acc ++ ext := by
  intro l
  induction l with
  | nil =>
    intro acc
    exact ⟨[], (List.append_nil acc).symm⟩
  | cons it rest ih =>
    intro acc
    rw [fillFromItems]
    by_cases hg : k ≤ acc.length
    · rw [if_pos hg]
      exact ⟨[], (List.append_nil acc).symm⟩
    · rw [if_neg hg]
      by_cases hc : (!(ui.contains it) && !(acc.contains it)
          && isAvailable w it) = true
      · rw [if_pos hc]
        obtain ⟨ext, hext⟩ := ih (acc ++ [it])
        exact ⟨it :: ext, by rw [hext, List.append_assoc]; rfl⟩
      · rw [if_neg hc]
        exact ih acc

theorem fillFromCats_extend (k : Nat) (ui : List String) (w : World) :
    ∀ (cats : List (String × ℚ)) (acc : List String),
      ∃ ext, fillFromCats k ui w acc cats = acc ++ ext := by
  intro cats
  induction cats with
  | nil =>
    intro acc
    exact ⟨[], (List.append_nil acc).symm⟩
  | cons c cs ih =>
    intro acc
    rw [fillFromCats]
    by_cases hg : k ≤ acc.length
    · rw [if_pos hg]
      exact ⟨[], (List.append_nil acc).symm⟩
    · rw [if_neg hg]
      obtain ⟨e1, he1⟩ := fillFromItems_extend k ui w (itemsInCategory w c.1) acc
      obtain ⟨e2, he2⟩ := ih (fillFromItems k ui w acc (itemsInCategory w c.1))
      exact ⟨e1 ++ e2, by rw [he2, he1, List.append_assoc]⟩

theorem fillFromItems_take_eq (k1 k2 : Nat) (ui : List String) (w : World)
    (hk : k1 ≤ k2) :
    ∀ (l : List String) (acc : List String), acc.length ≤ k1 →
      fillFromItems k1 ui w acc l = (fillFromItems k2 ui w acc l).take k1 := by
  intro l
  induction l with
  | nil =>
    intro acc hacc
    rw [fillFromItems, fillFromItems]
    exact (List.take_of_length_le hacc).symm
  | cons it rest ih =>
    intro acc hacc
    rw [fillFromItems, fillFromItems]
    by_cases hg1 : k1 ≤ acc.length
    · have heq : acc.length = k1 := le_antisymm hacc hg1
      rw [if_pos hg1]
      by_cases hg2 : k2 ≤ acc.length
      · rw [if_pos hg2, List.take_of_length_le hacc]
      · rw [if_neg hg2]
        obtain ⟨ext, hext⟩ := fillFromItems_extend k2 ui w rest
          (if !(ui.contains it) && !(acc.contains it) && isAvailable w it
           then acc ++ [it] else acc)
        rw [hext]
        by_cases hc : (!(ui.contains it) && !(acc.contains it)
            && isAvailable w it) = true
        · rw [if_pos hc] at hext ⊢
          rw [List.append_assoc, List.take_append_eq_append_take,
            List.take_of_length_le hacc, heq, Nat.sub_self, List.take_zero,
            List.append_nil]
        · rw [if_neg hc] at hext ⊢
          rw [List.take_append_eq_append_take, List.take_of_length_le hacc,
            heq, Nat.sub_self, List.take_zero, List.append_nil]
    · have hg2 : ¬ k2 ≤ acc.length := fun h => hg1 (le_trans hk h)
      rw [if_neg hg1, if_neg hg2]
      by_cases hc : (!(ui.contains it) && !(acc.contains it)
          && isAvailable w it) = true
      · rw [if_pos hc]
        exact ih (acc ++ [it]) (by
          rw [List.length_append, List.length_singleton]
          omega)
      · rw [if_neg hc]
        exact ih acc hacc

theorem fillFromCats_take_eq (k1 k2 : Nat) (ui : List String) (w : World)
    (hk : k1 ≤ k2) :
    ∀ (cats : List (String × ℚ)) (acc : List String), acc.length ≤ k1 →
      fillFromCats k1 ui w acc cats
        = (fillFromCats k2 ui w acc cats).take k1 := by
  intro cats
  induction cats with
  | nil =>
    intro acc hacc
    rw [fillFromCats, fillFromCats]
    exact (List.take_of_length_le hacc).symm
  | cons c cs ih =>
    intro acc hacc
    rw [fillFromCats, fillFromCats]
    by_cases hg1 : k1 ≤ acc.length
    · have heq : acc.length = k1 := le_antisymm hacc hg1
      rw [if_pos hg1]
      by_cases hg2 : k2 ≤ acc.length
      · rw [if_pos hg2, List.take_of_length_le hacc]
      · rw [if_neg hg2]
        obtain ⟨e1, he1⟩ := fillFromItems_extend k2 ui w
          (itemsInCategory w c.1) acc
        obtain ⟨e2, he2⟩ := fillFromCats_extend k2 ui w cs
          (fillFromItems k2 ui w acc (itemsInCategory w c.1))
        rw [he2, he1, List.append_assoc, List.take_append_eq_append_take,
          List.take_of_length_le hacc, heq, Nat.sub_self, List.take_zero,
          List.append_nil]
    · have hg2 : ¬ k2 ≤ acc.length := fun h => hg1 (le_trans hk h)
      rw [if_neg hg1, if_neg hg2]
      have hstep := fillFromItems_take_eq k1 k2 ui w hk
        (itemsInCategory w c.1) acc hacc
      have hlen1 : (fillFromItems k1 ui w acc (itemsInCategory w c.1)).length
          ≤ k1 := by
        rw [hstep]
        exact (List.length_take _ _).le.trans (min_le_left _ _)
      by_cases hfull :
          (fillFromItems k1 ui w acc (itemsInCategory w c.1)).length = k1
      · have hstop : fillFromCats k1 ui w
            (fillFromItems k1 ui w acc (itemsInCategory w c.1)) cs
            = fillFromItems k1 ui w acc (itemsInCategory w c.1) := by
          cases cs with
          | nil => rw [fillFromCats]
          | cons c2 cs2 => rw [fillFromCats, if_pos (le_of_eq hfull.symm)]
        rw [hstop]
        have hxlen : k1 ≤
            (fillFromItems k2 ui w acc (itemsInCategory w c.1)).length := by
          have := congrArg List.length hstep
          rw [List.length_take] at this
          omega
        obtain ⟨e2, he2⟩ := fillFromCats_extend k2 ui w cs
          (fillFromItems k2 ui w acc (itemsInCategory w c.1))
        rw [he2, List.take_append_eq_append_take, Nat.sub_eq_zero_of_le hxlen,
          List.take_zero, List.append_nil, hstep]
      · have hlt : (fillFromItems k1 ui w acc (itemsInCategory w c.1)).length
            < k1 := lt_of_le_of_ne hlen1 hfull
        have hsame : fillFromItems k1 ui w acc (itemsInCategory w c.1)
            = fillFromItems k2 ui w acc (itemsInCategory w c.1) := by
          have hx2 : (fillFromItems k2 ui w acc (itemsInCategory w c.1)).length
              < k1 := by
            have := congrArg List.length hstep
            rw [List.length_take] at this
            omega
          rw [hstep, List.take_of_length_le (le_of_lt hx2)]
        rw [hsame]
        exact ih _ (by rw [← hsame]; exact hlen1)

theorem recommendByCategory_take_eq (w : World) (userId : String)
    (k1 k2 : Nat) (hk : k1 ≤ k2) :
    recommendByCategory w userId k1
      = (recommendByCategory w userId k2).take k1 := by
  unfold recommendByCategory
  rcases alookup w.users userId with _ | u
  · rw [List.take_nil]
  · dsimp only
    rw [fillFromCats_take_eq k1 k2 u.items w hk _ [] (by simp),
      List.take_take, List.take_take]
    rw [min_self, min_eq_left hk]

theorem bumpScore_fresh (l : List (String × ℚ)) (k : String) (s : ℚ)
    (h : alookup l k = none) : bumpScore l k s = l ++ [(k, s)] := by
  unfold bumpScore
  rw [h]
  rfl

theorem bumpScore_zero (l : List (String × ℚ)) (k : String)
    (h : (alookup l k).isSome = true) : bumpScore l k 0 = l := by
  unfold bumpScore
  rw [if_pos h]
  have : ∀ p : String × ℚ, (if p.1 = k then (p.1, p.2 + 0) else p) = p := by
    intro p
    by_cases hp : p.1 = k
    · rw [if_pos hp, add_zero]
    · rw [if_neg hp]
  rw [List.map_congr_left (fun p _ => this p)]
  exact List.map_id l

theorem hybridAccum_zero (len : ℚ) :
    ∀ (l : List String) (acc : List (String × ℚ)) (i : ℚ),
      (∀ it ∈ l, (alookup acc it).isSome = true) →
      hybridAccum 0 len acc i l = acc := by
  intro l
  induction l with
  | nil =>
    intro acc i _
    rw [hybridAccum]
  | cons it rest ih =>
    intro acc i h
    rw [hybridAccum, zero_mul, bumpScore_zero acc it
      (h it (List.mem_cons_self _ _))]
    exact ih acc (i + 1) (fun x hx => h x (List.mem_cons_of_mem _ hx))

theorem hybridAccum_zero_ext (len : ℚ) :
    ∀ (l : List String) (acc : List (String × ℚ)) (i : ℚ),
      ∃ ext, hybridAccum 0 len acc i l = acc ++ ext
        ∧ ∀ p ∈ ext, p.2 = 0 := by
  intro l
  induction l with
  | nil =>
    intro acc i
    exact ⟨[], by rw [hybridAccum, List.append_nil], by simp⟩
  | cons it rest ih =>
    intro acc i
    rw [hybridAccum, zero_mul]
    rcases hl : alookup acc it with _ | v
    · rw [bumpScore_fresh acc it 0 hl]
      obtain ⟨ext, hext, hz⟩ := ih (acc ++ [(it, 0)]) (i + 1)
      refine ⟨(it, 0) :: ext, ?_, ?_⟩
      · rw [hext, List.append_assoc]
        rfl
      · intro p hp
        rcases List.mem_cons.mp hp with rfl | hp2
        · rfl
        · exact hz p hp2
    · rw [bumpScore_zero acc it (by rw [hl]; rfl)]
      exact ih acc (i + 1)

theorem hybridAccum_keys (wq len : ℚ) :
    ∀ (l : List String) (acc : List (String × ℚ)) (i : ℚ), l.Nodup →
      (∀ it ∈ l, alookup acc it = none) →
      (hybridAccum wq len acc i l).map Prod.fst = acc.map Prod.fst ++ l := by
  intro l
  induction l with
  | nil =>
    intro acc i _ _
    rw [hybridAccum, List.append_nil]
  | cons it rest ih =>
    intro acc i hnd hfresh
    rw [List.nodup_cons] at hnd
    rw [hybridAccum, bumpScore_fresh acc it _
      (hfresh it (List.mem_cons_self _ _))]
    rw [ih (acc ++ [(it, _)]) (i + 1) hnd.2 ?fresh]
    case fresh =>
      intro x hx
      rw [alookup_append, hfresh x (List.mem_cons_of_mem _ hx)]
      have hxne : alookup [(it, wq * (1 - i / len))] x = none := by
        have : ¬ it = x := fun he => hnd.1 (he ▸ hx)
        simp [alookup, this]
      rw [hxne]
      rfl
    rw [List.map_append, List.append_assoc]
    rfl

theorem fillFromItems_nodup (k : Nat) (ui : List String) (w : World) :
    ∀ (l : List String) (acc : List String), acc.Nodup →
      (fillFromItems k ui w acc l).Nodup := by
  intro l
  induction l with
  | nil =>
    intro acc h
    rw [fillFromItems]
    exact h
  | cons it rest ih =>
    intro acc h
    rw [fillFromItems]
    by_cases hg : k ≤ acc.length
    · rw [if_pos hg]
      exact h
    · rw [if_neg hg]
      by_cases hc : (!(ui.contains it) && !(acc.contains it)
          && isAvailable w it) = true
      · rw [if_pos hc]
        refine ih (acc ++ [it]) ?_
        rw [List.nodup_append]
        refine ⟨h, List.nodup_singleton _, ?_⟩
        intro a ha hb
        rw [List.mem_singleton] at hb
        subst hb
        have hnc : (acc.contains a) = false := by
          have := hc
          simp only [Bool.and_eq_true, Bool.not_eq_true'] at this
          exact this.1.2
        rw [← Bool.not_eq_true] at hnc
        exact hnc ((scontains_iff _ _).mpr ha)
      · rw [if_neg hc]
        exact ih acc h
  
theorem fillFromCats_nodup (k : Nat) (ui : List String) (w : World) :
    ∀ (cats : List (String × ℚ)) (acc : List String), acc.Nodup →
      (fillFromCats k ui w acc cats).Nodup := by
  intro cats
  induction cats with
  | nil =>
    intro acc h
    rw [fillFromCats]
    exact h
  | cons c cs ih =>
    intro acc h
    rw [fillFromCats]
    by_cases hg : k ≤ acc.length
    · rw [if_pos hg]
      exact h
    · rw [if_neg hg]
      exact ih _ (fillFromItems_nodup k ui w (itemsInCategory w c.1) acc h)

theorem recommendByCategory_nodup (w : World) (userId : String) (k : Nat) :
    (recommendByCategory w userId k).Nodup := by
  unfold recommendByCategory
  rcases alookup w.users userId with _ | u
  · exact List.Pairwise.nil
  · exact (fillFromCats_nodup k u.items w _ [] List.Pairwise.nil).sublist
      (List.take_sublist _ _)

theorem hybridAccum_one_props (len : ℚ) (hlen : 0 < len) :
    ∀ (l : List String) (acc : List (String × ℚ)) (i : ℚ), l.Nodup →
      (∀ it ∈ l, alookup acc it = none) →
      acc.Pairwise byScoreDesc →
      (∀ p ∈ acc, 1 * (1 - i / len) ≤ p.2) →
      (∀ p ∈ acc, 0 ≤ p.2) →
      i + (l.length : ℚ) ≤ len →
      (hybridAccum 1 len acc i l).Pairwise byScoreDesc
      ∧ ∀ p ∈ hybridAccum 1 len acc i l, 0 ≤ p.2 := by
  intro l
  induction l with
  | nil =>
    intro acc i _ _ hs _ hnn _
    rw [hybridAccum]
    exact ⟨hs, hnn⟩
  | cons it rest ih =>
    intro acc i hnd hfresh hs hub hnn hil
    rw [List.nodup_cons] at hnd
    push_cast [List.length_cons] at hil
    rw [hybridAccum, bumpScore_fresh acc it _
      (hfresh it (List.mem_cons_self _ _))]
    have hrest0 : (0 : ℚ) ≤ (rest.length : ℚ) := by positivity
    have hi1 : i + 1 ≤ len := by linarith
    have hv0 : 0 ≤ 1 * (1 - i / len) := by
      have h1 : i / len ≤ 1 := (div_le_one hlen).mpr (by linarith)
      linarith
    have hmono : 1 * (1 - (i + 1) / len) ≤ 1 * (1 - i / len) := by
      have h1 : i / len ≤ (i + 1) / len := by
        gcongr
        linarith
      linarith
    refine ih (acc ++ [(it, 1 * (1 - i / len))]) (i + 1) hnd.2 ?_ ?_ ?_ ?_ ?_
    · intro x hx
      rw [alookup_append, hfresh x (List.mem_cons_of_mem _ hx)]
      have hone : alookup [(it, 1 * (1 - i / len))] x = none := by
        have hne : ¬ it = x := fun he => hnd.1 (he ▸ hx)
        simp [alookup, hne]
      rw [hone]
      rfl
    · rw [List.pairwise_append]
      refine ⟨hs, List.pairwise_singleton _ _, ?_⟩
      intro p hp q hq
      rw [List.mem_singleton] at hq
      subst hq
      exact hub p hp
    · intro p hp
      rcases List.mem_append.mp hp with hp1 | hp2
      · exact le_trans hmono (hub p hp1)
      · rw [List.mem_singleton] at hp2
        subst hp2
        exact hmono
    · intro p hp
      rcases List.mem_append.mp hp with hp1 | hp2
      · exact hnn p hp1
      · rw [List.mem_singleton] at hp2
        subst hp2
        exact hv0
    · push_cast
      linarith

theorem sorted_append_zeros (s1 ext : List (String × ℚ))
    (hs : s1.Pairwise byScoreDesc) (hnn : ∀ p ∈ s1, 0 ≤ p.2)
    (hz : ∀ p ∈ ext, p.2 = 0) : (s1 ++ ext).Pairwise byScoreDesc := by
  rw [List.pairwise_append]
  refine ⟨hs, ?_, ?_⟩
  · refine List.pairwise_of_forall_mem_list ?_
    intro a ha b hb
    show b.2 ≤ a.2
    rw [hz a ha, hz b hb]
  · intro a ha b hb
    show b.2 ≤ a.2
    rw [hz b hb]
    exact hnn a ha

/-- C2 (amended): with `contentWeight = 1` and `collabWeight = 0` the hybrid
recommendation equals the content-based recommendation for the same `k`
provided the content strategy can fill the requested count (its `2k`-run
has at least `k` items) or every collaborative candidate already appears
among the content candidates.  Without that proviso the hybrid list pads
with zero-scored collaborative items that the content strategy does not
return. -/
theorem C2_hybrid_weights (simf : String → String → ℚ) (w : World)
    (userId : String) (topK : Nat)
    (hyp : topK ≤ (recommendByCategory w userId (topK * 2)).length
      ∨ ∀ it ∈ recommendBySimilarUsers simf w userId (topK * 2),
          it ∈ recommendByCategory w userId (topK * 2)) :
    recommendHybrid simf w userId topK 1 0
      = recommendByCategory w userId topK := by
  unfold recommendHybrid
  dsimp only
  set content := recommendByCategory w userId (topK * 2) with hcontentdef
  set collab := recommendBySimilarUsers simf w userId (topK * 2) with hcollabdef
  set s1 := hybridAccum 1 ((content.length : ℚ)) [] 0 content with hs1def
  have hnodup : content.Nodup := by
    rw [hcontentdef]
    exact recommendByCategory_nodup w userId (topK * 2)
  have hkeys : s1.map Prod.fst = content := by
    rw [hs1def]
    have hx := hybridAccum_keys 1 ((content.length : ℚ)) content [] 0 hnodup
      (fun it _ => rfl)
    simpa using hx
  have hprops : s1.Pairwise byScoreDesc ∧ ∀ p ∈ s1, 0 ≤ p.2 := by
    rcases eq_or_ne content [] with hc0 | hc0
    · rw [hs1def, hc0, hybridAccum]
      exact ⟨List.Pairwise.nil, by simp⟩
    · have hpos : 0 < ((content.length : ℚ)) := by
        have h1 : 0 < content.length := List.length_pos.mpr hc0
        exact_mod_cast h1
      rw [hs1def]
      exact hybridAccum_one_props _ hpos content [] 0 hnodup
        (fun it _ => rfl) List.Pairwise.nil (by simp) (by simp) (by simp)
  obtain ⟨hs1sorted, hs1nn⟩ := hprops
  rcases hyp with hA | hB
  · obtain ⟨ext, hext, hz⟩ := hybridAccum_zero_ext
      ((collab.length : ℚ)) collab s1 0
    rw [hext, List.Sorted.insertionSort_eq
      (sorted_append_zeros s1 ext hs1sorted hs1nn hz)]
    have hs1len : s1.length = content.length := by
      have hy := congrArg List.length hkeys
      rw [List.length_map] at hy
      exact hy
    rw [List.take_append_eq_append_take,
      Nat.sub_eq_zero_of_le (by rw [hs1len]; exact hA), List.take_zero,
      List.append_nil]
    rw [List.map_take, hkeys, hcontentdef]
    exact (recommendByCategory_take_eq w userId topK (topK * 2)
      (by omega)).symm
  · have hs2 : hybridAccum 0 ((collab.length : ℚ)) s1 0 collab = s1 :=
      hybridAccum_zero _ collab s1 0 (fun it hit => by
        rw [alookup_isSome_iff, hkeys]
        exact hB it hit)
    rw [hs2, List.Sorted.insertionSort_eq hs1sorted]
    rw [List.map_take, hkeys, hcontentdef]
    exact (recommendByCategory_take_eq w userId topK (topK * 2)
      (by omega)).symm

/-- C2 counterexample: in `exWorldHyb` the content strategy returns nothing
for user `u` (their only preferred category is exhausted), while the
collaborative strategy returns the available item `i3`; the hybrid run with
`contentWeight = 1, collabWeight = 0` pads with the zero-scored
collaborative item and returns `[i3]`, which the content-based
recommendation does not. -/
theorem C2_counterexample :
    recommendHybrid exSimfHyb exWorldHyb "u" 1 1 0 = ["i3"]
    ∧ recommendByCategory exWorldHyb "u" 1 = []
    ∧ recommendHybrid exSimfHyb exWorldHyb "u" 1 1 0
        ≠ recommendByCategory exWorldHyb "u" 1 := by
  have h2 : recommendByCategory exWorldHyb "u" 1 = [] := by
    norm_num +decide [recommendByCategory, exWorldHyb, alookup,
      normalizePrefs, List.insertionSort, List.orderedInsert, byScoreDesc,
      fillFromCats, fillFromItems, itemsInCategory, isAvailable]
  have h1 : recommendHybrid exSimfHyb exWorldHyb "u" 1 1 0 = ["i3"] := by
    norm_num +decide [recommendHybrid, recommendByCategory,
      recommendBySimilarUsers, getSimilarUsers, exWorldHyb, exSimfHyb,
      alookup, normalizePrefs, List.insertionSort, List.orderedInsert,
      byScoreDesc, collabRel, fillFromCats, fillFromItems, itemsInCategory,
      itemsOf, isAvailable, collabCandidates, bumpScore, hybridAccum,
      strLtB, charsLtB]
  refine ⟨h1, h2, ?_⟩
  rw [h1, h2]
  decide

theorem C2_witness :
    recommendHybrid exSimfHyb exWorldHyb "u" 0 1 0
      = recommendByCategory exWorldHyb "u" 0 :=
  C2_hybrid_weights exSimfHyb exWorldHyb "u" 0 (Or.inl (Nat.zero_le _))
